import Mathlib

/-!
# ocs2: PIPG pre-conditioning helpers and the MPC policy pipeline

A shallow embedding of `ocs2_pipg/src/HelperFunctions.cpp` (the functions
`hessianAbsRowSum` and `GGTAbsRowSumInParallel` together with the size helpers of the
anonymous namespace) and of the policy hand-off of `MPC_ROS_Interface`.

Conventions of the embedding.

* `scalar_t` is a type parameter `α` with the operations the code uses (`0`, `1`, `+`, `*`
  and the absolute value).  `Double` below is the `double` of the code; statements about
  exact values are made over linearly ordered commutative rings such as `Int` and carried
  over to `Double` for integer data on which no operation of the call rounds.
* The order in which Eigen adds the terms of a sum is not fixed by the sources; `sumUpTo`
  adds them from the last to the first.  The statements on `Double` are made where this
  order does not matter: sums of at most two terms, and sums whose terms stay below `2^53`
  in absolute value however they are grouped.
* `vector_t` is a list of scalars; `matrix_t` records its two dimensions and a coefficient
  function, so that matrices with zero rows or zero columns keep both dimensions, as in Eigen.
* Every Eigen operation whose operands must agree in size, and every `operator[]`, is
  fallible: `none` stands for a failed assertion or an out-of-range access.
* `int` dimensions are natural numbers and the `int` sums of the size helpers are sums of
  natural numbers: they are the values of the code as long as they do not exceed `INT_MAX`
  (signed overflow is undefined in C++).  `numStages` stays an `Int` because the code tests
  `N < 1`.
-/

namespace ocs2
namespace pipg

/-! ## Eigen vectors and matrices -/

/-- Dynamic column vector `vector_t`. -/
abbrev vector_t (α : Type) := List α

/-- Dynamic matrix `matrix_t`: `coeff i j` is meaningful for `i < rows`, `j < cols`. -/
structure matrix_t (α : Type) where
  rows : Nat
  cols : Nat
  coeff : Nat → Nat → α

/-- The absolute value of a scalar (`std::abs`), the operation behind `cwiseAbs`. -/
class ScalarAbs (α : Type) where
  abs : α → α

/-- In a linearly ordered ring the absolute value is the usual one. -/
instance instScalarAbsOfRing {α : Type} [LinearOrderedCommRing α] : ScalarAbs α :=
  ⟨fun a => |a|⟩

section EigenOps

variable {α : Type} [Zero α] [One α] [Add α] [Mul α] [ScalarAbs α]

/-- Sum of `f 0, ..., f (n-1)`, as `f 0 + (f 1 + (... + (f (n-1) + 0)))`. -/
def sumUpTo (n : Nat) (f : Nat → α) : α := ((List.range n).map f).sum

/-- Builds a matrix from its list of rows (entries that are missing read as zero). -/
def matrix_t.ofRows (rows cols : Nat) (data : List (List α)) : matrix_t α :=
  ⟨rows, cols, fun i j => (data.getD i []).getD j 0⟩

/-- The number of coefficients `m.size()`. -/
def matrix_t.size (m : matrix_t α) : Nat := m.rows * m.cols

/-- The matrix `matrix_t::Identity(rows, cols)`. -/
def matrix_t.Identity (rows cols : Nat) : matrix_t α :=
  ⟨rows, cols, fun i j => if i = j then 1 else 0⟩

/-- The matrix `m.transpose()`. -/
def matrix_t.transpose (m : matrix_t α) : matrix_t α :=
  ⟨m.cols, m.rows, fun i j => m.coeff j i⟩

/-- The matrix `m.cwiseAbs()`. -/
def matrix_t.cwiseAbs (m : matrix_t α) : matrix_t α :=
  ⟨m.rows, m.cols, fun i j => ScalarAbs.abs (m.coeff i j)⟩

/-- The vector `m.rowwise().sum()`, of length `m.rows`. -/
def matrix_t.rowwiseSum (m : matrix_t α) : vector_t α :=
  (List.range m.rows).map (fun i => sumUpTo m.cols (fun j => m.coeff i j))

/-- The product `a * b`; Eigen asserts `a.cols() == b.rows()`. -/
def matrix_t.mul (a b : matrix_t α) : Option (matrix_t α) :=
  if a.cols = b.rows then
    some ⟨a.rows, b.cols, fun i j => sumUpTo a.cols (fun l => a.coeff i l * b.coeff l j)⟩
  else none

/-- The update `a += b`; Eigen asserts equal dimensions. -/
def matrix_t.add (a b : matrix_t α) : Option (matrix_t α) :=
  if a.rows = b.rows ∧ a.cols = b.cols then
    some ⟨a.rows, a.cols, fun i j => a.coeff i j + b.coeff i j⟩
  else none

/-- The vector `u.cwiseProduct(v)`; Eigen asserts equal sizes. -/
def vector_t.cwiseProduct (u v : vector_t α) : Option (vector_t α) :=
  if u.length = v.length then some (List.zipWith (fun a b => a * b) u v) else none

/-- The dense matrix `v.asDiagonal().toDenseMatrix()`. -/
def vector_t.asDiagonal (v : vector_t α) : matrix_t α :=
  ⟨v.length, v.length, fun i j => if i = j then v.getD i 0 else 0⟩

/-- The update `u += v` on vectors; Eigen asserts equal sizes. -/
def vector_t.add (u v : vector_t α) : Option (vector_t α) :=
  if u.length = v.length then some (List.zipWith (fun a b => a + b) u v) else none

/-- The assignment `res.segment(start, n) = v`; Eigen asserts that the segment lies inside
`res` and that `v` has `n` entries. -/
def vector_t.setSegment (res : vector_t α) (start n : Nat) (v : vector_t α) :
    Option (vector_t α) :=
  if start + n ≤ res.length ∧ v.length = n then
    some (res.take start ++ v ++ res.drop (start + n))
  else none

/-- The update `res.segment(start, n) += v`, with the same assertions as the assignment. -/
def vector_t.addSegment (res : vector_t α) (start n : Nat) (v : vector_t α) :
    Option (vector_t α) :=
  if start + n ≤ res.length ∧ v.length = n then
    some (res.take start ++ List.zipWith (fun a b => a + b) ((res.drop start).take n) v
      ++ res.drop (start + n))
  else none

end EigenOps

/-! ## Problem data -/

/-- Modelled from the spec: the `OcpSize` of `ocs2_oc` (`StagedProblemSize`), declared
outside the sources at hand: the number of stages and the per-stage dimensions, all
non-negative. -/
structure OcpSize where
  numStages : Int
  numStates : List Nat
  numInputs : List Nat
  numIneqConstraints : List Nat

/-- The `VectorFunctionLinearApproximation` of `ocs2_core`, declared outside the sources at
hand: the value and the two Jacobians read by the code. -/
structure VectorFunctionLinearApproximation (α : Type) where
  f : vector_t α
  dfdx : matrix_t α
  dfdu : matrix_t α

/-- The `ScalarFunctionQuadraticApproximation` of `ocs2_core`, declared outside the sources
at hand: the three curvature blocks read by the code. -/
structure ScalarFunctionQuadraticApproximation (α : Type) where
  dfdxx : matrix_t α
  dfdux : matrix_t α
  dfduu : matrix_t α

/-- The largest value of an `int`. -/
def INT_MAX : Nat := 2147483647

/-- Helper `getNumDecisionVariables`: the inputs accumulated on top of the states after
stage 0. -/
def getNumDecisionVariables (ocpSize : OcpSize) : Nat :=
  ocpSize.numInputs.foldl (fun acc n => acc + n)
    ((ocpSize.numStates.drop 1).foldl (fun acc n => acc + n) 0)

/-- Helper `getNumDynamicsConstraints`: the states after stage 0 accumulated. -/
def getNumDynamicsConstraints (ocpSize : OcpSize) : Nat :=
  (ocpSize.numStates.drop 1).foldl (fun acc n => acc + n) 0

/-- Helper `getNumGeneralEqualityConstraints`. -/
def getNumGeneralEqualityConstraints (ocpSize : OcpSize) : Nat :=
  ocpSize.numIneqConstraints.foldl (fun acc n => acc + n) 0

/-! ### The size helpers in `int` arithmetic

The three helpers accumulate in an `int`.  The definitions above give their values as long as
the sums stay within `INT_MAX`; the definitions below follow the accumulator of the code on a
two's-complement machine, where an `int` addition that leaves the range wraps around. -/

namespace int

/-- The `int` that a two's-complement machine holds for the integer `z`. -/
def wrap (z : Int) : Int := (z + 2147483648) % 4294967296 - 2147483648

/-- The call `std::accumulate(first, last, init)` with an `int` accumulator. -/
def accumulate (l : List Nat) (init : Int) : Int :=
  l.foldl (fun (acc : Int) (n : Nat) => wrap (acc + (n : Int))) init

/-- Helper `getNumDecisionVariables`, with the `int` accumulator of the code. -/
def getNumDecisionVariables (ocpSize : OcpSize) : Int :=
  accumulate ocpSize.numInputs (accumulate (ocpSize.numStates.drop 1) 0)

/-- Helper `getNumDynamicsConstraints`, with the `int` accumulator of the code. -/
def getNumDynamicsConstraints (ocpSize : OcpSize) : Int :=
  accumulate (ocpSize.numStates.drop 1) 0

/-- Helper `getNumGeneralEqualityConstraints`, with the `int` accumulator of the code. -/
def getNumGeneralEqualityConstraints (ocpSize : OcpSize) : Int :=
  accumulate ocpSize.numIneqConstraints 0

end int

/-! ## `hessianAbsRowSum` -/

section Hessian

variable {α : Type} [Zero α] [One α] [Add α] [Mul α] [ScalarAbs α]

/-- One pass of the body of the loop `for (int k = 1; k < N; k++)` of `hessianAbsRowSum`,
from the vector `res` and the row counter `curRow` to their values after the pass. -/
def hessianAbsRowSumStage (ocpSize : OcpSize)
    (cost : List (ScalarFunctionQuadraticApproximation α)) (k : Nat)
    (res : vector_t α) (curRow : Nat) : Option (vector_t α × Nat) :=
  (ocpSize.numStates[k]?).bind fun nx_k =>
  (ocpSize.numInputs[k]?).bind fun nu_k =>
  (cost[k]?).bind fun cost_k =>
  (if cost_k.dfdxx.size ≠ 0 then
      res.setSegment curRow nx_k cost_k.dfdxx.cwiseAbs.rowwiseSum
    else some res).bind fun res =>
  (if cost_k.dfdux.size ≠ 0 then
      res.addSegment curRow nx_k cost_k.dfdux.transpose.cwiseAbs.rowwiseSum
    else some res).bind fun res =>
  (if cost_k.dfdux.size ≠ 0 then
      res.setSegment (curRow + nx_k) nu_k cost_k.dfdux.cwiseAbs.rowwiseSum
    else some res).bind fun res =>
  (if cost_k.dfduu.size ≠ 0 then
      res.addSegment (curRow + nx_k) nu_k cost_k.dfduu.cwiseAbs.rowwiseSum
    else some res).bind fun res =>
  some (res, curRow + nx_k + nu_k)

/-- The loop `for (int k = 1; k < N; k++)`, entered at stage `k` with `iterations` passes
left. -/
def hessianAbsRowSumLoop (ocpSize : OcpSize)
    (cost : List (ScalarFunctionQuadraticApproximation α)) :
    Nat → Nat → vector_t α → Nat → Option (vector_t α × Nat)
  | 0, _, res, curRow => some (res, curRow)
  | iterations + 1, k, res, curRow =>
    match hessianAbsRowSumStage ocpSize cost k res curRow with
    | none => none
    | some (res1, curRow1) => hessianAbsRowSumLoop ocpSize cost iterations (k + 1) res1 curRow1

/-- The function `hessianAbsRowSum`.  The vector `res` is created without initialisation:
`uninit i` is the value found in entry `i` of the fresh memory. -/
def hessianAbsRowSum (ocpSize : OcpSize)
    (cost : List (ScalarFunctionQuadraticApproximation α)) (uninit : Nat → α) :
    Option (vector_t α) :=
  let N := ocpSize.numStages
  (ocpSize.numInputs[0]?).bind fun nu_0 =>
  let res : vector_t α := (List.range (getNumDecisionVariables ocpSize)).map uninit
  (cost[0]?).bind fun cost_0 =>
  (res.setSegment 0 nu_0 cost_0.dfduu.cwiseAbs.rowwiseSum).bind fun res =>
  (hessianAbsRowSumLoop ocpSize cost (N - 1).toNat 1 res nu_0).bind fun (res, _) =>
  (if N < 0 then none else ocpSize.numStates[N.toNat]?).bind fun nx_N =>
  (if N < 0 then none else cost[N.toNat]?).bind fun cost_N =>
  res.setSegment (res.length - nx_N) nx_N cost_N.dfdxx.cwiseAbs.rowwiseSum

end Hessian

/-! ## `GGTAbsRowSumInParallel` -/

section GGT

variable {α : Type} [Zero α] [One α] [Add α] [Mul α] [ScalarAbs α]

/-- The diagonal factor used by the task for stage `j`: the identity of size `n` when no
scaling vectors are given, the dense diagonal matrix of scaling vector `j` otherwise. -/
def scalingMatrix (scalingVectorsPtr : Option (List (vector_t α))) (j n : Nat) :
    Option (matrix_t α) :=
  match scalingVectorsPtr with
  | none => some (matrix_t.Identity n n)
  | some scalingVectors => (scalingVectors[j]?).map vector_t.asDiagonal

/-- The first value given to `tempMatrixArray[k]`: the identity of size `nx_next`, or the
dense diagonal matrix of the squared entries of scaling vector `k`. -/
def GGTDiagonalTerm (scalingVectorsPtr : Option (List (vector_t α))) (k nx_next : Nat) :
    Option (matrix_t α) :=
  match scalingVectorsPtr with
  | none => some (matrix_t.Identity nx_next nx_next)
  | some scalingVectors =>
    (scalingVectors[k]?).bind fun s => (s.cwiseProduct s).map vector_t.asDiagonal

/-- The body of the `while` loop of the task lambda for the claimed index `k`: the values
stored in `tempMatrixArray[k]` and `absRowSumArray[k]`. -/
def GGTAbsRowSumTask (ocpSize : OcpSize)
    (dynamics : List (VectorFunctionLinearApproximation α))
    (scalingVectorsPtr : Option (List (vector_t α))) (k : Nat) :
    Option (matrix_t α × vector_t α) :=
  let N := ocpSize.numStages
  (ocpSize.numStates[k + 1]?).bind fun nx_next =>
  (dynamics[k]?).bind fun dynamics_k =>
  let B := dynamics_k.dfdu
  (GGTDiagonalTerm scalingVectorsPtr k nx_next).bind fun temp =>
  (B.mul B.transpose).bind fun BBt =>
  (temp.add BBt).bind fun temp =>
  (if k ≠ 0 then
      let A := dynamics_k.dfdx
      (A.mul A.transpose).bind fun AAt => temp.add AAt
    else some temp).bind fun temp =>
  let absRowSum := temp.cwiseAbs.rowwiseSum
  (if k ≠ 0 then
      let A := dynamics_k.dfdx
      (scalingMatrix scalingVectorsPtr (k - 1) A.cols).bind fun S =>
      (A.mul S).bind fun AS => absRowSum.add AS.cwiseAbs.rowwiseSum
    else some absRowSum).bind fun absRowSum =>
  (if (k : Int) ≠ N - 1 then
      (dynamics[k + 1]?).bind fun dynamics_next =>
      let ANext := dynamics_next.dfdx
      (scalingMatrix scalingVectorsPtr k ANext.cols).bind fun S =>
      (ANext.mul S).bind fun AS => absRowSum.add AS.transpose.cwiseAbs.rowwiseSum
    else some absRowSum).bind fun absRowSum =>
  some (temp, absRowSum)

end GGT

section Pool

variable {α : Type}

/-- Where a worker stands in the task lambda: about to evaluate `k = timeIndex++`, inside
the loop body with the claimed index `k`, or returned from the lambda. -/
inductive WorkerState
  | fetching
  | holding (k : Nat)
  | finished
  deriving DecidableEq, Repr

/-- The state shared by the workers: the atomic counter, the two arrays captured by
reference, and the position of every worker. -/
structure TaskState (α : Type) where
  timeIndex : Nat
  tempMatrixArray : List (matrix_t α)
  absRowSumArray : List (vector_t α)
  workers : List WorkerState

/-- The workers that have not yet returned from the lambda. -/
def activeWorkers (workers : List WorkerState) : List Nat :=
  (List.range workers.length).filter (fun i => workers.getD i .finished ≠ .finished)

/-- One step of worker `i`.  A fetching worker performs the atomic `timeIndex++` and tests
the value read against `N`; a worker holding `k` runs the loop body for `k`.  The body reads
the constant arguments and writes slot `k` of the two arrays only, so it is taken as one
step. -/
def workerStep (body : Nat → Option (matrix_t α × vector_t α)) (N : Nat) (i : Nat)
    (s : TaskState α) : Option (TaskState α) :=
  match s.workers.getD i .finished with
  | .fetching =>
    let k := s.timeIndex
    some { s with timeIndex := s.timeIndex + 1,
                  workers := s.workers.set i (if k < N then .holding k else .finished) }
  | .holding k =>
    match body k with
    | none => none
    | some (temp, absRowSum) =>
      some { s with tempMatrixArray := s.tempMatrixArray.set k temp,
                    absRowSumArray := s.absRowSumArray.set k absRowSum,
                    workers := s.workers.set i .fetching }
  | .finished => some s

/-- The interleaved execution of the workers.  At every step the scheduler value
`schedule 0` selects one of the workers still running; the run ends when all have
returned. -/
def runWorkers (body : Nat → Option (matrix_t α × vector_t α)) (N : Nat) :
    Nat → (Nat → Nat) → TaskState α → Option (TaskState α)
  | 0, _, s => some s
  | fuel + 1, schedule, s =>
    match activeWorkers s.workers with
    | [] => some s
    | i :: rest =>
      match workerStep body N ((i :: rest).getD (schedule 0 % (rest.length + 1)) i) s with
      | none => none
      | some s1 => runWorkers body N fuel (fun t => schedule (t + 1)) s1

/-- The `ThreadPool` of `ocs2_core`, declared outside the sources at hand, reduced to the
number of its threads. -/
structure ThreadPool where
  numThreads : Nat

/-- Modelled from the spec: `ThreadPool::runParallel(task, n)` of `ocs2_core` is not part
of the sources at hand.  It starts `n` workers on the task and returns once all of them
have returned; the workers share nothing but what the task captures, here the atomic claim
counter and the two arrays.  Each of the `N` indices costs one claim and one pass of the
body and each worker makes one last claim, so `2 * N + n` steps always suffice. -/
def runParallel [Zero α] (body : Nat → Option (matrix_t α × vector_t α)) (N n : Nat)
    (schedule : Nat → Nat) : Option (TaskState α) :=
  runWorkers body N (2 * N + n) schedule
    { timeIndex := 0
      tempMatrixArray := List.replicate N ⟨0, 0, fun _ _ => 0⟩
      absRowSumArray := List.replicate N []
      workers := List.replicate n .fetching }

/-- The loop `for (const auto& v : absRowSumArray)` copying the blocks into `res`. -/
def copyBlocks : List (vector_t α) → vector_t α → Nat → Option (vector_t α)
  | [], res, _ => some res
  | v :: rest, res, curRow =>
    match res.setSegment curRow v.length v with
    | none => none
    | some res1 => copyBlocks rest res1 (curRow + v.length)

end Pool

section GGTCall

variable {α : Type} [Zero α] [One α] [Add α] [Mul α] [ScalarAbs α]

/-- The two `std::runtime_error`s thrown by `GGTAbsRowSumInParallel`. -/
inductive Exception
  | numStagesLessThanOne
  | scalingVectorsSizeMismatch
  deriving DecidableEq, Repr

/-- How a call ends: it returns a value, it throws one of its two errors, or it is cut short
by a failed Eigen assertion or an out-of-range access, which nothing in the function catches
or guards.  Each carries the Eigen thread count (`Eigen::nbThreads()`) left behind. -/
inductive Outcome (β : Type)
  | returned (value : β) (nbThreads : Nat)
  | thrown (e : Exception) (nbThreads : Nat)
  | aborted (nbThreads : Nat)
  deriving DecidableEq

/-- The call `Eigen::setNbThreads(v)` on the process-wide thread count: the setting
becomes `v` (`0` stands for the automatic choice), whatever it was. -/
def setNbThreads (v : Nat) (_nbThreads : Nat) : Nat := v

/-- The function `GGTAbsRowSumInParallel`.  `nbThreads` is the Eigen thread count on entry
and `schedule` resolves the order in which the workers of the pool take their steps. -/
def GGTAbsRowSumInParallel (ocpSize : OcpSize)
    (dynamics : List (VectorFunctionLinearApproximation α))
    (constraints : Option (List (VectorFunctionLinearApproximation α)))
    (scalingVectorsPtr : Option (List (vector_t α)))
    (threadPool : ThreadPool) (schedule : Nat → Nat) (nbThreads : Nat) :
    Outcome (vector_t α) :=
  let _unused := constraints
  let N := ocpSize.numStages
  if N < 1 then
    .thrown .numStagesLessThanOne nbThreads
  else if scalingVectorsPtr.any (fun scalingVectors => (scalingVectors.length : Int) ≠ N) then
    .thrown .scalingVectorsSizeMismatch nbThreads
  else
    let nbThreads := setNbThreads 1 nbThreads
    match runParallel (GGTAbsRowSumTask ocpSize dynamics scalingVectorsPtr) N.toNat
        (threadPool.numThreads + 1) schedule with
    | none => .aborted nbThreads
    | some s =>
      match copyBlocks s.absRowSumArray
          (List.replicate (getNumDynamicsConstraints ocpSize) (0 : α)) 0 with
      | none => .aborted nbThreads
      | some res =>
        let nbThreads := setNbThreads 0 nbThreads
        .returned res nbThreads

end GGTCall

/-! ## The scalar type `double`

`scalar_t` is a `double`: an IEEE 754 binary64 value, with arithmetic rounded to the nearest
value, ties to even (the default rounding mode).  Sums and products overflow to an infinity,
underflow through the subnormal values to a signed zero, and give a NaN for `∞ - ∞` and
`0 * ∞`; the NaNs are not told apart. -/

/-- A value of the type `double`: the finite value `(-1)^neg * m * 2^e`, where `m < 2^53` and
`-1074 ≤ e ≤ 971`, with `m < 2^52` only for `e = -1074` (zero and the subnormal values); an
infinity; or a NaN. -/
inductive Double
  | finite (neg : Bool) (m : Nat) (e : Int)
  | inf (neg : Bool)
  | nan
  deriving DecidableEq, Repr

namespace Double

/-- The number of binary digits of `n`, counted in at most `fuel` halvings. -/
def bitLengthAux : Nat → Nat → Nat
  | 0, _ => 0
  | fuel + 1, n => if n = 0 then 0 else bitLengthAux fuel (n / 2) + 1

/-- The number of binary digits of `n`. -/
def bitLength (n : Nat) : Nat := bitLengthAux n n

/-- The integer nearest to `M / 2^sh`, the even one of the two when `M / 2^sh` lies half-way
between them. -/
def roundShift (M sh : Nat) : Nat :=
  if 2 * (M % 2 ^ sh) < 2 ^ sh then M / 2 ^ sh
  else if 2 * (M % 2 ^ sh) = 2 ^ sh then
    (if (M / 2 ^ sh) % 2 = 0 then M / 2 ^ sh else M / 2 ^ sh + 1)
  else M / 2 ^ sh + 1

/-- The exponent of the `double` nearest to `M * 2^E`: the one that leaves the significand
53 digits, and `-1074` below the normal range. -/
def exponentOf (M : Nat) (E : Int) : Int := max (E + bitLength M - 53) (-1074)

/-- The `double` with significand `m ≤ 2^53` and exponent `e`: a significand rounded up to
`2^53` moves to the next exponent, and an exponent above `971` gives an infinity. -/
def pack (neg : Bool) (m : Nat) (e : Int) : Double :=
  if m = 2 ^ 53 then (if 971 < e + 1 then inf neg else finite neg (2 ^ 52) (e + 1))
  else if 971 < e then inf neg
  else finite neg m e

/-- The `double` nearest to `(-1)^neg * M * 2^E`, ties to even. -/
def round (neg : Bool) (M : Nat) (E : Int) : Double :=
  if M = 0 then finite neg 0 (-1074)
  else if exponentOf M E ≤ E then pack neg (M * 2 ^ (E - exponentOf M E).toNat) (exponentOf M E)
  else pack neg (roundShift M (exponentOf M E - E).toNat) (exponentOf M E)

/-- The integer `(-1)^neg * m * 2^(e - E)`, for `E ≤ e`. -/
def scaled (neg : Bool) (m : Nat) (e E : Int) : Int :=
  if neg then -((m * 2 ^ (e - E).toNat : Nat) : Int) else ((m * 2 ^ (e - E).toNat : Nat) : Int)

/-- The sum `x + y` of two `double`s. -/
def add : Double → Double → Double
  | finite s m e, finite t n f =>
    if scaled s m e (min e f) + scaled t n f (min e f) = 0 then finite (s && t) 0 (-1074)
    else round (decide (scaled s m e (min e f) + scaled t n f (min e f) < 0))
      (scaled s m e (min e f) + scaled t n f (min e f)).natAbs (min e f)
  | finite _ _ _, inf t => inf t
  | inf s, finite _ _ _ => inf s
  | inf s, inf t => if s = t then inf s else nan
  | nan, _ => nan
  | _, nan => nan

/-- The product `x * y` of two `double`s. -/
def mul : Double → Double → Double
  | finite s m e, finite t n f => round (xor s t) (m * n) (e + f)
  | finite s m _, inf t => if m = 0 then nan else inf (xor s t)
  | inf s, finite t n _ => if n = 0 then nan else inf (xor s t)
  | inf s, inf t => inf (xor s t)
  | nan, _ => nan
  | _, nan => nan

/-- The absolute value `std::abs(x)`. -/
def abs : Double → Double
  | finite _ m e => finite false m e
  | inf _ => inf false
  | nan => nan

/-- The `double` of an integer. -/
def ofInt (z : Int) : Double := round (decide (z < 0)) z.natAbs 0

/-- The `double` `2^k`. -/
def pow2 (k : Int) : Double := round false 1 k

/-- The integer that a `double` stands for, when it is finite and stands for one. -/
def toInt? : Double → Option Int
  | finite neg m e =>
    if 0 ≤ e then some (if neg then -((m * 2 ^ e.toNat : Nat) : Int) else (m * 2 ^ e.toNat : Nat))
    else if m % 2 ^ (-e).toNat = 0 then
      some (if neg then -((m / 2 ^ (-e).toNat : Nat) : Int) else (m / 2 ^ (-e).toNat : Nat))
    else none
  | inf _ => none
  | nan => none

/-- Whether a `double` is greater than zero. -/
def isPositive : Double → Bool
  | finite neg m _ => !neg && decide (m ≠ 0)
  | inf neg => !neg
  | nan => false

/-- The claim `M * 2^E = n` on natural numbers, for an integer exponent `E`. -/
def IsValue (M : Nat) (E : Int) (n : Nat) : Prop :=
  (0 ≤ E ∧ M * 2 ^ E.toNat = n) ∨ (E < 0 ∧ M = n * 2 ^ (-E).toNat)

instance : Zero Double := ⟨finite false 0 (-1074)⟩

instance : One Double := ⟨finite false (2 ^ 52) (-52)⟩

instance : Add Double := ⟨add⟩

instance : Mul Double := ⟨mul⟩

instance : ScalarAbs Double := ⟨abs⟩

end Double

/-! ## Integers within the exact range of `double`

Sums and products of integers are exact in `double` arithmetic as long as the results stay
below `2^53` in absolute value.  `ExactInt` is the arithmetic of such integers, with one
more value for a result that has left the range. -/

/-- An integer of absolute value below `2^53`, or `lost`: the result of an operation that
has left this range, directly or through one of its operands. -/
inductive ExactInt
  | value (z : Int)
  | lost
  deriving DecidableEq, Repr

namespace ExactInt

/-- The integer `z` when it lies in the range, `lost` otherwise. -/
def ofInt (z : Int) : ExactInt := if z.natAbs < 2 ^ 53 then value z else lost

/-- The sum, when both operands and the sum lie in the range. -/
def add : ExactInt → ExactInt → ExactInt
  | value a, value b => ofInt (a + b)
  | _, _ => lost

/-- The product, when both operands and the product lie in the range. -/
def mul : ExactInt → ExactInt → ExactInt
  | value a, value b => ofInt (a * b)
  | _, _ => lost

/-- The absolute value. -/
def abs : ExactInt → ExactInt
  | value a => ofInt |a|
  | lost => lost

instance : Zero ExactInt := ⟨value 0⟩

instance : One ExactInt := ⟨value 1⟩

instance : Add ExactInt := ⟨add⟩

instance : Mul ExactInt := ⟨mul⟩

instance : ScalarAbs ExactInt := ⟨abs⟩

end ExactInt

/-! ## Data read at another scalar type, and related runs -/

section Relations

variable {β γ : Type}

/-- The matrix with `f` applied to every coefficient. -/
def matrix_t.map (f : β → γ) (m : matrix_t β) : matrix_t γ :=
  ⟨m.rows, m.cols, fun i j => f (m.coeff i j)⟩

/-- The linear approximation with `f` applied to every coefficient. -/
def VectorFunctionLinearApproximation.map (f : β → γ)
    (d : VectorFunctionLinearApproximation β) : VectorFunctionLinearApproximation γ :=
  ⟨d.f.map f, d.dfdx.map f, d.dfdu.map f⟩

/-- The quadratic approximation with `f` applied to every coefficient. -/
def ScalarFunctionQuadraticApproximation.map (f : β → γ)
    (c : ScalarFunctionQuadraticApproximation β) : ScalarFunctionQuadraticApproximation γ :=
  ⟨c.dfdxx.map f, c.dfdux.map f, c.dfduu.map f⟩

/-- Two optional values are both absent, or both present and related. -/
def OptRel {a b : Type} (S : a → b → Prop) : Option a → Option b → Prop
  | some x, some y => S x y
  | none, none => True
  | _, _ => False

/-- Two matrices have the same dimensions and related coefficients. -/
def MatRel (R : β → γ → Prop) (m1 : matrix_t β) (m2 : matrix_t γ) : Prop :=
  m1.rows = m2.rows ∧ m1.cols = m2.cols ∧ ∀ i j, R (m1.coeff i j) (m2.coeff i j)

/-- Two linear approximations have related Jacobians. -/
def DynRel (R : β → γ → Prop) (d1 : VectorFunctionLinearApproximation β)
    (d2 : VectorFunctionLinearApproximation γ) : Prop :=
  MatRel R d1.dfdx d2.dfdx ∧ MatRel R d1.dfdu d2.dfdu

/-- Two quadratic approximations have related curvature blocks. -/
def CostRel (R : β → γ → Prop) (c1 : ScalarFunctionQuadraticApproximation β)
    (c2 : ScalarFunctionQuadraticApproximation γ) : Prop :=
  MatRel R c1.dfdxx c2.dfdxx ∧ MatRel R c1.dfdux c2.dfdux ∧ MatRel R c1.dfduu c2.dfduu

/-- Two calls end in the same way, with related values when they return. -/
def OutcomeRel {a b : Type} (S : a → b → Prop) : Outcome a → Outcome b → Prop
  | .returned x n, .returned y k => S x y ∧ n = k
  | .thrown e n, .thrown f k => e = f ∧ n = k
  | .aborted n, .aborted k => n = k
  | _, _ => False

/-- A relation between two scalar types that the operations of the code respect. -/
structure ScalarRel [Zero β] [One β] [Add β] [Mul β] [ScalarAbs β]
    [Zero γ] [One γ] [Add γ] [Mul γ] [ScalarAbs γ] (R : β → γ → Prop) : Prop where
  zero : R 0 0
  one : R 1 1
  add : ∀ {a b c d}, R a c → R b d → R (a + b) (c + d)
  mul : ∀ {a b c d}, R a c → R b d → R (a * b) (c * d)
  abs : ∀ {a c}, R a c → R (ScalarAbs.abs a) (ScalarAbs.abs c)

/-- The `double` `x` is the integer that `c` holds, when `c` holds one. -/
def DoubleExact (x : Double) (c : ExactInt) : Prop :=
  ∀ z, c = .value z → x.toInt? = some z

/-- The integer `a` is the one that `c` holds, when `c` holds one. -/
def IntExact (a : Int) (c : ExactInt) : Prop :=
  ∀ z, c = .value z → a = z

/-- When `c2` holds an integer `b`, `c1` holds an integer of absolute value at most `b`. -/
def Dominated (c1 c2 : ExactInt) : Prop :=
  ∀ b, c2 = .value b → ∃ z, c1 = .value z ∧ |z| ≤ b

end Relations

/-! ## Integer data and the exact range -/

/-- The `double`s of integer dynamics. -/
def doubleDynamics (dynamics : List (VectorFunctionLinearApproximation Int)) :
    List (VectorFunctionLinearApproximation Double) :=
  dynamics.map (VectorFunctionLinearApproximation.map Double.ofInt)

/-- The `double`s of integer scaling vectors. -/
def doubleScaling (scalingVectorsPtr : Option (List (vector_t Int))) :
    Option (List (vector_t Double)) :=
  scalingVectorsPtr.map (List.map (List.map Double.ofInt))

/-- The `double`s of integer cost blocks. -/
def doubleCost (cost : List (ScalarFunctionQuadraticApproximation Int)) :
    List (ScalarFunctionQuadraticApproximation Double) :=
  cost.map (ScalarFunctionQuadraticApproximation.map Double.ofInt)

/-- The absolute value of an integer, in `ExactInt`. -/
def absExact (z : Int) : ExactInt := ExactInt.ofInt |z|


/-! ## Proof-side definitions for the worker pool -/

section PoolDefs

variable {α : Type}

/-- Steps a worker still owes: a pass of the body and the last claim. -/
def workerDebt : WorkerState → Nat
  | .fetching => 1
  | .holding _ => 2
  | .finished => 0

/-- Steps the whole pool still owes. -/
def poolDebt (N : Nat) (s : TaskState α) : Nat :=
  2 * (N - s.timeIndex) + (s.workers.map workerDebt).sum

/-- What holds of the shared state at every moment of a run. -/
structure PoolInv (body : Nat → Option (matrix_t α × vector_t α)) (N : Nat)
    (s : TaskState α) : Prop where
  length_eq : s.absRowSumArray.length = N
  claimed : ∀ k, k < N → k < s.timeIndex →
    .holding k ∈ s.workers ∨ ∃ temp v, body k = some (temp, v) ∧ s.absRowSumArray[k]? = some v
  holding_lt : ∀ k, .holding k ∈ s.workers → k < N
  finished_le : .finished ∈ s.workers → N ≤ s.timeIndex

/-- The blocks left in `absRowSumArray` by one worker going through `k = 0, ..., N-1` in
order; `none` when the body fails for one of these indices. -/
def sequentialBlocks (body : Nat → Option (matrix_t α × vector_t α)) (N : Nat) :
    Option (List (vector_t α)) :=
  if (List.range N).all (fun k => (body k).isSome) then
    some ((List.range N).map (fun k => ((body k).map Prod.snd).getD []))
  else none

end PoolDefs

section SequentialDefs

variable {α : Type} [Zero α] [One α] [Add α] [Mul α] [ScalarAbs α]

/-- The call with the pool replaced by one sequential pass over `k = 0, ..., N-1`. -/
def GGTAbsRowSumSequential (ocpSize : OcpSize)
    (dynamics : List (VectorFunctionLinearApproximation α))
    (scalingVectorsPtr : Option (List (vector_t α))) (nbThreads : Nat) :
    Outcome (vector_t α) :=
  let N := ocpSize.numStages
  if N < 1 then
    .thrown .numStagesLessThanOne nbThreads
  else if scalingVectorsPtr.any (fun scalingVectors => (scalingVectors.length : Int) ≠ N) then
    .thrown .scalingVectorsSizeMismatch nbThreads
  else
    match sequentialBlocks (GGTAbsRowSumTask ocpSize dynamics scalingVectorsPtr) N.toNat with
    | none => .aborted 1
    | some blocks =>
      match copyBlocks blocks (List.replicate (getNumDynamicsConstraints ocpSize) (0 : α)) 0 with
      | none => .aborted 1
      | some res => .returned res 0

end SequentialDefs

/-! ## Calls that stay within the exact range -/

section ExactRuns

/-- The sums and products of a call of `GGTAbsRowSumInParallel` on integer data stay below
`2^53`, whatever the order in which the terms of a sum are taken: the sequential pass on the
absolute values of the data, in `ExactInt` arithmetic, returns a vector of integers
`bounds`. -/
abbrev GGTExact (ocpSize : OcpSize) (dynamics : List (VectorFunctionLinearApproximation Int))
    (scalingVectorsPtr : Option (List (vector_t Int))) (bounds : List Int) : Prop :=
  GGTAbsRowSumSequential ocpSize
      (dynamics.map (VectorFunctionLinearApproximation.map absExact))
      (scalingVectorsPtr.map (List.map (List.map absExact))) 0
    = .returned (bounds.map ExactInt.value) 0

/-- The sums of a call of `hessianAbsRowSum` on integer data stay below `2^53`, whatever the
order in which the terms of a sum are taken: the call on the absolute values of the data, in
`ExactInt` arithmetic and with `lost` in the fresh memory, returns a vector of integers
`bounds`. -/
abbrev HessianExact (ocpSize : OcpSize) (cost : List (ScalarFunctionQuadraticApproximation Int))
    (bounds : List Int) : Prop :=
  hessianAbsRowSum ocpSize (cost.map (ScalarFunctionQuadraticApproximation.map absExact))
      (fun _ => ExactInt.lost)
    = some (bounds.map ExactInt.value)

end ExactRuns

/-! ## A record of the steps of the workers -/

section PoolLogDefs

variable {α : Type}

/-- What a step of a worker is: the atomic `k = timeIndex++` of worker `worker` returned
`k`, or worker `worker` ran the loop body for `k` and wrote slot `k` of the two arrays. -/
inductive PoolEvent
  | claimed (worker k : Nat)
  | wrote (worker k : Nat)
  deriving DecidableEq, Repr

/-- The worker that took the step. -/
def PoolEvent.worker : PoolEvent → Nat
  | .claimed w _ => w
  | .wrote w _ => w

/-- Whether the event is a claim that returned `k`. -/
def PoolEvent.isClaimOf (k : Nat) : PoolEvent → Bool
  | .claimed _ k1 => k1 == k
  | .wrote _ _ => false

/-- Whether the event is a write of slot `k`. -/
def PoolEvent.isWriteOf (k : Nat) : PoolEvent → Bool
  | .claimed _ _ => false
  | .wrote _ k1 => k1 == k

/-- The event of the step that worker `i` takes in state `s`. -/
def workerEvent (s : TaskState α) (i : Nat) : List PoolEvent :=
  match s.workers.getD i .finished with
  | .fetching => [.claimed i s.timeIndex]
  | .holding k => [PoolEvent.wrote i k]
  | .finished => []

/-- The steps taken by `runWorkers`, in order: the same recursion, collecting the event of
every step. -/
def runWorkersLog (body : Nat → Option (matrix_t α × vector_t α)) (N : Nat) :
    Nat → (Nat → Nat) → TaskState α → List PoolEvent
  | 0, _, _ => []
  | fuel + 1, schedule, s =>
    match activeWorkers s.workers with
    | [] => []
    | i :: rest =>
      match workerStep body N ((i :: rest).getD (schedule 0 % (rest.length + 1)) i) s with
      | none => []
      | some s1 =>
        workerEvent s ((i :: rest).getD (schedule 0 % (rest.length + 1)) i)
          ++ runWorkersLog body N fuel (fun t => schedule (t + 1)) s1

/-- The steps taken by `runParallel`. -/
def runParallelLog [Zero α] (body : Nat → Option (matrix_t α × vector_t α)) (N n : Nat)
    (schedule : Nat → Nat) : List PoolEvent :=
  runWorkersLog body N (2 * N + n) schedule
    { timeIndex := 0
      tempMatrixArray := List.replicate N ⟨0, 0, fun _ _ => 0⟩
      absRowSumArray := List.replicate N []
      workers := List.replicate n .fetching }

/-- What holds of the shared state and of the record of the steps taken so far. -/
structure LogInv (N n : Nat) (s : TaskState α) (L : List PoolEvent) : Prop where
  workers_length : s.workers.length = n
  claim_ge : ∀ k, s.timeIndex ≤ k → L.filter (PoolEvent.isClaimOf k) = []
  claim_lt : ∀ k, k < s.timeIndex →
    ∃ i, i < n ∧ L.filter (PoolEvent.isClaimOf k) = [PoolEvent.claimed i k]
  held : ∀ i k : Nat, s.workers[i]? = some (WorkerState.holding k) →
    k < N ∧ L.filter (PoolEvent.isClaimOf k) = [PoolEvent.claimed i k] ∧
      L.filter (PoolEvent.isWriteOf k) = []
  written : ∀ k, L.filter (PoolEvent.isWriteOf k) = [] ∨
    ∃ i, L.filter (PoolEvent.isWriteOf k) = [PoolEvent.wrote i k] ∧
      L.filter (PoolEvent.isClaimOf k) = [PoolEvent.claimed i k] ∧ k < N
  progress : ∀ k, k < s.timeIndex → k < N →
    (∃ i : Nat, s.workers[i]? = some (WorkerState.holding k)) ∨ L.filter (PoolEvent.isWriteOf k) ≠ []
  finished : ∀ i : Nat, s.workers[i]? = some WorkerState.finished →
    ∃ L1 L2 k, L = L1 ++ PoolEvent.claimed i k :: L2 ∧ N ≤ k ∧ (∀ e ∈ L2, e.worker ≠ i) ∧
      ∀ k1, PoolEvent.claimed i k1 ∈ L1 → k1 < N
  active : ∀ i : Nat, s.workers[i]? ≠ some WorkerState.finished →
    ∀ k1, PoolEvent.claimed i k1 ∈ L → k1 < N

end PoolLogDefs

/-! ## Layout of the result of `GGTAbsRowSumInParallel` -/

section LayoutDefs

variable {α : Type} [Zero α] [One α] [Add α] [Mul α] [ScalarAbs α]

/-- The offset `numStates[1] + ... + numStates[k]` of block `k`. -/
def blockOffset (ocpSize : OcpSize) (k : Nat) : Nat :=
  ((ocpSize.numStates.drop 1).take k).sum

/-- The layout of a returned vector `res`: its length is `numStates[1] + ... + numStates[N]`
and, for every stage `k < N`, the vector stored in `absRowSumArray[k]` is the segment of
`res` that starts at `blockOffset k` and has `numStates[k+1]` entries. -/
def GGTBlockLayout (ocpSize : OcpSize)
    (dynamics : List (VectorFunctionLinearApproximation α))
    (scalingVectorsPtr : Option (List (vector_t α))) (res : vector_t α) : Prop :=
  res.length = ((ocpSize.numStates.drop 1).take ocpSize.numStages.toNat).sum ∧
    ∀ k, k < ocpSize.numStages.toNat →
      blockOffset ocpSize k + ocpSize.numStates.getD (k + 1) 0 ≤ res.length ∧
      (GGTAbsRowSumTask ocpSize dynamics scalingVectorsPtr k).map Prod.snd
        = some ((res.drop (blockOffset ocpSize k)).take (ocpSize.numStates.getD (k + 1) 0))

end LayoutDefs

/-! ## Concrete problems -/

section Examples

/-- A two-stage problem with state dimensions `1, 2, 1` and one input per stage. -/
def twoStageSize : OcpSize := ⟨2, [1, 2, 1], [1, 1], [0, 0, 0]⟩

/-- Dynamics of the two-stage problem. -/
def twoStageDynamics : List (VectorFunctionLinearApproximation Int) :=
  [⟨[0, 0], matrix_t.ofRows 2 1 [[1], [2]], matrix_t.ofRows 2 1 [[3], [-1]]⟩,
   ⟨[0], matrix_t.ofRows 1 2 [[2, -5]], matrix_t.ofRows 1 1 [[4]]⟩]

/-- Scaling vectors of the two-stage problem, of lengths `2` and `1`. -/
def twoStageScaling : List (vector_t Int) := [[2, 3], [5]]

/-- The two-stage problem with other input and inequality dimensions. -/
def twoStageSizeAlt : OcpSize := ⟨2, [1, 2, 1], [3, 4], [7, 0, 2]⟩

/-- The dynamics of the two-stage problem with another value `f` and another stage-0 state
Jacobian. -/
def twoStageDynamicsAlt : List (VectorFunctionLinearApproximation Int) :=
  [⟨[8, 9], matrix_t.ofRows 2 1 [[6], [-6]], matrix_t.ofRows 2 1 [[3], [-1]]⟩,
   ⟨[5], matrix_t.ofRows 1 2 [[2, -5]], matrix_t.ofRows 1 1 [[4]]⟩]

/-- A one-stage problem whose stage-1 state has dimension `2`. -/
def shortScalingSize : OcpSize := ⟨1, [1, 2], [1], [0, 0]⟩

/-- Dynamics whose input Jacobian has a single row, whereas `numStates[1] = 2`. -/
def shortScalingDynamics : List (VectorFunctionLinearApproximation Int) :=
  [⟨[0], matrix_t.ofRows 1 1 [[0]], matrix_t.ofRows 1 1 [[1]]⟩]

/-- One scaling vector, of length `1` instead of `numStates[1] = 2`. -/
def shortScaling : List (vector_t Int) := [[3]]

/-- A one-stage problem with one state and one input. -/
def roundingSize : OcpSize := ⟨1, [1, 1], [1], [0, 0]⟩

/-- Integer dynamics with the input Jacobian `[[2^27]]`. -/
def roundingDynamics : List (VectorFunctionLinearApproximation Int) :=
  [⟨[0], matrix_t.ofRows 1 1 [[0]], matrix_t.ofRows 1 1 [[134217728]]⟩]

/-- Dynamics in `double`s with the input Jacobian `[[0]]`. -/
def underflowDynamics : List (VectorFunctionLinearApproximation Double) :=
  [⟨[0], matrix_t.ofRows 1 1 [[0]], matrix_t.ofRows 1 1 [[0]]⟩]

/-- One scaling vector in `double`s, with the entry `2^(-600)`. -/
def underflowScaling : List (vector_t Double) := [[Double.pow2 (-600)]]

end Examples

/-! ## The claimed value of the blocks, in terms of Mathlib matrices -/

section SpecDefs

open Matrix

variable {α : Type} [LinearOrderedCommRing α]

/-- The matrix `m` read as a mathematical `r × c` matrix. -/
def matrix_t.toMatrix (m : matrix_t α) (r c : Nat) : Matrix (Fin r) (Fin c) α :=
  Matrix.of fun i j => m.coeff i j

/-- The vector `rowAbsSum M` of the sums of the absolute values along the rows of `M`. -/
def rowAbsSum {ι κ : Type} [Fintype κ] (M : Matrix ι κ α) : ι → α :=
  fun i => ∑ j, |M i j|

/-- The state dimension `numStates[j]`. -/
def stateDim (ocpSize : OcpSize) (j : Nat) : Nat := ocpSize.numStates.getD j 0

/-- The Jacobian `dynamics[k].dfdx` (the empty matrix when there is no stage `k`). -/
def dfdxOf (dynamics : List (VectorFunctionLinearApproximation α)) (k : Nat) : matrix_t α :=
  match dynamics[k]? with
  | some d => d.dfdx
  | none => ⟨0, 0, fun _ _ => 0⟩

/-- The Jacobian `dynamics[k].dfdu` (the empty matrix when there is no stage `k`). -/
def dfduOf (dynamics : List (VectorFunctionLinearApproximation α)) (k : Nat) : matrix_t α :=
  match dynamics[k]? with
  | some d => d.dfdu
  | none => ⟨0, 0, fun _ _ => 0⟩

/-- The state Jacobian `A_k = dynamics[k].dfdx`, of size `numStates[k+1] × numStates[k]`. -/
def stateJacobian (ocpSize : OcpSize) (dynamics : List (VectorFunctionLinearApproximation α))
    (k : Nat) : Matrix (Fin (stateDim ocpSize (k + 1))) (Fin (stateDim ocpSize k)) α :=
  (dfdxOf dynamics k).toMatrix _ _

/-- The input Jacobian `B_k = dynamics[k].dfdu`, with `numStates[k+1]` rows. -/
def inputJacobian (ocpSize : OcpSize) (dynamics : List (VectorFunctionLinearApproximation α))
    (k : Nat) : Matrix (Fin (stateDim ocpSize (k + 1))) (Fin (dfduOf dynamics k).cols) α :=
  (dfduOf dynamics k).toMatrix _ _

/-- The scaling `S_j` as a `d × d` matrix: `diag(scalingVectors[j])`, or the identity when
no scaling vectors are supplied. -/
def scalingDiag (scalingVectorsPtr : Option (List (vector_t α))) (j d : Nat) :
    Matrix (Fin d) (Fin d) α :=
  match scalingVectorsPtr with
  | none => 1
  | some scalingVectors => Matrix.diagonal fun i => (scalingVectors.getD j []).getD i 0

/-- The diagonal block `D_k + B_k B_kᵀ + [k>0] A_k A_kᵀ` of `G Gᵀ`, with `D_k = S_k²`. -/
def GGTDiagonalBlock (ocpSize : OcpSize)
    (dynamics : List (VectorFunctionLinearApproximation α))
    (scalingVectorsPtr : Option (List (vector_t α))) (k : Nat) :
    Matrix (Fin (stateDim ocpSize (k + 1))) (Fin (stateDim ocpSize (k + 1))) α :=
  scalingDiag scalingVectorsPtr k _ ^ 2
    + inputJacobian ocpSize dynamics k * (inputJacobian ocpSize dynamics k)ᵀ
    + (if 0 < k then stateJacobian ocpSize dynamics k * (stateJacobian ocpSize dynamics k)ᵀ
       else 0)

/-- The block `-(A_{k+1} S_k)ᵀ` of `G Gᵀ` to the right of diagonal block `k`. -/
def GGTUpperBlock (ocpSize : OcpSize)
    (dynamics : List (VectorFunctionLinearApproximation α))
    (scalingVectorsPtr : Option (List (vector_t α))) (k : Nat) :
    Matrix (Fin (stateDim ocpSize (k + 1))) (Fin (stateDim ocpSize (k + 1 + 1))) α :=
  -(stateJacobian ocpSize dynamics (k + 1) * scalingDiag scalingVectorsPtr k _)ᵀ

/-- The value claimed for block `k`:
`rowAbsSum(D_k + B_k B_kᵀ + [k>0] A_k A_kᵀ) + [k>0] rowAbsSum(A_k S_{k-1})
  + [k<N-1] rowAbsSum((A_{k+1} S_k)ᵀ)`. -/
def GGTBlockSpec (ocpSize : OcpSize)
    (dynamics : List (VectorFunctionLinearApproximation α))
    (scalingVectorsPtr : Option (List (vector_t α))) (k : Nat) :
    Fin (stateDim ocpSize (k + 1)) → α :=
  rowAbsSum (GGTDiagonalBlock ocpSize dynamics scalingVectorsPtr k)
    + (if 0 < k then
        rowAbsSum (stateJacobian ocpSize dynamics k * scalingDiag scalingVectorsPtr (k - 1) _)
       else 0)
    + (if k + 1 < ocpSize.numStages.toNat then
        rowAbsSum ((stateJacobian ocpSize dynamics (k + 1) * scalingDiag scalingVectorsPtr k _)ᵀ)
       else 0)

/-- Index of a row or column of `G Gᵀ`: a stage `k < N` and a position in the state of
stage `k + 1`. -/
abbrev GGTIndex (ocpSize : OcpSize) : Type :=
  (k : Fin ocpSize.numStages.toNat) × Fin (stateDim ocpSize (k.val + 1))

/-- The block-tridiagonal matrix `G Gᵀ`: the blocks `GGTDiagonalBlock k` on the diagonal,
`GGTUpperBlock k` to their right, the transposes of these below the diagonal, and zero
elsewhere. -/
def GGTMatrix (ocpSize : OcpSize)
    (dynamics : List (VectorFunctionLinearApproximation α))
    (scalingVectorsPtr : Option (List (vector_t α))) :
    Matrix (GGTIndex ocpSize) (GGTIndex ocpSize) α :=
  fun p q =>
    if h : q.1.val = p.1.val then
      GGTDiagonalBlock ocpSize dynamics scalingVectorsPtr p.1.val p.2
        (Fin.cast (by rw [h]) q.2)
    else if h : q.1.val = p.1.val + 1 then
      GGTUpperBlock ocpSize dynamics scalingVectorsPtr p.1.val p.2 (Fin.cast (by rw [h]) q.2)
    else if h : p.1.val = q.1.val + 1 then
      GGTUpperBlock ocpSize dynamics scalingVectorsPtr q.1.val q.2 (Fin.cast (by rw [h]) p.2)
    else 0

/-- Well-formed dimensions: `N ≥ 1`, `numStates` has `N + 1` entries, `dynamics[k].dfdu` has
`numStates[k+1]` rows, `dynamics[k].dfdx` is `numStates[k+1] × numStates[k]` for `k ≥ 1`,
and the scaling vectors, when supplied, are `N` vectors of lengths `numStates[k+1]`. -/
structure WellFormed (ocpSize : OcpSize)
    (dynamics : List (VectorFunctionLinearApproximation α))
    (scalingVectorsPtr : Option (List (vector_t α))) : Prop where
  numStages_pos : 1 ≤ ocpSize.numStages
  numStates_length : ocpSize.numStates.length = ocpSize.numStages.toNat + 1
  dfdu_rows : ∀ k, k < ocpSize.numStages.toNat →
    (dynamics[k]?).map (fun d => d.dfdu.rows) = some (stateDim ocpSize (k + 1))
  dfdx_dims : ∀ k, k < ocpSize.numStages.toNat → 0 < k →
    (dynamics[k]?).map (fun d => (d.dfdx.rows, d.dfdx.cols))
      = some (stateDim ocpSize (k + 1), stateDim ocpSize k)
  scaling_dims : ∀ scalingVectors, scalingVectorsPtr = some scalingVectors →
    scalingVectors.length = ocpSize.numStages.toNat ∧
      ∀ k, k < ocpSize.numStages.toNat →
        (scalingVectors.getD k []).length = stateDim ocpSize (k + 1)

/-- The Eigen matrix `m` has the dimensions and the coefficients of `M`. -/
def Represents {r c : Nat} (m : matrix_t α) (M : Matrix (Fin r) (Fin c) α) : Prop :=
  m.rows = r ∧ m.cols = c ∧ ∀ (i : Fin r) (j : Fin c), m.coeff i j = M i j

end SpecDefs

/-! ## The rows written by `hessianAbsRowSum` -/

section HessianSpecDefs

variable {α : Type} [LinearOrderedCommRing α]

/-- The input dimension `numInputs[j]`. -/
def inputDim (ocpSize : OcpSize) (j : Nat) : Nat := ocpSize.numInputs.getD j 0

/-- The cost blocks `cost[k]` (empty blocks when there is no stage `k`). -/
def costOf (cost : List (ScalarFunctionQuadraticApproximation α)) (k : Nat) :
    ScalarFunctionQuadraticApproximation α :=
  match cost[k]? with
  | some c => c
  | none => ⟨⟨0, 0, fun _ _ => 0⟩, ⟨0, 0, fun _ _ => 0⟩, ⟨0, 0, fun _ _ => 0⟩⟩

/-- The state rows of stage `k`: `rowAbsSum(dfdxx_k) + rowAbsSum(dfdux_kᵀ)`. -/
def hessianStateRows (cost : List (ScalarFunctionQuadraticApproximation α)) (k : Nat) :
    vector_t α :=
  List.zipWith (fun a b => a + b) (costOf cost k).dfdxx.cwiseAbs.rowwiseSum
    (costOf cost k).dfdux.transpose.cwiseAbs.rowwiseSum

/-- The input rows of stage `k`: `rowAbsSum(dfdux_k) + rowAbsSum(dfduu_k)`. -/
def hessianInputRows (cost : List (ScalarFunctionQuadraticApproximation α)) (k : Nat) :
    vector_t α :=
  List.zipWith (fun a b => a + b) (costOf cost k).dfdux.cwiseAbs.rowwiseSum
    (costOf cost k).dfduu.cwiseAbs.rowwiseSum

/-- The rows in the order in which the code writes them: the input rows of stage `0`, then
the state rows and the input rows of the stages `1, ..., N-1`, then the state rows of
stage `N`. -/
def hessianRowsInStageOrder (ocpSize : OcpSize)
    (cost : List (ScalarFunctionQuadraticApproximation α)) : vector_t α :=
  (costOf cost 0).dfduu.cwiseAbs.rowwiseSum
    ++ ((List.range (ocpSize.numStages.toNat - 1)).map
        (fun j => hessianStateRows cost (j + 1) ++ hessianInputRows cost (j + 1))).flatten
    ++ (costOf cost ocpSize.numStages.toNat).dfdxx.cwiseAbs.rowwiseSum

/-- Well-formed cost data: `N ≥ 1`, `numStates` of length `N + 1`, `numInputs` of length
`N`, `cost` of length `N + 1`, and cost blocks of matching dimensions, non-zero at the
intermediate stages. -/
structure HessianWellFormed (ocpSize : OcpSize)
    (cost : List (ScalarFunctionQuadraticApproximation α)) : Prop where
  numStages_pos : 1 ≤ ocpSize.numStages
  numStates_length : ocpSize.numStates.length = ocpSize.numStages.toNat + 1
  numInputs_length : ocpSize.numInputs.length = ocpSize.numStages.toNat
  cost_length : cost.length = ocpSize.numStages.toNat + 1
  first_dims : (costOf cost 0).dfduu.rows = inputDim ocpSize 0 ∧
    (costOf cost 0).dfduu.cols = inputDim ocpSize 0
  stage_dims : ∀ k, k < ocpSize.numStages.toNat → 0 < k →
    0 < stateDim ocpSize k ∧ 0 < inputDim ocpSize k ∧
      (costOf cost k).dfdxx.rows = stateDim ocpSize k ∧
      (costOf cost k).dfdxx.cols = stateDim ocpSize k ∧
      (costOf cost k).dfdux.rows = inputDim ocpSize k ∧
      (costOf cost k).dfdux.cols = stateDim ocpSize k ∧
      (costOf cost k).dfduu.rows = inputDim ocpSize k ∧
      (costOf cost k).dfduu.cols = inputDim ocpSize k
  last_dims : (costOf cost ocpSize.numStages.toNat).dfdxx.rows
      = stateDim ocpSize ocpSize.numStages.toNat ∧
    (costOf cost ocpSize.numStages.toNat).dfdxx.cols
      = stateDim ocpSize ocpSize.numStages.toNat

/-- The cost Hessian of stage `k`, `[[dfdxx_k, dfdux_kᵀ], [dfdux_k, dfduu_k]]`, on the
`numStates[k]` state rows followed by the `numInputs[k]` input rows. -/
def stageHessian (ocpSize : OcpSize) (cost : List (ScalarFunctionQuadraticApproximation α))
    (k : Nat) :
    Matrix (Fin (stateDim ocpSize k) ⊕ Fin (inputDim ocpSize k))
      (Fin (stateDim ocpSize k) ⊕ Fin (inputDim ocpSize k)) α :=
  Matrix.fromBlocks ((costOf cost k).dfdxx.toMatrix _ _)
    (Matrix.transpose ((costOf cost k).dfdux.toMatrix _ _))
    ((costOf cost k).dfdux.toMatrix _ _) ((costOf cost k).dfduu.toMatrix _ _)

/-- The absolute row sums of the block-diagonal cost Hessian, block after block: the
input block `dfduu_0` of stage `0`, the Hessians of the stages `1, ..., N-1`, and the state
block `dfdxx_N` of stage `N`. -/
def hessianRowsSpec (ocpSize : OcpSize)
    (cost : List (ScalarFunctionQuadraticApproximation α)) : vector_t α :=
  List.ofFn (rowAbsSum ((costOf cost 0).dfduu.toMatrix (inputDim ocpSize 0)
      (inputDim ocpSize 0)))
    ++ ((List.range (ocpSize.numStages.toNat - 1)).map (fun j =>
        List.ofFn (fun i => rowAbsSum (stageHessian ocpSize cost (j + 1)) (Sum.inl i))
          ++ List.ofFn (fun i => rowAbsSum (stageHessian ocpSize cost (j + 1)) (Sum.inr i))
        )).flatten
    ++ List.ofFn (rowAbsSum ((costOf cost ocpSize.numStages.toNat).dfdxx.toMatrix
        (stateDim ocpSize ocpSize.numStages.toNat) (stateDim ocpSize ocpSize.numStages.toNat)))

/-- All state rows, stage `1` to stage `N`. -/
def hessianAllStateRows (ocpSize : OcpSize)
    (cost : List (ScalarFunctionQuadraticApproximation α)) : vector_t α :=
  ((List.range (ocpSize.numStages.toNat - 1)).map
      (fun j => hessianStateRows cost (j + 1))).flatten
    ++ (costOf cost ocpSize.numStages.toNat).dfdxx.cwiseAbs.rowwiseSum

/-- All input rows, stage `0` to stage `N - 1`. -/
def hessianAllInputRows (ocpSize : OcpSize)
    (cost : List (ScalarFunctionQuadraticApproximation α)) : vector_t α :=
  (costOf cost 0).dfduu.cwiseAbs.rowwiseSum
    ++ ((List.range (ocpSize.numStages.toNat - 1)).map
      (fun j => hessianInputRows cost (j + 1))).flatten

/-- The ordering "all stage states except stage 0 first, all stage inputs after them": the
first `numStates[1] + ... + numStates[N]` entries of `res` are the state rows and the
remaining entries are the input rows. -/
def StatesThenInputs (ocpSize : OcpSize)
    (cost : List (ScalarFunctionQuadraticApproximation α)) (res : vector_t α) : Prop :=
  res.take (getNumDynamicsConstraints ocpSize) = hessianAllStateRows ocpSize cost ∧
    res.drop (getNumDynamicsConstraints ocpSize) = hessianAllInputRows ocpSize cost

/-- The offset at which the rows of stage `k ≥ 1` start when the rows are written stage
after stage: `numInputs[0] + (numStates[1] + numInputs[1]) + ...
  + (numStates[k-1] + numInputs[k-1])`. -/
def stageOffset (ocpSize : OcpSize) (k : Nat) : Nat :=
  inputDim ocpSize 0
    + ((List.range (k - 1)).map
        (fun j => stateDim ocpSize (j + 1) + inputDim ocpSize (j + 1))).sum

/-- The ordering of the code, stage by stage: the input rows of stage `0` come first; the
state rows of every stage `1 ≤ k < N` start at `stageOffset k` and are followed by the input
rows of that stage; the state rows of stage `N` come last. -/
def StageByStage (ocpSize : OcpSize)
    (cost : List (ScalarFunctionQuadraticApproximation α)) (res : vector_t α) : Prop :=
  res.take (inputDim ocpSize 0) = (costOf cost 0).dfduu.cwiseAbs.rowwiseSum ∧
    (∀ k, k < ocpSize.numStages.toNat → 0 < k →
      (res.drop (stageOffset ocpSize k)).take (stateDim ocpSize k)
          = hessianStateRows cost k ∧
        (res.drop (stageOffset ocpSize k + stateDim ocpSize k)).take (inputDim ocpSize k)
          = hessianInputRows cost k) ∧
    res.drop (stageOffset ocpSize ocpSize.numStages.toNat)
      = (costOf cost ocpSize.numStages.toNat).dfdxx.cwiseAbs.rowwiseSum

/-- A one-stage problem with one state and two inputs. -/
def roundingCostSize : OcpSize := ⟨1, [1, 1], [2], [0, 0]⟩

/-- Integer cost blocks whose first input row is `[2^53, -1]`. -/
def roundingCost : List (ScalarFunctionQuadraticApproximation Int) :=
  [⟨matrix_t.ofRows 1 1 [[0]], matrix_t.ofRows 2 1 [[0], [0]],
      matrix_t.ofRows 2 2 [[9007199254740992, -1], [0, 0]]⟩,
   ⟨matrix_t.ofRows 1 1 [[3]], matrix_t.ofRows 0 1 [], matrix_t.ofRows 0 0 []⟩]

/-- A one-stage problem whose dimensions add up to `INT_MAX + 1`. -/
def overflowSize : OcpSize := ⟨1, [0, 2147483647], [1], [0, 0]⟩

/-- A problem with two stages, one state and one input per stage. -/
def smallCostSize : OcpSize := ⟨2, [1, 1, 1], [1, 1], [0, 0, 0]⟩

/-- Cost blocks for `smallCostSize`. -/
def smallCost : List (ScalarFunctionQuadraticApproximation Int) :=
  [⟨matrix_t.ofRows 1 1 [[1]], matrix_t.ofRows 1 1 [[2]], matrix_t.ofRows 1 1 [[5]]⟩,
   ⟨matrix_t.ofRows 1 1 [[-3]], matrix_t.ofRows 1 1 [[4]], matrix_t.ofRows 1 1 [[6]]⟩,
   ⟨matrix_t.ofRows 1 1 [[-7]], matrix_t.ofRows 1 1 [[0]], matrix_t.ofRows 1 1 [[0]]⟩]

end HessianSpecDefs

/-! ## Bounds and special scalings -/

section BoundDefs

variable {α : Type} [LinearOrderedCommRing α]

/-- The diagonal scaling term of entry `i` of block `k`: `1` when no scaling vectors are
supplied, `scalingVectors[k][i]²` when they are. -/
def scalingTerm (scalingVectorsPtr : Option (List (vector_t α))) (k i : Nat) : α :=
  match scalingVectorsPtr with
  | none => 1
  | some scalingVectors => ((scalingVectors.getD k []).getD i 0) ^ 2

end BoundDefs

end pipg

/-! ## The policy pipeline of `MPC_ROS_Interface`

The header `MPC_ROS_Interface.h` declares the members and the callbacks of the class; the
bodies of the callbacks are not part of the sources at hand and are modelled from the
specification of the pipeline.  The two threads are modelled by atomic operations on the
state of the class; `log` is a ghost record of the hooks, solves and signals, in order. -/

/-- Modelled from the spec: the `SystemObservation`: time stamp, state, input and mode (scalars are opaque here). -/
structure SystemObservation where
  time : Int
  state : List Int
  input : List Int
  mode : Nat
  deriving DecidableEq, Repr

/-- Modelled from the spec: the `CostDesiredTrajectories`, the desired-trajectory
specification. -/
structure CostDesiredTrajectories where
  desiredTimeTrajectory : List Int
  desiredStateTrajectory : List (List Int)
  desiredInputTrajectory : List (List Int)
  deriving DecidableEq, Repr

/-- Modelled from the spec: the `PrimalSolution`: time, state and input trajectories with the
control law. -/
structure PrimalSolution where
  timeTrajectory : List Int
  stateTrajectory : List (List Int)
  inputTrajectory : List (List Int)
  controller : List (List Int)
  deriving DecidableEq, Repr

/-- Modelled from the spec: the `CommandData`: the observation and the target that produced
a solution. -/
structure CommandData where
  mpcInitObservation : SystemObservation
  mpcCostDesiredTrajectories : CostDesiredTrajectories
  deriving DecidableEq, Repr

/-- Modelled from the spec: the solver interface consumed by the pipeline (`MPC_BASE` is
not part of the sources at hand): `runSolve` yields the next solver state and whether the
solve succeeded; `extractPolicy`, `extractProvenance` and `adoptTarget` are as named in the
specification. -/
structure MPC_BASE (σ : Type) where
  runSolve : σ → SystemObservation → σ × Bool
  extractPolicy : σ → PrimalSolution
  extractProvenance : σ → CommandData
  adoptTarget : σ → CostDesiredTrajectories → σ

/-- What the ghost record holds. -/
inductive PipelineEvent
  | initCall (obs : SystemObservation)
  | initModeSequence (obs : SystemObservation)
  | preSolve (module : Nat)
  | solve (obs : SystemObservation) (succeeded : Bool)
  | notified (module : Nat)
  | swapped
  | signalled
  | postSolve (module : Nat)
  deriving DecidableEq, Repr

/-- Whether the event is an invocation of the initial-call hook. -/
def PipelineEvent.isInitCall : PipelineEvent → Bool
  | .initCall _ => true
  | _ => false

/-- Whether the event is a run of the solver. -/
def PipelineEvent.isSolve : PipelineEvent → Bool
  | .solve _ _ => true
  | _ => false

/-- The failure surfaced to the caller of the observation callback. -/
inductive SolveError
  | solveFailed
  deriving DecidableEq, Repr

/-- The members of the class `MPC_ROS_Interface` that take part in the hand-off of the
policy (`σ` is the state of the solver `mpc_`).  `resetRequested_` is the "reset requested"
flag of the specification and `numModules` the length of `synchronizedRosModules_`. -/
structure MPC_ROS_Interface (σ : Type) where
  mpc_ : σ
  currentPrimalSolution_ : Option PrimalSolution
  primalSolutionBuffer_ : Option PrimalSolution
  currentCommand_ : Option CommandData
  commandBuffer_ : Option CommandData
  numModules : Nat
  terminateThread_ : Bool
  readyToPublish_ : Bool
  initialCall_ : Bool
  resetRequested_ : Bool
  resetRequestedEver_ : Bool
  costDesiredTrajectoriesBufferUpdated_ : Bool
  costDesiredTrajectoriesBuffer_ : CostDesiredTrajectories
  log : List PipelineEvent

namespace MPC_ROS_Interface

variable {σ : Type}

/-- Modelled from the spec: `reset` (`requestReset`), whose body is not part of the sources
at hand: it marks the reset flag, stores the new desired trajectory as the pending target
and records that a reset has occurred at least once. -/
def reset (s : MPC_ROS_Interface σ) (initCostDesiredTrajectories : CostDesiredTrajectories) :
    MPC_ROS_Interface σ :=
  { s with resetRequested_ := true
           resetRequestedEver_ := true
           costDesiredTrajectoriesBufferUpdated_ := true
           costDesiredTrajectoriesBuffer_ := initCostDesiredTrajectories }

/-- Modelled from the spec: `mpcTargetTrajectoriesCallback` (`onTargetUpdate`), whose body
is not part of the sources at hand: it stores the new target and sets the dirty flag. -/
def mpcTargetTrajectoriesCallback (s : MPC_ROS_Interface σ)
    (target : CostDesiredTrajectories) : MPC_ROS_Interface σ :=
  { s with costDesiredTrajectoriesBufferUpdated_ := true
           costDesiredTrajectoriesBuffer_ := target }

/-- Modelled from the spec: steps 1 to 3 of `onObservation` and the pre-solve hooks of
step 7.  A pending reset is processed here, before solving: the slot being assembled is
cleared and the call counts as an initial call; a pending target is adopted by the solver;
on an initial call the two hooks are invoked once. -/
def prepareSolve (mpc : MPC_BASE σ) (s : MPC_ROS_Interface σ) (obs : SystemObservation) :
    MPC_ROS_Interface σ :=
  let s1 := if s.resetRequested_ then
      { s with primalSolutionBuffer_ := none
               commandBuffer_ := none
               initialCall_ := true
               resetRequested_ := false }
    else s
  let s2 := if s1.costDesiredTrajectoriesBufferUpdated_ then
      { s1 with mpc_ := mpc.adoptTarget s1.mpc_ s1.costDesiredTrajectoriesBuffer_
                costDesiredTrajectoriesBufferUpdated_ := false }
    else s1
  let s3 := if s2.initialCall_ then
      { s2 with initialCall_ := false
                log := s2.log ++ [PipelineEvent.initCall obs, PipelineEvent.initModeSequence obs] }
    else s2
  { s3 with log := s3.log ++ (List.range s3.numModules).map PipelineEvent.preSolve }

/-- Modelled from the spec: `mpcObservationCallback` (`onObservation`), whose body is not
part of the sources at hand.  After `prepareSolve` the solver is invoked (step 4); if the
solve fails the failure is surfaced and nothing else happens; otherwise the fresh pair is
built and the modules are notified (step 5), the pair is swapped into "current" and the
publishing task is signalled (step 6), and the post-solve hooks are invoked (step 7). -/
def mpcObservationCallback (mpc : MPC_BASE σ) (s : MPC_ROS_Interface σ)
    (obs : SystemObservation) : MPC_ROS_Interface σ × Except SolveError Unit :=
  let s3 := prepareSolve mpc s obs
  let solved := mpc.runSolve s3.mpc_ obs
  let s4 := { s3 with mpc_ := solved.1, log := s3.log ++ [PipelineEvent.solve obs solved.2] }
  if solved.2 then
    let s5 := { s4 with primalSolutionBuffer_ := some (mpc.extractPolicy s4.mpc_)
                        commandBuffer_ := some (mpc.extractProvenance s4.mpc_)
                        log := s4.log ++ (List.range s4.numModules).map PipelineEvent.notified }
    let s6 := { s5 with currentPrimalSolution_ := s5.primalSolutionBuffer_
                        primalSolutionBuffer_ := s5.currentPrimalSolution_
                        currentCommand_ := s5.commandBuffer_
                        commandBuffer_ := s5.currentCommand_
                        readyToPublish_ := true
                        log := s5.log ++ [PipelineEvent.swapped, PipelineEvent.signalled] }
    ({ s6 with log := s6.log ++ (List.range s6.numModules).map PipelineEvent.postSolve },
      Except.ok ())
  else
    (s4, Except.error SolveError.solveFailed)

end MPC_ROS_Interface

/-- A solver whose every solve fails. -/
def failingSolver : MPC_BASE Nat :=
  { runSolve := fun n _ => (n + 1, false)
    extractPolicy := fun _ => ⟨[], [], [], []⟩
    extractProvenance := fun _ => ⟨⟨0, [], [], 0⟩, ⟨[], [], []⟩⟩
    adoptTarget := fun n _ => n }

/-- A pipeline that has published a policy and has a reset and a new target pending. -/
def publishedPipeline : MPC_ROS_Interface Nat :=
  { mpc_ := 0
    currentPrimalSolution_ := some ⟨[0, 1], [[0, 0], [1, 0]], [[1], [0]], [[2], [3]]⟩
    primalSolutionBuffer_ := none
    currentCommand_ := some ⟨⟨0, [0, 0], [0], 0⟩, ⟨[0], [[1, 0]], [[0]]⟩⟩
    commandBuffer_ := none
    numModules := 2
    terminateThread_ := false
    readyToPublish_ := false
    initialCall_ := false
    resetRequested_ := true
    resetRequestedEver_ := true
    costDesiredTrajectoriesBufferUpdated_ := true
    costDesiredTrajectoriesBuffer_ := ⟨[0], [[5, 0]], [[0]]⟩
    log := [] }


/-! ## The snapshot of the solver taken by `DDP_DataCollector`

The header `DDP_DataCollector.h` declares the members of the class and its two methods; the
bodies of the methods and the solver class `GaussNewtonDDP` are not part of the sources at
hand and are modelled from the specification of the snapshot.  Scalars and the items of a
trajectory are opaque here: only their identity and the lengths of the containers matter. -/

/-- The members of `DDP_DataCollector` that image a container of the solver holding one
entry (a trajectory) per partition. -/
inductive StockField
  | optimizedControllersStock_
  | nominalTimeTrajectoriesStock_
  | nominalPostEventIndicesStock_
  | nominalStateTrajectoriesStock_
  | nominalInputTrajectoriesStock_
  | modelDataTrajectoriesStock_
  | modelDataEventTimesStock_
  | projectedModelDataTrajectoriesStock_
  | riccatiModificationTrajectoriesStock_
  | SsTimeTrajectoriesStock_
  | SsNormalizedTimeTrajectoriesStock_
  | SsNormalizedEventsPastTheEndIndecesStock_
  | sTrajectoriesStock_
  | SvTrajectoriesStock_
  | SmTrajectoriesStock_
  deriving DecidableEq, Repr

/-- Modelled from the spec: the `ModeSchedule` of `ocs2_core`, which is not part of the
sources at hand: the event times and the sequence of modes. -/
structure ModeSchedule where
  eventTimes : List Int
  modeSequence : List Nat
  deriving DecidableEq, Repr

/-- The data members of the class `DDP_DataCollector`, in the order of the header; the
per-partition images of the solver are gathered in `stock`. -/
structure DDP_DataCollector where
  initTime_ : Int
  finalTime_ : Int
  initState_ : List Int
  initActivePartition_ : Nat
  finalActivePartition_ : Nat
  numPartitions_ : Nat
  partitioningTimes_ : List Int
  rewindCounter_ : Nat
  modeSchedule_ : ModeSchedule
  stock : StockField → List (List Int)
  sHeuristics_ : Int
  SvHeuristics_ : List Int
  SmHeuristics_ : List (List Int)
  EvDevEventTimesTrajectoryStockSet_ : List (List (List Int))
  EvDevEventTimesProjectedTrajectoryStockSet_ : List (List (List Int))

/-- Modelled from the spec: the state of the solver `GaussNewtonDDP` that `collect` reads,
which is not part of the sources at hand: the variables imaged by the members of
`DDP_DataCollector`, and the two dimensions handed to `resizeDataContainer`. -/
structure GaussNewtonDDP where
  initTime_ : Int
  finalTime_ : Int
  initState_ : List Int
  initActivePartition_ : Nat
  finalActivePartition_ : Nat
  numPartitions_ : Nat
  partitioningTimes_ : List Int
  rewindCounter_ : Nat
  modeSchedule_ : ModeSchedule
  stock : StockField → List (List Int)
  sHeuristics_ : Int
  SvHeuristics_ : List Int
  SmHeuristics_ : List (List Int)
  stateDim : Nat
  inputDim : Nat

/-- The call `v.resize(n)` on a `std::vector`: the first `n` entries are kept and the
container is filled up to `n` entries with the default value `d`. -/
def vectorResize {β : Type} (v : List β) (n : Nat) (d : β) : List β :=
  v.take n ++ List.replicate (n - v.length) d

namespace DDP_DataCollector

/-- The default-constructed collector: `numPartitions_ = 0` and empty containers. -/
def fresh : DDP_DataCollector :=
  { initTime_ := 0
    finalTime_ := 0
    initState_ := []
    initActivePartition_ := 0
    finalActivePartition_ := 0
    numPartitions_ := 0
    partitioningTimes_ := []
    rewindCounter_ := 0
    modeSchedule_ := ⟨[], []⟩
    stock := fun _ => []
    sHeuristics_ := 0
    SvHeuristics_ := []
    SmHeuristics_ := []
    EvDevEventTimesTrajectoryStockSet_ := []
    EvDevEventTimesProjectedTrajectoryStockSet_ := [] }

/-- Modelled from the spec: `resizeDataContainer`, whose body is not part of the sources at
hand: if the requested partition count differs from the current allocation, all the
per-partition containers are resized to it. -/
def resizeDataContainer (c : DDP_DataCollector) (numPartitions stateDim inputDim : Nat) :
    DDP_DataCollector :=
  let _unused := (stateDim, inputDim)
  if numPartitions = c.numPartitions_ then c
  else
    { c with
      numPartitions_ := numPartitions
      stock := fun f => vectorResize (c.stock f) numPartitions []
      EvDevEventTimesTrajectoryStockSet_ :=
        vectorResize c.EvDevEventTimesTrajectoryStockSet_ numPartitions []
      EvDevEventTimesProjectedTrajectoryStockSet_ :=
        vectorResize c.EvDevEventTimesProjectedTrajectoryStockSet_ numPartitions [] }

/-- Modelled from the spec: `collect`, whose body is not part of the sources at hand.  The
containers are first resized to the solver's number of partitions; the scalar fields, the
terminal heuristic terms and the containers that cannot be swapped are copied by value; a
container that the solver exposes as swappable (`swappable f`) is exchanged with the
solver's, so that the snapshot owns the solver's data and the solver is left with the
resized container of the snapshot.  The result is the snapshot and the solver as the call
leaves it. -/
def collect (swappable : StockField → Bool) (c : DDP_DataCollector) (ddp : GaussNewtonDDP) :
    DDP_DataCollector × GaussNewtonDDP :=
  let c1 := c.resizeDataContainer ddp.numPartitions_ ddp.stateDim ddp.inputDim
  ({ c1 with
      initTime_ := ddp.initTime_
      finalTime_ := ddp.finalTime_
      initState_ := ddp.initState_
      initActivePartition_ := ddp.initActivePartition_
      finalActivePartition_ := ddp.finalActivePartition_
      partitioningTimes_ := ddp.partitioningTimes_
      rewindCounter_ := ddp.rewindCounter_
      modeSchedule_ := ddp.modeSchedule_
      stock := fun f => ddp.stock f
      sHeuristics_ := ddp.sHeuristics_
      SvHeuristics_ := ddp.SvHeuristics_
      SmHeuristics_ := ddp.SmHeuristics_ },
    { ddp with stock := fun f => if swappable f then c1.stock f else ddp.stock f })

/-- The scalar fields of a snapshot: `initTime_`, `finalTime_`, `rewindCounter_`,
`numPartitions_` and `sHeuristics_`, with the two active-partition indices. -/
def scalarFields (c : DDP_DataCollector) : Int × Int × Nat × Nat × Int × Nat × Nat :=
  (c.initTime_, c.finalTime_, c.rewindCounter_, c.numPartitions_, c.sHeuristics_,
    c.initActivePartition_, c.finalActivePartition_)

/-- The lengths of the sequence-typed fields of a snapshot other than the per-partition
images: `initState_`, `partitioningTimes_`, the two sequences of `modeSchedule_`,
`SvHeuristics_`, `SmHeuristics_` and the two sets of sensitivities. -/
def otherLengths (c : DDP_DataCollector) : List Nat :=
  [c.initState_.length, c.partitioningTimes_.length, c.modeSchedule_.eventTimes.length,
    c.modeSchedule_.modeSequence.length, c.SvHeuristics_.length, c.SmHeuristics_.length,
    c.EvDevEventTimesTrajectoryStockSet_.length,
    c.EvDevEventTimesProjectedTrajectoryStockSet_.length]

/-- Every per-partition container of the collector has `numPartitions_` entries, as in a
default-constructed collector and after every `collect`. -/
def WellSized (c : DDP_DataCollector) : Prop :=
  (∀ f, (c.stock f).length = c.numPartitions_) ∧
    c.EvDevEventTimesTrajectoryStockSet_.length = c.numPartitions_ ∧
    c.EvDevEventTimesProjectedTrajectoryStockSet_.length = c.numPartitions_

end DDP_DataCollector

/-- Modelled from the spec: a solver that has completed at least one iteration has every
per-partition container allocated with one entry per partition. -/
def GaussNewtonDDP.WellSized (ddp : GaussNewtonDDP) : Prop :=
  ∀ f, (ddp.stock f).length = ddp.numPartitions_

/-- A solver with two partitions after an iteration. -/
def twoPartitionSolver : GaussNewtonDDP :=
  { initTime_ := 0
    finalTime_ := 2
    initState_ := [0, 2]
    initActivePartition_ := 0
    finalActivePartition_ := 1
    numPartitions_ := 2
    partitioningTimes_ := [0, 1, 2]
    rewindCounter_ := 0
    modeSchedule_ := ⟨[1], [0, 1]⟩
    stock := fun _ => [[1, 2, 3], [4, 5]]
    sHeuristics_ := 7
    SvHeuristics_ := [1, 1]
    SmHeuristics_ := [[1, 0], [0, 1]]
    stateDim := 2
    inputDim := 1 }
/-! # Theorems -/

namespace pipg

/-! ## The worker pool: every interleaving computes the sequential blocks -/

section PoolProofs
variable {α : Type}

theorem mem_activeWorkers {ws : List WorkerState} {i : Nat} (h : i ∈ activeWorkers ws) :
    i < ws.length ∧ ws.getD i .finished ≠ .finished := by
  unfold activeWorkers at h
  simpa [List.mem_filter] using h

theorem activeWorkers_eq_nil {ws : List WorkerState} (h : activeWorkers ws = []) :
    ∀ w ∈ ws, w = .finished := by
  intro w hw
  obtain ⟨i, hi, rfl⟩ := List.getElem_of_mem hw
  by_contra hne
  have : i ∈ activeWorkers ws := by
    unfold activeWorkers
    simp [List.mem_filter, hi, List.getD_eq_getElem?_getD, hne]
  rw [h] at this
  simp at this

theorem debt_set (ws : List WorkerState) (i : Nat) (w : WorkerState) (hi : i < ws.length) :
    ((ws.set i w).map workerDebt).sum + workerDebt (ws.getD i .finished)
      = (ws.map workerDebt).sum + workerDebt w := by
  induction ws generalizing i with
  | nil => simp at hi
  | cons a t ih =>
    cases i with
    | zero => simp; omega
    | succ j =>
      have := ih j (by simpa using hi)
      simp at this ⊢
      omega

end PoolProofs

section PoolProofs2
variable {α : Type}

theorem workerStep_debt {body : Nat → Option (matrix_t α × vector_t α)} {N i : Nat}
    {s s1 : TaskState α} (hi : i < s.workers.length)
    (hact : s.workers.getD i .finished ≠ .finished)
    (h : workerStep body N i s = some s1) : poolDebt N s1 + 1 = poolDebt N s := by
  have hset := fun w => debt_set s.workers i w hi
  unfold workerStep at h
  split at h
  · next hw =>
    simp only [Option.some.injEq] at h
    subst h
    have h1 := hset (if s.timeIndex < N then .holding s.timeIndex else .finished)
    rw [hw] at h1
    unfold poolDebt
    simp only
    by_cases hlt : s.timeIndex < N
    · simp only [hlt, if_true, workerDebt] at h1 ⊢
      omega
    · simp only [hlt, if_false, workerDebt] at h1 ⊢
      omega
  · next k hw =>
    split at h
    · exact absurd h (by simp)
    · next temp absRowSum hb =>
      simp only [Option.some.injEq] at h
      subst h
      have h1 := hset .fetching
      rw [hw] at h1
      unfold poolDebt
      simp only [workerDebt] at h1 ⊢
      omega
  · next hw => exact absurd hw hact

theorem mem_set_of_ne {ws : List WorkerState} {i : Nat} {w x : WorkerState}
    (hx : x ∈ ws) (hne : ws.getD i .finished ≠ x) : x ∈ ws.set i w := by
  obtain ⟨j, hj, rfl⟩ := List.getElem_of_mem hx
  have hji : j ≠ i := by
    rintro rfl
    apply hne
    simp [List.getD_eq_getElem?_getD, hj]
  rw [List.mem_iff_getElem]
  refine ⟨j, by simpa using hj, ?_⟩
  rw [List.getElem_set_ne (Ne.symm hji)]

theorem mem_set_cases {ws : List WorkerState} {i : Nat} {w x : WorkerState}
    (hx : x ∈ ws.set i w) : x = w ∨ x ∈ ws := by
  rcases List.mem_or_eq_of_mem_set hx with h | h
  · exact Or.inr h
  · exact Or.inl h

theorem workerStep_inv {body : Nat → Option (matrix_t α × vector_t α)} {N i : Nat}
    {s s1 : TaskState α} (hi : i < s.workers.length) (inv : PoolInv body N s)
    (h : workerStep body N i s = some s1) : PoolInv body N s1 := by
  unfold workerStep at h
  split at h
  · next hw =>
    simp only [Option.some.injEq] at h
    subst h
    refine ⟨inv.length_eq, ?_, ?_, ?_⟩
    · intro k hkN hk
      simp only at hk ⊢
      by_cases hkt : k = s.timeIndex
      · subst hkt
        left
        simp only [hkN, if_true]
        exact List.mem_iff_getElem.mpr ⟨i, by simpa using hi, by simp⟩
      · rcases inv.claimed k hkN (by omega) with h1 | h1
        · left
          exact mem_set_of_ne h1 (by rw [hw]; simp)
        · right
          exact h1
    · intro k hk
      simp only at hk
      rcases mem_set_cases hk with h1 | h1
      · split at h1
        · next hlt => cases h1; exact hlt
        · cases h1
      · exact inv.holding_lt k h1
    · intro hf
      simp only at hf ⊢
      rcases mem_set_cases hf with h1 | h1
      · split at h1
        · cases h1
        · omega
      · have := inv.finished_le h1
        omega
  · next k hw =>
    split at h
    · exact absurd h (by simp)
    · next temp absRowSum hb =>
      simp only [Option.some.injEq] at h
      subst h
      have hkmem : WorkerState.holding k ∈ s.workers := by
        refine List.mem_iff_getElem.mpr ⟨i, hi, ?_⟩
        simpa [List.getD_eq_getElem?_getD, hi] using hw
      have hkN := inv.holding_lt k hkmem
      refine ⟨by simpa using inv.length_eq, ?_, ?_, ?_⟩
      · intro j hjN hj
        simp only at hj ⊢
        by_cases hjk : j = k
        · subst hjk
          right
          refine ⟨temp, absRowSum, hb, ?_⟩
          rw [List.getElem?_set_self]
          simp [inv.length_eq, hjN]
        · rcases inv.claimed j hjN hj with h1 | ⟨t, v, h1, h2⟩
          · left
            exact mem_set_of_ne h1 (by rw [hw]; simp; exact fun h => hjk h.symm)
          · right
            refine ⟨t, v, h1, ?_⟩
            rw [List.getElem?_set_ne (Ne.symm hjk)]
            exact h2
      · intro j hj
        simp only at hj
        rcases mem_set_cases hj with h1 | h1
        · cases h1
        · exact inv.holding_lt j h1
      · intro hf
        simp only at hf ⊢
        rcases mem_set_cases hf with h1 | h1
        · cases h1
        · exact inv.finished_le h1
  · next hw =>
    simp only [Option.some.injEq] at h
    subst h
    exact inv

end PoolProofs2

section PoolProofs3
variable {α : Type}

theorem workerStep_workers_length {body : Nat → Option (matrix_t α × vector_t α)} {N i : Nat}
    {s s1 : TaskState α} (h : workerStep body N i s = some s1) :
    s1.workers.length = s.workers.length := by
  unfold workerStep at h
  split at h
  · simp only [Option.some.injEq] at h
    subst h
    simp
  · split at h
    · exact absurd h (by simp)
    · simp only [Option.some.injEq] at h
      subst h
      simp
  · simp only [Option.some.injEq] at h
    subst h
    rfl

theorem workerStep_isSome {body : Nat → Option (matrix_t α × vector_t α)} {N i : Nat}
    {s : TaskState α} (hi : i < s.workers.length) (inv : PoolInv body N s)
    (hbody : ∀ k, k < N → (body k).isSome) : (workerStep body N i s).isSome := by
  unfold workerStep
  split
  · rfl
  · next k hw =>
    have hkmem : WorkerState.holding k ∈ s.workers := by
      refine List.mem_iff_getElem.mpr ⟨i, hi, ?_⟩
      simpa [List.getD_eq_getElem?_getD, hi] using hw
    have hk := hbody k (inv.holding_lt k hkmem)
    split
    · next hb => rw [hb] at hk; simp at hk
    · rfl
  · rfl

theorem chosen_mem (l : List Nat) (i c : Nat) :
    (i :: l).getD (c % (l.length + 1)) i ∈ i :: l := by
  have hlt : c % (l.length + 1) < (i :: l).length := by
    simpa using Nat.mod_lt c (Nat.succ_pos l.length)
  rw [List.getD_eq_getElem?_getD, List.getElem?_eq_getElem hlt]
  exact List.getElem_mem hlt

theorem runWorkers_inv {body : Nat → Option (matrix_t α × vector_t α)} {N : Nat} :
    ∀ (fuel : Nat) (schedule : Nat → Nat) (s s1 : TaskState α), PoolInv body N s →
      runWorkers body N fuel schedule s = some s1 → PoolInv body N s1 := by
  intro fuel
  induction fuel with
  | zero =>
    intro schedule s s1 inv h
    simp only [runWorkers, Option.some.injEq] at h
    exact h ▸ inv
  | succ fuel ih =>
    intro schedule s s1 inv h
    unfold runWorkers at h
    split at h
    · simp only [Option.some.injEq] at h
      exact h ▸ inv
    · next i rest hact =>
      have hmem : (i :: rest).getD (schedule 0 % (rest.length + 1)) i
          ∈ activeWorkers s.workers := by
        rw [hact]
        exact chosen_mem rest i (schedule 0)
      have hi := (mem_activeWorkers hmem).1
      split at h
      · exact absurd h (by simp)
      · next s2 hstep =>
        exact ih _ s2 s1 (workerStep_inv hi inv hstep) h

theorem runWorkers_finished {body : Nat → Option (matrix_t α × vector_t α)} {N : Nat} :
    ∀ (fuel : Nat) (schedule : Nat → Nat) (s s1 : TaskState α), poolDebt N s ≤ fuel →
      runWorkers body N fuel schedule s = some s1 →
      s1.workers.length = s.workers.length ∧ ∀ w ∈ s1.workers, w = .finished := by
  intro fuel
  induction fuel with
  | zero =>
    intro schedule s s1 hdebt h
    simp only [runWorkers, Option.some.injEq] at h
    subst h
    refine ⟨rfl, ?_⟩
    intro w hw
    have hsum : (s.workers.map workerDebt).sum = 0 := by
      unfold poolDebt at hdebt
      omega
    have hz : workerDebt w = 0 := by
      have := List.sum_eq_zero_iff.mp hsum (workerDebt w) (List.mem_map_of_mem _ hw)
      exact this
    cases w <;> simp [workerDebt] at hz ⊢
  | succ fuel ih =>
    intro schedule s s1 hdebt h
    unfold runWorkers at h
    split at h
    · next hact =>
      simp only [Option.some.injEq] at h
      subst h
      exact ⟨rfl, activeWorkers_eq_nil hact⟩
    · next i rest hact =>
      have hmem : (i :: rest).getD (schedule 0 % (rest.length + 1)) i
          ∈ activeWorkers s.workers := by
        rw [hact]
        exact chosen_mem rest i (schedule 0)
      obtain ⟨hi, hne⟩ := mem_activeWorkers hmem
      split at h
      · exact absurd h (by simp)
      · next s2 hstep =>
        have hd := workerStep_debt hi hne hstep
        have hl := workerStep_workers_length hstep
        have := ih _ s2 s1 (by omega) h
        exact ⟨by omega, this.2⟩

theorem runWorkers_isSome {body : Nat → Option (matrix_t α × vector_t α)} {N : Nat}
    (hbody : ∀ k, k < N → (body k).isSome) :
    ∀ (fuel : Nat) (schedule : Nat → Nat) (s : TaskState α), PoolInv body N s →
      (runWorkers body N fuel schedule s).isSome := by
  intro fuel
  induction fuel with
  | zero => intro schedule s _; rfl
  | succ fuel ih =>
    intro schedule s inv
    unfold runWorkers
    split
    · rfl
    · next i rest hact =>
      have hmem : (i :: rest).getD (schedule 0 % (rest.length + 1)) i
          ∈ activeWorkers s.workers := by
        rw [hact]
        exact chosen_mem rest i (schedule 0)
      have hi := (mem_activeWorkers hmem).1
      have hs := workerStep_isSome hi inv hbody
      split
      · next hstep => rw [hstep] at hs; simp at hs
      · next s2 hstep => exact ih _ s2 (workerStep_inv hi inv hstep)

end PoolProofs3

section PoolProofs4
variable {α : Type}

theorem poolInv_init [Zero α] (body : Nat → Option (matrix_t α × vector_t α)) (N n : Nat) :
    PoolInv body N
      { timeIndex := 0
        tempMatrixArray := List.replicate N ⟨0, 0, fun _ _ => 0⟩
        absRowSumArray := List.replicate N []
        workers := List.replicate n .fetching } := by
  refine ⟨by simp, ?_, ?_, ?_⟩
  · intro k _ hk
    simp at hk
  · intro k hk
    simp [List.mem_replicate] at hk
  · intro hf
    simp [List.mem_replicate] at hf

theorem runParallel_final [Zero α] {body : Nat → Option (matrix_t α × vector_t α)}
    {N n : Nat} {schedule : Nat → Nat} {s : TaskState α} (hn : 0 < n)
    (h : runParallel body N n schedule = some s) :
    s.absRowSumArray.length = N ∧
      ∀ k, k < N → ∃ temp v, body k = some (temp, v) ∧ s.absRowSumArray[k]? = some v := by
  unfold runParallel at h
  have inv := runWorkers_inv _ _ _ _ (poolInv_init body N n) h
  have hfin := runWorkers_finished (N := N) _ _ _ _ (by simp [poolDebt, workerDebt]) h
  simp only [List.length_replicate] at hfin
  obtain ⟨hlen, hall⟩ := hfin
  have hmem : WorkerState.finished ∈ s.workers := by
    cases hw : s.workers with
    | nil => rw [hw] at hlen; simp at hlen; omega
    | cons w t =>
      have := hall w (by rw [hw]; simp)
      rw [this]
      simp
  have hle := inv.finished_le hmem
  refine ⟨inv.length_eq, ?_⟩
  intro k hk
  rcases inv.claimed k hk (by omega) with h1 | h1
  · have := hall _ h1
    cases this
  · exact h1

/-- Whatever the number of workers and the order of their steps, the pool leaves in
`absRowSumArray` the blocks of the sequential pass, and it fails exactly when that pass
fails. -/
theorem runParallel_absRowSumArray [Zero α] (body : Nat → Option (matrix_t α × vector_t α))
    (N n : Nat) (schedule : Nat → Nat) (hn : 0 < n) :
    (runParallel body N n schedule).map (fun s => s.absRowSumArray)
      = sequentialBlocks body N := by
  unfold sequentialBlocks
  split
  · next hall =>
    have hbody : ∀ k, k < N → (body k).isSome := by
      intro k hk
      exact List.all_eq_true.mp hall k (List.mem_range.mpr hk)
    have hsome : (runParallel body N n schedule).isSome :=
      runWorkers_isSome hbody _ _ _ (poolInv_init body N n)
    obtain ⟨s, hs⟩ := Option.isSome_iff_exists.mp hsome
    obtain ⟨hlen, hblocks⟩ := runParallel_final hn hs
    rw [hs]
    simp only [Option.map_some', Option.some.injEq]
    apply List.ext_getElem?
    intro k
    by_cases hk : k < N
    · obtain ⟨temp, v, hb, hv⟩ := hblocks k hk
      rw [hv, List.getElem?_map, List.getElem?_range hk]
      simp [hb]
    · rw [List.getElem?_eq_none (by omega), List.getElem?_eq_none (by simp; omega)]
  · next hall =>
    cases hrun : runParallel body N n schedule with
    | none => rfl
    | some s =>
      exfalso
      apply hall
      apply List.all_eq_true.mpr
      intro k hk
      obtain ⟨temp, v, hb, _⟩ := (runParallel_final hn hrun).2 k (List.mem_range.mp hk)
      simp [hb]

end PoolProofs4

/-! ## Exact arithmetic on `double`s -/

namespace Double

theorem bitLengthAux_zero (fuel : Nat) : bitLengthAux fuel 0 = 0 := by
  cases fuel <;> simp [bitLengthAux]

theorem bitLengthAux_spec : ∀ (fuel n : Nat), n ≤ fuel →
    n < 2 ^ bitLengthAux fuel n ∧ (n ≠ 0 → 2 ^ bitLengthAux fuel n ≤ 2 * n) := by
  intro fuel
  induction fuel with
  | zero =>
    intro n hn
    have : n = 0 := by omega
    subst this
    simp [bitLengthAux]
  | succ fuel ih =>
    intro n hn
    by_cases h0 : n = 0
    · subst h0
      simp [bitLengthAux]
    · have hhalf : n / 2 ≤ fuel := by omega
      obtain ⟨h1, h2⟩ := ih (n / 2) hhalf
      simp only [bitLengthAux, h0, if_false]
      rw [Nat.pow_succ]
      refine ⟨by omega, fun _ => ?_⟩
      by_cases h3 : n / 2 = 0
      · rw [h3, bitLengthAux_zero]
        omega
      · have := h2 h3
        omega

theorem bitLength_spec (n : Nat) :
    n < 2 ^ bitLength n ∧ (n ≠ 0 → 2 ^ bitLength n ≤ 2 * n) :=
  bitLengthAux_spec n n (Nat.le_refl n)


theorem pow_lt_pow_cancel {a b : Nat} (h : 2 ^ a < 2 ^ b) : a < b :=
  (Nat.pow_lt_pow_iff_right (by decide : 1 < 2)).mp h

theorem exponent_bound {M n : Nat} {E : Int} (hM : M ≠ 0) (hn : n < 2 ^ 53)
    (hval : IsValue M E n) : E + bitLength M ≤ 53 := by
  obtain ⟨hb1, hb2⟩ := bitLength_spec M
  have hb2 := hb2 hM
  rcases hval with ⟨hE, h⟩ | ⟨hE, h⟩
  · have h1 : 2 ^ (bitLength M + E.toNat) < 2 ^ 54 := by
      rw [Nat.pow_add]
      calc 2 ^ bitLength M * 2 ^ E.toNat ≤ 2 * M * 2 ^ E.toNat :=
            Nat.mul_le_mul_right _ hb2
        _ = 2 * (M * 2 ^ E.toNat) := by ring
        _ = 2 * n := by rw [h]
        _ < 2 ^ 54 := by omega
    have := pow_lt_pow_cancel h1
    omega
  · have h1 : 2 ^ bitLength M < 2 ^ (54 + (-E).toNat) := by
      rw [Nat.pow_add]
      calc 2 ^ bitLength M ≤ 2 * M := hb2
        _ = 2 * n * 2 ^ (-E).toNat := by rw [h]; ring
        _ < 2 ^ 54 * 2 ^ (-E).toNat :=
            Nat.mul_lt_mul_of_pos_right (by omega) (Nat.two_pow_pos _)
    have := pow_lt_pow_cancel h1
    omega


theorem pack_finite (neg : Bool) {m : Nat} {e : Int} (hm : m < 2 ^ 53) (he : e ≤ 971) :
    pack neg m e = finite neg m e := by
  unfold pack
  rw [if_neg (by omega), if_neg (by omega)]

theorem roundShift_mul (m sh : Nat) : roundShift (m * 2 ^ sh) sh = m := by
  unfold roundShift
  have hpos : 0 < 2 ^ sh := Nat.two_pow_pos _
  rw [Nat.mul_mod_left, Nat.mul_div_cancel _ hpos, if_pos (by omega)]

/-- Rounding a value that is a natural number below `2^53` loses nothing. -/
theorem round_exact (neg : Bool) {M n : Nat} {E : Int} (hn : n < 2 ^ 53)
    (hval : IsValue M E n) :
    ∃ d : Nat, round neg M E = finite neg (n * 2 ^ d) (-(d : Int)) ∧ n * 2 ^ d < 2 ^ 53 := by
  by_cases hM : M = 0
  · have hn0 : n = 0 := by
      rcases hval with ⟨_, h⟩ | ⟨_, h⟩
      · rw [hM] at h
        simpa using h.symm
      · rw [hM] at h
        have hpos : 0 < 2 ^ (-E).toNat := Nat.two_pow_pos _
        rcases Nat.eq_zero_or_pos n with h0 | h0
        · exact h0
        · have := Nat.mul_pos h0 hpos
          omega
    refine ⟨1074, ?_, ?_⟩
    · unfold round
      rw [if_pos hM, hn0, Nat.zero_mul]
      rfl
    · rw [hn0, Nat.zero_mul]
      exact Nat.two_pow_pos _
  · have hF := exponent_bound hM hn hval
    obtain ⟨hb1, _⟩ := bitLength_spec M
    have he0 : exponentOf M E = max (E + bitLength M - 53) (-1074) := rfl
    obtain ⟨d, hd⟩ : ∃ d : Nat, exponentOf M E = -(d : Int) :=
      ⟨(-exponentOf M E).toNat, by omega⟩
    have hround : round neg M E = pack neg (n * 2 ^ d) (-(d : Int)) := by
      unfold round
      rw [if_neg hM, hd]
      by_cases hle : -(d : Int) ≤ E
      · rw [if_pos hle]
        congr 1
        rcases hval with ⟨hE, h⟩ | ⟨hE, h⟩
        · have : (E - -(d : Int)).toNat = E.toNat + d := by omega
          rw [this, Nat.pow_add, ← Nat.mul_assoc, h]
        · have : d = (-E).toNat + (E - -(d : Int)).toNat := by omega
          rw [h]
          conv_rhs => rw [this, Nat.pow_add]
          ring
      · rw [if_neg hle]
        congr 1
        rcases hval with ⟨hE, h⟩ | ⟨hE, h⟩
        · omega
        · have : (-E).toNat = d + (-(d : Int) - E).toNat := by omega
          rw [h, this, Nat.pow_add, ← Nat.mul_assoc, roundShift_mul]
    have hlt : n * 2 ^ d < 2 ^ 53 := by
      rcases hval with ⟨hE, h⟩ | ⟨hE, h⟩
      · have h1 : n * 2 ^ d < 2 ^ (bitLength M + E.toNat + d) := by
          rw [← h, Nat.pow_add, Nat.pow_add]
          exact Nat.mul_lt_mul_of_pos_right
            (Nat.mul_lt_mul_of_pos_right hb1 (Nat.two_pow_pos _)) (Nat.two_pow_pos _)
        exact lt_of_lt_of_le h1 (Nat.pow_le_pow_right (by decide) (by omega))
      · by_cases hdq : d ≤ (-E).toNat
        · have h1 : n * 2 ^ d * 2 ^ ((-E).toNat - d) < 2 ^ 53 * 2 ^ ((-E).toNat - d) := by
            have : (-E).toNat = d + ((-E).toNat - d) := by omega
            calc n * 2 ^ d * 2 ^ ((-E).toNat - d) = n * 2 ^ (-E).toNat := by
                  conv_rhs => rw [this, Nat.pow_add]
                  ring
              _ = M := h.symm
              _ < 2 ^ bitLength M := hb1
              _ ≤ 2 ^ (53 + ((-E).toNat - d)) := Nat.pow_le_pow_right (by decide) (by omega)
              _ = 2 ^ 53 * 2 ^ ((-E).toNat - d) := Nat.pow_add _ _ _
          exact Nat.lt_of_mul_lt_mul_right h1
        · have h1 : n * 2 ^ d < 2 ^ (bitLength M + (d - (-E).toNat)) := by
            have : d = (-E).toNat + (d - (-E).toNat) := by omega
            calc n * 2 ^ d = n * 2 ^ (-E).toNat * 2 ^ (d - (-E).toNat) := by
                  conv_lhs => rw [this, Nat.pow_add]
                  ring
              _ = M * 2 ^ (d - (-E).toNat) := by rw [← h]
              _ < 2 ^ bitLength M * 2 ^ (d - (-E).toNat) :=
                  Nat.mul_lt_mul_of_pos_right hb1 (Nat.two_pow_pos _)
              _ = 2 ^ (bitLength M + (d - (-E).toNat)) := (Nat.pow_add _ _ _).symm
          exact lt_of_lt_of_le h1 (Nat.pow_le_pow_right (by decide) (by omega))
    exact ⟨d, by rw [hround, pack_finite neg hlt (by omega)], hlt⟩

theorem toInt?_finite_scaled (neg : Bool) (n d : Nat) :
    (finite neg (n * 2 ^ d) (-(d : Int))).toInt?
      = some (if neg then -(n : Int) else (n : Int)) := by
  by_cases hd : d = 0
  · subst hd
    simp [toInt?]
  · have h1 : ¬ (0 : Int) ≤ -(d : Int) := by omega
    have h2 : (-(-(d : Int))).toNat = d := by omega
    simp only [toInt?, h1, if_false, h2, Nat.mul_mod_left, if_true,
      Nat.mul_div_cancel _ (Nat.two_pow_pos d)]

theorem toInt?_round (neg : Bool) {M n : Nat} {E : Int} (hn : n < 2 ^ 53)
    (hval : IsValue M E n) :
    (round neg M E).toInt? = some (if neg then -(n : Int) else (n : Int)) := by
  obtain ⟨d, h, _⟩ := round_exact neg hn hval
  rw [h, toInt?_finite_scaled]



/-- The claim `M * 2^E = n` with the powers of two cleared by a shift `K`. -/
theorem isValue_iff_shift (M n : Nat) (E : Int) :
    IsValue M E n ↔ ∃ K : Nat, 0 ≤ E + K ∧ M * 2 ^ (E + K).toNat = n * 2 ^ K := by
  constructor
  · rintro (⟨hE, h⟩ | ⟨hE, h⟩)
    · exact ⟨0, by omega, by simpa using h⟩
    · refine ⟨(-E).toNat, by omega, ?_⟩
      have : (E + ((-E).toNat : Int)).toNat = 0 := by omega
      rw [this, h]
      simp
  · rintro ⟨K, hK, h⟩
    by_cases hE : 0 ≤ E
    · left
      refine ⟨hE, ?_⟩
      have : (E + (K : Int)).toNat = E.toNat + K := by omega
      rw [this, Nat.pow_add, ← Nat.mul_assoc] at h
      exact Nat.eq_of_mul_eq_mul_right (Nat.two_pow_pos K) h
    · right
      refine ⟨by omega, ?_⟩
      have : K = (-E).toNat + (E + (K : Int)).toNat := by omega
      have h2 : M * 2 ^ (E + (K : Int)).toNat
          = n * 2 ^ (-E).toNat * 2 ^ (E + (K : Int)).toNat := by
        rw [h]
        conv_lhs => rw [this, Nat.pow_add]
        ring
      exact Nat.eq_of_mul_eq_mul_right (Nat.two_pow_pos _) h2

theorem shift_mono {M n K : Nat} {E : Int} (hK : 0 ≤ E + K)
    (h : M * 2 ^ (E + K).toNat = n * 2 ^ K) (j : Nat) :
    M * 2 ^ (E + (K + j : Nat)).toNat = n * 2 ^ (K + j) := by
  have : (E + ((K + j : Nat) : Int)).toNat = (E + (K : Int)).toNat + j := by omega
  rw [this, Nat.pow_add, ← Nat.mul_assoc, h, Nat.pow_add, Nat.mul_assoc]

theorem toInt?_finite {s : Bool} {m : Nat} {e z : Int}
    (h : (finite s m e).toInt? = some z) :
    ∃ n : Nat, IsValue m e n ∧ z = if s then -(n : Int) else (n : Int) := by
  unfold toInt? at h
  by_cases he : 0 ≤ e
  · simp only [he, if_true, Option.some.injEq] at h
    exact ⟨m * 2 ^ e.toNat, Or.inl ⟨he, rfl⟩, h.symm⟩
  · simp only [he, if_false] at h
    by_cases hm : m % 2 ^ (-e).toNat = 0
    · simp only [hm, if_true, Option.some.injEq] at h
      refine ⟨m / 2 ^ (-e).toNat, Or.inr ⟨by omega, ?_⟩, h.symm⟩
      exact (Nat.div_mul_cancel (Nat.dvd_of_mod_eq_zero hm)).symm
    · simp only [hm, if_false] at h
      cases h

theorem finite_of_toInt? {x : Double} {z : Int} (h : x.toInt? = some z) :
    ∃ s m e, x = finite s m e := by
  cases x with
  | finite s m e => exact ⟨s, m, e, rfl⟩
  | inf s => cases h
  | nan => cases h



theorem toInt?_signed_zero (s : Bool) : (finite s 0 (-1074)).toInt? = some 0 := by
  have h := toInt?_finite_scaled s 0 1074
  rw [Nat.zero_mul] at h
  have h2 : (-((1074 : Nat) : Int)) = -1074 := rfl
  rw [h2] at h
  rw [h]
  cases s <;> rfl

theorem toInt?_zero : (0 : Double).toInt? = some 0 := toInt?_signed_zero false

theorem toInt?_one : (1 : Double).toInt? = some 1 := by
  have h := toInt?_finite_scaled false 1 52
  rw [Nat.one_mul] at h
  exact h

theorem toInt?_ofInt {z : Int} (hz : z.natAbs < 2 ^ 53) : (ofInt z).toInt? = some z := by
  unfold ofInt
  rw [toInt?_round _ hz (Or.inl ⟨le_refl 0, by simp⟩)]
  by_cases h : z < 0
  · simp only [h, decide_True, if_true]
    congr 1
    omega
  · simp only [h, decide_False, Bool.false_eq_true, if_false]
    congr 1
    omega

theorem toInt?_abs {x : Double} {a : Int} (h : x.toInt? = some a) :
    (ScalarAbs.abs x).toInt? = some |a| := by
  obtain ⟨s, m, e, rfl⟩ := finite_of_toInt? h
  obtain ⟨n, hn, ha⟩ := toInt?_finite h
  have h2 : (finite false m e).toInt? = some (n : Int) := by
    rcases hn with ⟨he, hv⟩ | ⟨he, hv⟩
    · simp [toInt?, he, hv]
    · have h1 : ¬ (0 : Int) ≤ e := by omega
      simp only [toInt?, h1, if_false, hv, Nat.mul_mod_left, if_true,
        Nat.mul_div_cancel _ (Nat.two_pow_pos _), Bool.false_eq_true]
  show (finite false m e).toInt? = some |a|
  rw [h2, ha]
  cases s <;> simp

theorem toInt?_mul {x y : Double} {a b : Int} (hx : x.toInt? = some a)
    (hy : y.toInt? = some b) (hab : (a * b).natAbs < 2 ^ 53) :
    (x * y).toInt? = some (a * b) := by
  obtain ⟨s, m, e, rfl⟩ := finite_of_toInt? hx
  obtain ⟨t, n, f, rfl⟩ := finite_of_toInt? hy
  obtain ⟨na, hna, ha⟩ := toInt?_finite hx
  obtain ⟨nb, hnb, hb⟩ := toInt?_finite hy
  obtain ⟨K1, hK1, h1⟩ := (isValue_iff_shift _ _ _).mp hna
  obtain ⟨K2, hK2, h2⟩ := (isValue_iff_shift _ _ _).mp hnb
  have hval : IsValue (m * n) (e + f) (na * nb) := by
    refine (isValue_iff_shift _ _ _).mpr ⟨K1 + K2, by omega, ?_⟩
    have : (e + f + ((K1 + K2 : Nat) : Int)).toNat = (e + K1).toNat + (f + K2).toNat := by
      omega
    rw [this, Nat.pow_add, Nat.pow_add]
    calc m * n * (2 ^ (e + K1).toNat * 2 ^ (f + K2).toNat)
        = (m * 2 ^ (e + K1).toNat) * (n * 2 ^ (f + K2).toNat) := by ring
      _ = (na * 2 ^ K1) * (nb * 2 ^ K2) := by rw [h1, h2]
      _ = na * nb * (2 ^ K1 * 2 ^ K2) := by ring
  have hlt : na * nb < 2 ^ 53 := by
    have : (a * b).natAbs = na * nb := by
      rw [ha, hb, Int.natAbs_mul]
      cases s <;> cases t <;> simp
    omega
  show (round (xor s t) (m * n) (e + f)).toInt? = some (a * b)
  rw [toInt?_round _ hlt hval, ha, hb]
  cases s <;> cases t <;> simp



theorem scaled_shift {s : Bool} {m na K : Nat} {e E : Int} (hE : E ≤ e) (hK : 0 ≤ E + K)
    (h : m * 2 ^ (e + K).toNat = na * 2 ^ K) :
    scaled s m e E * ((2 ^ (E + K).toNat : Nat) : Int)
      = (if s then -(na : Int) else (na : Int)) * ((2 ^ K : Nat) : Int) := by
  have hexp : (e + (K : Int)).toNat = (e - E).toNat + (E + (K : Int)).toNat := by omega
  have hnat : m * 2 ^ (e - E).toNat * 2 ^ (E + (K : Int)).toNat = na * 2 ^ K := by
    rw [Nat.mul_assoc, ← Nat.pow_add, ← hexp, h]
  have hint : ((m * 2 ^ (e - E).toNat : Nat) : Int) * ((2 ^ (E + (K : Int)).toNat : Nat) : Int)
      = (na : Int) * ((2 ^ K : Nat) : Int) := by
    rw [← Nat.cast_mul, ← Nat.cast_mul, hnat]
  unfold scaled
  cases s
  · simpa using hint
  · simp only [if_true, neg_mul]
    rw [hint]

theorem toInt?_add {x y : Double} {a b : Int} (hx : x.toInt? = some a)
    (hy : y.toInt? = some b) (hab : (a + b).natAbs < 2 ^ 53) :
    (x + y).toInt? = some (a + b) := by
  obtain ⟨s, m, e, rfl⟩ := finite_of_toInt? hx
  obtain ⟨t, n, f, rfl⟩ := finite_of_toInt? hy
  obtain ⟨na, hna, ha⟩ := toInt?_finite hx
  obtain ⟨nb, hnb, hb⟩ := toInt?_finite hy
  obtain ⟨K1, hK1, h1⟩ := (isValue_iff_shift _ _ _).mp hna
  obtain ⟨K2, hK2, h2⟩ := (isValue_iff_shift _ _ _).mp hnb
  have h1k := shift_mono hK1 h1 K2
  have h2k : n * 2 ^ (f + ((K1 + K2 : Nat) : Int)).toNat = nb * 2 ^ (K1 + K2) := by
    have := shift_mono hK2 h2 K1
    rwa [Nat.add_comm K2 K1] at this
  have hEK : 0 ≤ min e f + ((K1 + K2 : Nat) : Int) := by omega
  have hP : (0 : Int) < ((2 ^ (min e f + ((K1 + K2 : Nat) : Int)).toNat : Nat) : Int) := by
    exact_mod_cast Nat.two_pow_pos _
  have hQ : (0 : Int) < ((2 ^ (K1 + K2) : Nat) : Int) := by
    exact_mod_cast Nat.two_pow_pos _
  have hV : (scaled s m e (min e f) + scaled t n f (min e f))
        * ((2 ^ (min e f + ((K1 + K2 : Nat) : Int)).toNat : Nat) : Int)
      = (a + b) * ((2 ^ (K1 + K2) : Nat) : Int) := by
    rw [add_mul, add_mul, scaled_shift (min_le_left e f) hEK h1k,
      scaled_shift (min_le_right e f) hEK h2k, ha, hb]
  have hsign : (scaled s m e (min e f) + scaled t n f (min e f)).sign = (a + b).sign := by
    have := congrArg Int.sign hV
    rwa [Int.sign_mul, Int.sign_mul, Int.sign_eq_one_of_pos hP, Int.sign_eq_one_of_pos hQ,
      mul_one, mul_one] at this
  show (if scaled s m e (min e f) + scaled t n f (min e f) = 0 then finite (s && t) 0 (-1074)
    else round (decide (scaled s m e (min e f) + scaled t n f (min e f) < 0))
      (scaled s m e (min e f) + scaled t n f (min e f)).natAbs (min e f)).toInt? = some (a + b)
  by_cases h0 : scaled s m e (min e f) + scaled t n f (min e f) = 0
  · rw [if_pos h0, toInt?_signed_zero]
    rw [h0, Int.sign_zero] at hsign
    rw [Int.sign_eq_zero_iff_zero.mp hsign.symm]
  · rw [if_neg h0]
    have hval : IsValue (scaled s m e (min e f) + scaled t n f (min e f)).natAbs (min e f)
        (a + b).natAbs := by
      refine (isValue_iff_shift _ _ _).mpr ⟨K1 + K2, hEK, ?_⟩
      have := congrArg Int.natAbs hV
      rwa [Int.natAbs_mul, Int.natAbs_mul, Int.natAbs_ofNat, Int.natAbs_ofNat] at this
    rw [toInt?_round _ hab hval]
    congr 1
    by_cases hneg : scaled s m e (min e f) + scaled t n f (min e f) < 0
    · have : (a + b).sign = -1 := by
        rw [← hsign]
        exact Int.sign_eq_neg_one_of_neg hneg
      have := Int.sign_eq_neg_one_iff_neg.mp this
      simp only [hneg, decide_True, if_true]
      omega
    · have hpos : 0 < scaled s m e (min e f) + scaled t n f (min e f) := by omega
      have : (a + b).sign = 1 := by
        rw [← hsign]
        exact Int.sign_eq_one_of_pos hpos
      have := Int.sign_eq_one_iff_pos.mp this
      simp only [hneg, decide_False, Bool.false_eq_true, if_false]
      omega



theorem isPositive_of_toInt? {x : Double} {z : Int} (h : x.toInt? = some z) (hz : 0 < z) :
    x.isPositive = true := by
  obtain ⟨s, m, e, rfl⟩ := finite_of_toInt? h
  obtain ⟨n, hn, hzn⟩ := toInt?_finite h
  have hs : s = false := by
    cases s
    · rfl
    · simp only [if_true] at hzn
      omega
  subst hs
  simp only [Bool.false_eq_true, if_false] at hzn
  have hm : m ≠ 0 := by
    rintro rfl
    rcases hn with ⟨_, hv⟩ | ⟨_, hv⟩
    · simp at hv
      omega
    · have hpos : 0 < 2 ^ (-e).toNat := Nat.two_pow_pos _
      have hn0 : 0 < n := by omega
      have := Nat.mul_pos hn0 hpos
      omega
  simp [isPositive, hm]


end Double

/-! ## Runs of the code at two scalar types -/

section Parametricity

variable {β γ : Type} [Zero β] [One β] [Add β] [Mul β] [ScalarAbs β]
  [Zero γ] [One γ] [Add γ] [Mul γ] [ScalarAbs γ] {R : β → γ → Prop}

theorem OptRel.bind {a b c d : Type} {S : a → b → Prop} {T : c → d → Prop}
    {x : Option a} {y : Option b} {f : a → Option c} {g : b → Option d}
    (h : OptRel S x y) (hfg : ∀ u v, S u v → OptRel T (f u) (g v)) :
    OptRel T (x.bind f) (y.bind g) := by
  cases x <;> cases y
  · trivial
  · exact h.elim
  · exact h.elim
  · exact hfg _ _ h

theorem OptRel.map {a b c d : Type} {S : a → b → Prop} {T : c → d → Prop}
    {x : Option a} {y : Option b} {f : a → c} {g : b → d}
    (h : OptRel S x y) (hfg : ∀ u v, S u v → T (f u) (g v)) :
    OptRel T (x.map f) (y.map g) := by
  cases x <;> cases y
  · trivial
  · exact h.elim
  · exact h.elim
  · exact hfg _ _ h

theorem OptRel.getElem? {a b : Type} {S : a → b → Prop} {l1 : List a} {l2 : List b}
    (h : List.Forall₂ S l1 l2) (k : Nat) : OptRel S l1[k]? l2[k]? := by
  induction h generalizing k with
  | nil => trivial
  | cons hab _ ih =>
    cases k with
    | zero => simpa [OptRel] using hab
    | succ k => simpa using ih k

theorem forall₂_getD {a b : Type} {S : a → b → Prop} {l1 : List a} {l2 : List b}
    (h : List.Forall₂ S l1 l2) {x : a} {y : b} (hxy : S x y) (k : Nat) :
    S (l1.getD k x) (l2.getD k y) := by
  have := OptRel.getElem? h k
  rw [List.getD_eq_getElem?_getD, List.getD_eq_getElem?_getD]
  cases h1 : l1[k]? <;> cases h2 : l2[k]? <;> rw [h1, h2] at this
  · exact hxy
  · exact this.elim
  · exact this.elim
  · exact this

theorem forall₂_map_range {a b : Type} {S : a → b → Prop} (n : Nat) {f : Nat → a}
    {g : Nat → b} (h : ∀ i, S (f i) (g i)) :
    List.Forall₂ S ((List.range n).map f) ((List.range n).map g) := by
  rw [List.forall₂_map_left_iff, List.forall₂_map_right_iff]
  exact List.forall₂_same.mpr (fun i _ => h i)

theorem forall₂_zipWith {a b : Type} {S : a → b → Prop} {f : a → a → a} {g : b → b → b}
    (hfg : ∀ {u1 u2 v1 v2}, S u1 v1 → S u2 v2 → S (f u1 u2) (g v1 v2))
    {l1 l1' : List a} {l2 l2' : List b} (h : List.Forall₂ S l1 l2)
    (h' : List.Forall₂ S l1' l2') :
    List.Forall₂ S (List.zipWith f l1 l1') (List.zipWith g l2 l2') := by
  induction h generalizing l1' l2' with
  | nil => simp
  | cons hab _ ih =>
    cases h' with
    | nil => simp
    | cons hcd ht => exact List.Forall₂.cons (hfg hab hcd) (ih ht)

theorem sum_rel (hR : ScalarRel R) {l1 : List β} {l2 : List γ} (h : List.Forall₂ R l1 l2) :
    R l1.sum l2.sum := by
  induction h with
  | nil => exact hR.zero
  | cons hab _ ih =>
    rw [List.sum_cons, List.sum_cons]
    exact hR.add hab ih

theorem sumUpTo_rel (hR : ScalarRel R) (n : Nat) {f : Nat → β} {g : Nat → γ}
    (h : ∀ l, R (f l) (g l)) : R (sumUpTo n f) (sumUpTo n g) :=
  sum_rel hR (forall₂_map_range n h)

theorem Identity_rel (hR : ScalarRel R) (r c : Nat) :
    MatRel R (matrix_t.Identity r c) (matrix_t.Identity r c) := by
  refine ⟨rfl, rfl, fun i j => ?_⟩
  unfold matrix_t.Identity
  by_cases h : i = j
  · simp only [h, if_true]
    exact hR.one
  · simp only [h, if_false]
    exact hR.zero

omit [Zero β] [One β] [Add β] [Mul β] [ScalarAbs β] [Zero γ] [One γ] [Add γ] [Mul γ]
  [ScalarAbs γ] in
theorem transpose_rel {m1 : matrix_t β} {m2 : matrix_t γ} (h : MatRel R m1 m2) :
    MatRel R m1.transpose m2.transpose :=
  ⟨h.2.1, h.1, fun i j => h.2.2 j i⟩

theorem cwiseAbs_rel (hR : ScalarRel R) {m1 : matrix_t β} {m2 : matrix_t γ}
    (h : MatRel R m1 m2) : MatRel R m1.cwiseAbs m2.cwiseAbs :=
  ⟨h.1, h.2.1, fun i j => hR.abs (h.2.2 i j)⟩

theorem rowwiseSum_rel (hR : ScalarRel R) {m1 : matrix_t β} {m2 : matrix_t γ}
    (h : MatRel R m1 m2) : List.Forall₂ R m1.rowwiseSum m2.rowwiseSum := by
  unfold matrix_t.rowwiseSum
  rw [h.1, h.2.1]
  exact forall₂_map_range _ (fun i => sumUpTo_rel hR _ (fun j => h.2.2 i j))

theorem mul_rel (hR : ScalarRel R) {a1 b1 : matrix_t β} {a2 b2 : matrix_t γ}
    (ha : MatRel R a1 a2) (hb : MatRel R b1 b2) :
    OptRel (MatRel R) (a1.mul b1) (a2.mul b2) := by
  unfold matrix_t.mul
  rw [ha.2.1, hb.1]
  by_cases h : a2.cols = b2.rows
  · simp only [h, if_true]
    exact ⟨ha.1, hb.2.1, fun i j =>
      sumUpTo_rel hR _ (fun l => hR.mul (ha.2.2 i l) (hb.2.2 l j))⟩
  · simp only [h, if_false]
    trivial

theorem add_rel (hR : ScalarRel R) {a1 b1 : matrix_t β} {a2 b2 : matrix_t γ}
    (ha : MatRel R a1 a2) (hb : MatRel R b1 b2) :
    OptRel (MatRel R) (a1.add b1) (a2.add b2) := by
  unfold matrix_t.add
  rw [ha.1, ha.2.1, hb.1, hb.2.1]
  by_cases h : a2.rows = b2.rows ∧ a2.cols = b2.cols
  · simp only [h, and_self, if_true]
    exact ⟨rfl, rfl, fun i j => hR.add (ha.2.2 i j) (hb.2.2 i j)⟩
  · simp only [h, if_false]
    trivial

theorem cwiseProduct_rel (hR : ScalarRel R) {u1 v1 : vector_t β} {u2 v2 : vector_t γ}
    (hu : List.Forall₂ R u1 u2) (hv : List.Forall₂ R v1 v2) :
    OptRel (List.Forall₂ R) (vector_t.cwiseProduct u1 v1) (vector_t.cwiseProduct u2 v2) := by
  unfold vector_t.cwiseProduct
  rw [hu.length_eq, hv.length_eq]
  by_cases h : u2.length = v2.length
  · simp only [h, if_true]
    exact forall₂_zipWith (fun h1 h2 => hR.mul h1 h2) hu hv
  · simp only [h, if_false]
    trivial

theorem vector_add_rel (hR : ScalarRel R) {u1 v1 : vector_t β} {u2 v2 : vector_t γ}
    (hu : List.Forall₂ R u1 u2) (hv : List.Forall₂ R v1 v2) :
    OptRel (List.Forall₂ R) (vector_t.add u1 v1) (vector_t.add u2 v2) := by
  unfold vector_t.add
  rw [hu.length_eq, hv.length_eq]
  by_cases h : u2.length = v2.length
  · simp only [h, if_true]
    exact forall₂_zipWith (fun h1 h2 => hR.add h1 h2) hu hv
  · simp only [h, if_false]
    trivial

theorem asDiagonal_rel (hR : ScalarRel R) {v1 : vector_t β} {v2 : vector_t γ}
    (hv : List.Forall₂ R v1 v2) :
    MatRel R (vector_t.asDiagonal v1) (vector_t.asDiagonal v2) := by
  refine ⟨hv.length_eq, hv.length_eq, fun i j => ?_⟩
  unfold vector_t.asDiagonal
  by_cases h : i = j
  · simp only [h, if_true]
    exact forall₂_getD hv hR.zero j
  · simp only [h, if_false]
    exact hR.zero

end Parametricity

section Parametricity2

variable {β γ : Type} [Zero β] [One β] [Add β] [Mul β] [ScalarAbs β]
  [Zero γ] [One γ] [Add γ] [Mul γ] [ScalarAbs γ] {R : β → γ → Prop}

theorem OptRel.ite {a b : Type} {S : a → b → Prop} (c : Prop) [Decidable c]
    {x x' : Option a} {y y' : Option b} (h1 : OptRel S x y) (h2 : OptRel S x' y') :
    OptRel S (if c then x else x') (if c then y else y') := by
  by_cases h : c
  · simpa only [h, if_true] using h1
  · simpa only [h, if_false] using h2

theorem scalingMatrix_rel (hR : ScalarRel R) {p1 : Option (List (vector_t β))}
    {p2 : Option (List (vector_t γ))}
    (hp : OptRel (List.Forall₂ (List.Forall₂ R)) p1 p2) (j n : Nat) :
    OptRel (MatRel R) (scalingMatrix p1 j n) (scalingMatrix p2 j n) := by
  cases p1 <;> cases p2
  · exact Identity_rel hR n n
  · exact hp.elim
  · exact hp.elim
  · exact OptRel.map (OptRel.getElem? hp j) (fun _ _ h => asDiagonal_rel hR h)

theorem GGTDiagonalTerm_rel (hR : ScalarRel R) {p1 : Option (List (vector_t β))}
    {p2 : Option (List (vector_t γ))}
    (hp : OptRel (List.Forall₂ (List.Forall₂ R)) p1 p2) (k n : Nat) :
    OptRel (MatRel R) (GGTDiagonalTerm p1 k n) (GGTDiagonalTerm p2 k n) := by
  cases p1 <;> cases p2
  · exact Identity_rel hR n n
  · exact hp.elim
  · exact hp.elim
  · exact OptRel.bind (OptRel.getElem? hp k) (fun _ _ h =>
      OptRel.map (cwiseProduct_rel hR h h) (fun _ _ h2 => asDiagonal_rel hR h2))

theorem optRel_some {a b : Type} {S : a → b → Prop} {x : a} {y : b} (h : S x y) :
    OptRel S (some x) (some y) := h

theorem optRel_refl {a : Type} (x : Option a) : OptRel (fun u v : a => u = v) x x := by
  cases x
  · trivial
  · exact rfl

/-- The loop body at two scalar types, on related data. -/
theorem GGTAbsRowSumTask_rel (hR : ScalarRel R) (ocpSize : OcpSize)
    {dyn1 : List (VectorFunctionLinearApproximation β)}
    {dyn2 : List (VectorFunctionLinearApproximation γ)}
    {p1 : Option (List (vector_t β))} {p2 : Option (List (vector_t γ))}
    (hd : List.Forall₂ (DynRel R) dyn1 dyn2)
    (hp : OptRel (List.Forall₂ (List.Forall₂ R)) p1 p2) (k : Nat) :
    OptRel (fun r1 r2 => MatRel R r1.1 r2.1 ∧ List.Forall₂ R r1.2 r2.2)
      (GGTAbsRowSumTask ocpSize dyn1 p1 k) (GGTAbsRowSumTask ocpSize dyn2 p2 k) := by
  unfold GGTAbsRowSumTask
  simp only
  refine OptRel.bind (optRel_refl _) ?_
  rintro nx _ rfl
  refine OptRel.bind (OptRel.getElem? hd k) ?_
  intro d1 d2 hdk
  refine OptRel.bind (GGTDiagonalTerm_rel hR hp k nx) ?_
  intro t1 t2 ht
  refine OptRel.bind (mul_rel hR hdk.2 (transpose_rel hdk.2)) ?_
  intro b1 b2 hb
  refine OptRel.bind (add_rel hR ht hb) ?_
  intro t1 t2 ht
  refine OptRel.bind (OptRel.ite _ (OptRel.bind (mul_rel hR hdk.1 (transpose_rel hdk.1))
    (fun _ _ h => add_rel hR ht h)) (optRel_some ht)) ?_
  intro t1 t2 ht
  refine OptRel.bind (OptRel.ite _ ?_ (optRel_some (rowwiseSum_rel hR (cwiseAbs_rel hR ht)))) ?_
  · rw [hdk.1.2.1]
    refine OptRel.bind (scalingMatrix_rel hR hp (k - 1) _) ?_
    intro S1 S2 hS
    refine OptRel.bind (mul_rel hR hdk.1 hS) ?_
    intro AS1 AS2 hAS
    exact vector_add_rel hR (rowwiseSum_rel hR (cwiseAbs_rel hR ht))
      (rowwiseSum_rel hR (cwiseAbs_rel hR hAS))
  intro v1 v2 hv
  refine OptRel.bind (OptRel.ite _ ?_ (optRel_some hv)) ?_
  · refine OptRel.bind (OptRel.getElem? hd (k + 1)) ?_
    intro dn1 dn2 hdn
    rw [hdn.1.2.1]
    refine OptRel.bind (scalingMatrix_rel hR hp k _) ?_
    intro S1 S2 hS
    refine OptRel.bind (mul_rel hR hdn.1 hS) ?_
    intro AS1 AS2 hAS
    exact vector_add_rel hR hv (rowwiseSum_rel hR (cwiseAbs_rel hR (transpose_rel hAS)))
  intro v1 v2 hv
  exact ⟨ht, hv⟩

end Parametricity2

section Parametricity3

variable {β γ : Type} [Zero β] [One β] [Add β] [Mul β] [ScalarAbs β]
  [Zero γ] [One γ] [Add γ] [Mul γ] [ScalarAbs γ] {R : β → γ → Prop}

theorem forall₂_append {a b : Type} {S : a → b → Prop} {l1 l1' : List a} {l2 l2' : List b}
    (h : List.Forall₂ S l1 l2) (h' : List.Forall₂ S l1' l2') :
    List.Forall₂ S (l1 ++ l1') (l2 ++ l2') := by
  induction h with
  | nil => exact h'
  | cons hab _ ih => exact List.Forall₂.cons hab ih

omit [Zero β] [One β] [Add β] [Mul β] [ScalarAbs β] [Zero γ] [One γ] [Add γ] [Mul γ]
  [ScalarAbs γ] in
theorem setSegment_rel {res1 v1 : vector_t β} {res2 v2 : vector_t γ}
    (hres : List.Forall₂ R res1 res2) (hv : List.Forall₂ R v1 v2) (start n : Nat) :
    OptRel (List.Forall₂ R) (res1.setSegment start n v1) (res2.setSegment start n v2) := by
  unfold vector_t.setSegment
  rw [hres.length_eq, hv.length_eq]
  refine OptRel.ite _ ?_ trivial
  exact forall₂_append (forall₂_append (List.forall₂_take _ hres) hv)
    (List.forall₂_drop _ hres)

theorem addSegment_rel (hR : ScalarRel R) {res1 v1 : vector_t β} {res2 v2 : vector_t γ}
    (hres : List.Forall₂ R res1 res2) (hv : List.Forall₂ R v1 v2) (start n : Nat) :
    OptRel (List.Forall₂ R) (res1.addSegment start n v1) (res2.addSegment start n v2) := by
  unfold vector_t.addSegment
  rw [hres.length_eq, hv.length_eq]
  refine OptRel.ite _ ?_ trivial
  exact forall₂_append (forall₂_append (List.forall₂_take _ hres)
    (forall₂_zipWith (fun h1 h2 => hR.add h1 h2)
      (List.forall₂_take _ (List.forall₂_drop _ hres)) hv))
    (List.forall₂_drop _ hres)

omit [Zero β] [One β] [Add β] [Mul β] [ScalarAbs β] [Zero γ] [One γ] [Add γ] [Mul γ]
  [ScalarAbs γ] in
theorem copyBlocks_rel {blocks1 : List (vector_t β)} {blocks2 : List (vector_t γ)}
    (hb : List.Forall₂ (List.Forall₂ R) blocks1 blocks2) :
    ∀ {res1 : vector_t β} {res2 : vector_t γ}, List.Forall₂ R res1 res2 → ∀ curRow : Nat,
      OptRel (List.Forall₂ R) (copyBlocks blocks1 res1 curRow)
        (copyBlocks blocks2 res2 curRow) := by
  induction hb with
  | nil =>
    intro res1 res2 hres curRow
    exact hres
  | @cons v1 v2 _ _ hv _ ih =>
    intro res1 res2 hres curRow
    unfold copyBlocks
    have hseg := setSegment_rel hres hv curRow v2.length
    rw [hv.length_eq]
    revert hseg
    cases vector_t.setSegment res1 curRow v2.length v1 <;>
      cases vector_t.setSegment res2 curRow v2.length v2 <;> intro hseg
    · trivial
    · exact hseg.elim
    · exact hseg.elim
    · exact ih hseg _

omit [Zero β] [One β] [Add β] [Mul β] [ScalarAbs β] [Zero γ] [One γ] [Add γ] [Mul γ]
  [ScalarAbs γ] in
theorem sequentialBlocks_rel {body1 : Nat → Option (matrix_t β × vector_t β)}
    {body2 : Nat → Option (matrix_t γ × vector_t γ)}
    (h : ∀ k, OptRel (fun r1 r2 => MatRel R r1.1 r2.1 ∧ List.Forall₂ R r1.2 r2.2)
      (body1 k) (body2 k)) (N : Nat) :
    OptRel (List.Forall₂ (List.Forall₂ R)) (sequentialBlocks body1 N)
      (sequentialBlocks body2 N) := by
  unfold sequentialBlocks
  have hsome : ∀ k, (body1 k).isSome = (body2 k).isSome := by
    intro k
    have := h k
    cases h1 : body1 k <;> cases h2 : body2 k <;> rw [h1, h2] at this
    · rfl
    · exact this.elim
    · exact this.elim
    · rfl
  simp only [hsome]
  refine OptRel.ite _ ?_ trivial
  refine forall₂_map_range N (fun k => ?_)
  have := h k
  cases h1 : body1 k <;> cases h2 : body2 k <;> rw [h1, h2] at this
  · exact List.Forall₂.nil
  · exact this.elim
  · exact this.elim
  · exact this.2

theorem forall₂_replicate {a b : Type} {S : a → b → Prop} {x : a} {y : b} (h : S x y)
    (n : Nat) : List.Forall₂ S (List.replicate n x) (List.replicate n y) := by
  induction n with
  | zero => exact List.Forall₂.nil
  | succ n ih => exact List.Forall₂.cons h ih

/-- The sequential pass at two scalar types, on related data. -/
theorem GGTAbsRowSumSequential_rel (hR : ScalarRel R) (ocpSize : OcpSize)
    {dyn1 : List (VectorFunctionLinearApproximation β)}
    {dyn2 : List (VectorFunctionLinearApproximation γ)}
    {p1 : Option (List (vector_t β))} {p2 : Option (List (vector_t γ))}
    (hd : List.Forall₂ (DynRel R) dyn1 dyn2)
    (hp : OptRel (List.Forall₂ (List.Forall₂ R)) p1 p2) (nbThreads : Nat) :
    OutcomeRel (List.Forall₂ R) (GGTAbsRowSumSequential ocpSize dyn1 p1 nbThreads)
      (GGTAbsRowSumSequential ocpSize dyn2 p2 nbThreads) := by
  unfold GGTAbsRowSumSequential
  simp only
  have hany : p1.any (fun sv => (sv.length : Int) ≠ ocpSize.numStages)
      = p2.any (fun sv => (sv.length : Int) ≠ ocpSize.numStages) := by
    cases p1 <;> cases p2
    · rfl
    · exact hp.elim
    · exact hp.elim
    · simp only [Option.any_some]
      rw [List.Forall₂.length_eq hp]
  rw [hany]
  split
  · exact ⟨rfl, rfl⟩
  · split
    · exact ⟨rfl, rfl⟩
    · have hseq := sequentialBlocks_rel (fun k => GGTAbsRowSumTask_rel hR ocpSize hd hp k)
        ocpSize.numStages.toNat
      revert hseq
      cases sequentialBlocks (GGTAbsRowSumTask ocpSize dyn1 p1) ocpSize.numStages.toNat <;>
        cases sequentialBlocks (GGTAbsRowSumTask ocpSize dyn2 p2) ocpSize.numStages.toNat <;>
        intro hseq
      · exact rfl
      · exact hseq.elim
      · exact hseq.elim
      · have hcopy := copyBlocks_rel hseq
          (forall₂_replicate hR.zero (getNumDynamicsConstraints ocpSize)) 0
        revert hcopy
        simp only
        cases copyBlocks _ (List.replicate (getNumDynamicsConstraints ocpSize) (0 : β)) 0 <;>
          cases copyBlocks _ (List.replicate (getNumDynamicsConstraints ocpSize) (0 : γ)) 0 <;>
          intro hcopy
        · exact rfl
        · exact hcopy.elim
        · exact hcopy.elim
        · exact ⟨hcopy, rfl⟩

end Parametricity3

namespace ExactInt

theorem ofInt_eq_value {a z : Int} (h : ofInt a = value z) : a = z ∧ z.natAbs < 2 ^ 53 := by
  unfold ofInt at h
  by_cases ha : a.natAbs < 2 ^ 53
  · rw [if_pos ha] at h
    cases h
    exact ⟨rfl, ha⟩
  · rw [if_neg ha] at h
    cases h

theorem ofInt_of_lt {a : Int} (h : a.natAbs < 2 ^ 53) : ofInt a = value a := by
  unfold ofInt
  rw [if_pos h]

theorem add_eq_value {c d : ExactInt} {z : Int} (h : c + d = value z) :
    ∃ a b, c = value a ∧ d = value b ∧ a + b = z ∧ z.natAbs < 2 ^ 53 := by
  cases c with
  | lost => cases h
  | value a =>
    cases d with
    | lost => cases h
    | value b =>
      obtain ⟨h1, h2⟩ := ofInt_eq_value (show ofInt (a + b) = value z from h)
      exact ⟨a, b, rfl, rfl, h1, h2⟩

theorem mul_eq_value {c d : ExactInt} {z : Int} (h : c * d = value z) :
    ∃ a b, c = value a ∧ d = value b ∧ a * b = z ∧ z.natAbs < 2 ^ 53 := by
  cases c with
  | lost => cases h
  | value a =>
    cases d with
    | lost => cases h
    | value b =>
      obtain ⟨h1, h2⟩ := ofInt_eq_value (show ofInt (a * b) = value z from h)
      exact ⟨a, b, rfl, rfl, h1, h2⟩

theorem abs_eq_value {c : ExactInt} {z : Int} (h : ScalarAbs.abs c = value z) :
    ∃ a, c = value a ∧ |a| = z ∧ z.natAbs < 2 ^ 53 := by
  cases c with
  | lost => cases h
  | value a =>
    obtain ⟨h1, h2⟩ := ofInt_eq_value (show ofInt |a| = value z from h)
    exact ⟨a, rfl, h1, h2⟩

end ExactInt

theorem natAbs_lt_of_abs_le {z b : Int} (h : |z| ≤ b) (hb : b.natAbs < 2 ^ 53) :
    z.natAbs < 2 ^ 53 := by
  have := Int.natCast_natAbs z
  omega

/-- The operations on `double`s follow those on integers within the exact range. -/
theorem doubleExact_rel : ScalarRel DoubleExact := by
  refine ⟨?_, ?_, ?_, ?_, ?_⟩
  · intro z h
    cases h
    exact Double.toInt?_zero
  · intro z h
    cases h
    exact Double.toInt?_one
  · intro x y c d hx hy z h
    obtain ⟨a, b, rfl, rfl, rfl, hlt⟩ := ExactInt.add_eq_value h
    exact Double.toInt?_add (hx a rfl) (hy b rfl) hlt
  · intro x y c d hx hy z h
    obtain ⟨a, b, rfl, rfl, rfl, hlt⟩ := ExactInt.mul_eq_value h
    exact Double.toInt?_mul (hx a rfl) (hy b rfl) hlt
  · intro x c hx z h
    obtain ⟨a, rfl, rfl, _⟩ := ExactInt.abs_eq_value h
    exact Double.toInt?_abs (hx a rfl)

/-- The operations on integers follow those on integers within the exact range. -/
theorem intExact_rel : ScalarRel IntExact := by
  refine ⟨?_, ?_, ?_, ?_, ?_⟩
  · intro z h
    cases h
    rfl
  · intro z h
    cases h
    rfl
  · intro x y c d hx hy z h
    obtain ⟨a, b, rfl, rfl, rfl, _⟩ := ExactInt.add_eq_value h
    rw [hx a rfl, hy b rfl]
  · intro x y c d hx hy z h
    obtain ⟨a, b, rfl, rfl, rfl, _⟩ := ExactInt.mul_eq_value h
    rw [hx a rfl, hy b rfl]
  · intro x c hx z h
    obtain ⟨a, rfl, rfl, _⟩ := ExactInt.abs_eq_value h
    rw [hx a rfl]
    rfl

/-- A run that stays in the exact range on the absolute values of the data stays in it on
the data. -/
theorem dominated_rel : ScalarRel Dominated := by
  refine ⟨?_, ?_, ?_, ?_, ?_⟩
  · intro b h
    cases h
    exact ⟨0, rfl, by simp⟩
  · intro b h
    cases h
    exact ⟨1, rfl, by simp⟩
  · intro x y c d hx hy z h
    obtain ⟨a, b, rfl, rfl, rfl, hlt⟩ := ExactInt.add_eq_value h
    obtain ⟨u, rfl, hu⟩ := hx a rfl
    obtain ⟨v, rfl, hv⟩ := hy b rfl
    have huv : |u + v| ≤ a + b := le_trans (abs_add u v) (add_le_add hu hv)
    refine ⟨u + v, ?_, huv⟩
    show ExactInt.ofInt (u + v) = _
    exact ExactInt.ofInt_of_lt (natAbs_lt_of_abs_le huv hlt)
  · intro x y c d hx hy z h
    obtain ⟨a, b, rfl, rfl, rfl, hlt⟩ := ExactInt.mul_eq_value h
    obtain ⟨u, rfl, hu⟩ := hx a rfl
    obtain ⟨v, rfl, hv⟩ := hy b rfl
    have huv : |u * v| ≤ a * b := by
      rw [abs_mul]
      exact mul_le_mul hu hv (abs_nonneg v) (le_trans (abs_nonneg u) hu)
    refine ⟨u * v, ?_, huv⟩
    show ExactInt.ofInt (u * v) = _
    exact ExactInt.ofInt_of_lt (natAbs_lt_of_abs_le huv hlt)
  · intro x c hx z h
    obtain ⟨a, rfl, rfl, hlt⟩ := ExactInt.abs_eq_value h
    obtain ⟨u, rfl, hu⟩ := hx a rfl
    have hua : |(|u|)| ≤ |a| := by
      rw [abs_abs]
      exact le_trans hu (le_abs_self a)
    refine ⟨|u|, ?_, hua⟩
    show ExactInt.ofInt |u| = _
    exact ExactInt.ofInt_of_lt (natAbs_lt_of_abs_le hua hlt)

section DataRelations

variable {α β γ : Type} {R : β → γ → Prop}

theorem matRel_map {f : α → β} {g : α → γ} (h : ∀ z, R (f z) (g z)) (m : matrix_t α) :
    MatRel R (m.map f) (m.map g) :=
  ⟨rfl, rfl, fun i j => h (m.coeff i j)⟩

theorem matRel_map_right {g : β → γ} (h : ∀ z, R z (g z)) (m : matrix_t β) :
    MatRel R m (m.map g) :=
  ⟨rfl, rfl, fun i j => h (m.coeff i j)⟩

theorem dynRel_map {f : α → β} {g : α → γ} (h : ∀ z, R (f z) (g z))
    (dynamics : List (VectorFunctionLinearApproximation α)) :
    List.Forall₂ (DynRel R) (dynamics.map (VectorFunctionLinearApproximation.map f))
      (dynamics.map (VectorFunctionLinearApproximation.map g)) := by
  rw [List.forall₂_map_left_iff, List.forall₂_map_right_iff]
  exact List.forall₂_same.mpr (fun d _ => ⟨matRel_map h d.dfdx, matRel_map h d.dfdu⟩)

theorem dynRel_map_right {g : β → γ} (h : ∀ z, R z (g z))
    (dynamics : List (VectorFunctionLinearApproximation β)) :
    List.Forall₂ (DynRel R) dynamics
      (dynamics.map (VectorFunctionLinearApproximation.map g)) := by
  rw [List.forall₂_map_right_iff]
  exact List.forall₂_same.mpr (fun d _ => ⟨matRel_map_right h d.dfdx, matRel_map_right h d.dfdu⟩)

theorem costRel_map {f : α → β} {g : α → γ} (h : ∀ z, R (f z) (g z))
    (cost : List (ScalarFunctionQuadraticApproximation α)) :
    List.Forall₂ (CostRel R) (cost.map (ScalarFunctionQuadraticApproximation.map f))
      (cost.map (ScalarFunctionQuadraticApproximation.map g)) := by
  rw [List.forall₂_map_left_iff, List.forall₂_map_right_iff]
  exact List.forall₂_same.mpr (fun c _ =>
    ⟨matRel_map h c.dfdxx, matRel_map h c.dfdux, matRel_map h c.dfduu⟩)

theorem costRel_map_right {g : β → γ} (h : ∀ z, R z (g z))
    (cost : List (ScalarFunctionQuadraticApproximation β)) :
    List.Forall₂ (CostRel R) cost (cost.map (ScalarFunctionQuadraticApproximation.map g)) := by
  rw [List.forall₂_map_right_iff]
  exact List.forall₂_same.mpr (fun c _ =>
    ⟨matRel_map_right h c.dfdxx, matRel_map_right h c.dfdux, matRel_map_right h c.dfduu⟩)

theorem scalingRel_map {f : α → β} {g : α → γ} (h : ∀ z, R (f z) (g z))
    (p : Option (List (vector_t α))) :
    OptRel (List.Forall₂ (List.Forall₂ R)) (p.map (List.map (List.map f)))
      (p.map (List.map (List.map g))) := by
  cases p with
  | none => trivial
  | some l =>
    show List.Forall₂ _ _ _
    rw [List.forall₂_map_left_iff, List.forall₂_map_right_iff]
    refine List.forall₂_same.mpr (fun v _ => ?_)
    rw [List.forall₂_map_left_iff, List.forall₂_map_right_iff]
    exact List.forall₂_same.mpr (fun z _ => h z)

theorem scalingRel_map_right {g : β → γ} (h : ∀ z, R z (g z))
    (p : Option (List (vector_t β))) :
    OptRel (List.Forall₂ (List.Forall₂ R)) p (p.map (List.map (List.map g))) := by
  cases p with
  | none => trivial
  | some l =>
    show List.Forall₂ _ _ _
    rw [List.forall₂_map_right_iff]
    refine List.forall₂_same.mpr (fun v _ => ?_)
    rw [List.forall₂_map_right_iff]
    exact List.forall₂_same.mpr (fun z _ => h z)

end DataRelations

section ExactData

theorem intExact_ofInt (z : Int) : IntExact z (ExactInt.ofInt z) := by
  intro w h
  exact (ExactInt.ofInt_eq_value h).1

theorem doubleExact_ofInt (z : Int) : DoubleExact (Double.ofInt z) (ExactInt.ofInt z) := by
  intro w h
  obtain ⟨rfl, hlt⟩ := ExactInt.ofInt_eq_value h
  exact Double.toInt?_ofInt hlt

theorem dominated_ofInt (z : Int) : Dominated (ExactInt.ofInt z) (absExact z) := by
  intro b h
  obtain ⟨rfl, hlt⟩ := ExactInt.ofInt_eq_value h
  exact ⟨z, ExactInt.ofInt_of_lt (natAbs_lt_of_abs_le (le_refl _) hlt), le_refl _⟩

theorem values_of_dominated {cs : List ExactInt} {bs : List Int}
    (h : List.Forall₂ Dominated cs (bs.map ExactInt.value)) :
    ∃ zs : List Int, cs = zs.map ExactInt.value := by
  induction bs generalizing cs with
  | nil =>
    cases h
    exact ⟨[], rfl⟩
  | cons b bs ih =>
    cases h with
    | cons hc ht =>
      obtain ⟨z, rfl, _⟩ := hc b rfl
      obtain ⟨zs, rfl⟩ := ih ht
      exact ⟨z :: zs, rfl⟩

theorem eq_of_intExact {res : List Int} {zs : List Int}
    (h : List.Forall₂ IntExact res (zs.map ExactInt.value)) : res = zs := by
  induction zs generalizing res with
  | nil =>
    cases h
    rfl
  | cons z zs ih =>
    cases h with
    | cons hc ht =>
      rw [hc z rfl, ih ht]

theorem toInt?_of_doubleExact {res : List Double} {zs : List Int}
    (h : List.Forall₂ DoubleExact res (zs.map ExactInt.value)) :
    res.map Double.toInt? = zs.map some := by
  induction zs generalizing res with
  | nil =>
    cases h
    rfl
  | cons z zs ih =>
    cases h with
    | cons hc ht =>
      rw [List.map_cons, List.map_cons, hc z rfl, ih ht]

end ExactData

section SequentialExact

variable {α : Type} [Zero α] [One α] [Add α] [Mul α] [ScalarAbs α]

theorem GGTAbsRowSumSequential_returned_indep {ocpSize : OcpSize}
    {dynamics : List (VectorFunctionLinearApproximation α)}
    {scalingVectorsPtr : Option (List (vector_t α))} {n1 : Nat} {res : vector_t α} {c : Nat}
    (h : GGTAbsRowSumSequential ocpSize dynamics scalingVectorsPtr n1 = .returned res c)
    (n2 : Nat) :
    GGTAbsRowSumSequential ocpSize dynamics scalingVectorsPtr n2 = .returned res c := by
  unfold GGTAbsRowSumSequential at h ⊢
  simp only at h ⊢
  split at h
  · cases h
  · split at h
    · cases h
    · rename_i h1 h2
      rw [if_neg h1, if_neg h2]
      exact h

end SequentialExact

section HessianRelations

variable {β γ : Type} [Zero β] [One β] [Add β] [Mul β] [ScalarAbs β]
  [Zero γ] [One γ] [Add γ] [Mul γ] [ScalarAbs γ] {R : β → γ → Prop}

theorem hessianAbsRowSumStage_rel (hR : ScalarRel R) (ocpSize : OcpSize)
    {cost1 : List (ScalarFunctionQuadraticApproximation β)}
    {cost2 : List (ScalarFunctionQuadraticApproximation γ)}
    (hc : List.Forall₂ (CostRel R) cost1 cost2) (k : Nat)
    {res1 : vector_t β} {res2 : vector_t γ} (hres : List.Forall₂ R res1 res2) (curRow : Nat) :
    OptRel (fun r1 r2 => List.Forall₂ R r1.1 r2.1 ∧ r1.2 = r2.2)
      (hessianAbsRowSumStage ocpSize cost1 k res1 curRow)
      (hessianAbsRowSumStage ocpSize cost2 k res2 curRow) := by
  unfold hessianAbsRowSumStage
  refine OptRel.bind (optRel_refl _) ?_
  rintro nx _ rfl
  refine OptRel.bind (optRel_refl _) ?_
  rintro nu _ rfl
  refine OptRel.bind (OptRel.getElem? hc k) ?_
  intro c1 c2 hck
  have hxx : c1.dfdxx.size = c2.dfdxx.size := by
    unfold matrix_t.size
    rw [hck.1.1, hck.1.2.1]
  have hux : c1.dfdux.size = c2.dfdux.size := by
    unfold matrix_t.size
    rw [hck.2.1.1, hck.2.1.2.1]
  have huu : c1.dfduu.size = c2.dfduu.size := by
    unfold matrix_t.size
    rw [hck.2.2.1, hck.2.2.2.1]
  rw [hxx, hux, huu]
  refine OptRel.bind (OptRel.ite _ (setSegment_rel hres
    (rowwiseSum_rel hR (cwiseAbs_rel hR hck.1)) _ _) (optRel_some hres)) ?_
  intro r1 r2 hr
  refine OptRel.bind (OptRel.ite _ (addSegment_rel hR hr
    (rowwiseSum_rel hR (cwiseAbs_rel hR (transpose_rel hck.2.1))) _ _) (optRel_some hr)) ?_
  intro r1 r2 hr
  refine OptRel.bind (OptRel.ite _ (setSegment_rel hr
    (rowwiseSum_rel hR (cwiseAbs_rel hR hck.2.1)) _ _) (optRel_some hr)) ?_
  intro r1 r2 hr
  refine OptRel.bind (OptRel.ite _ (addSegment_rel hR hr
    (rowwiseSum_rel hR (cwiseAbs_rel hR hck.2.2)) _ _) (optRel_some hr)) ?_
  intro r1 r2 hr
  exact ⟨hr, rfl⟩

theorem hessianAbsRowSumLoop_rel (hR : ScalarRel R) (ocpSize : OcpSize)
    {cost1 : List (ScalarFunctionQuadraticApproximation β)}
    {cost2 : List (ScalarFunctionQuadraticApproximation γ)}
    (hc : List.Forall₂ (CostRel R) cost1 cost2) :
    ∀ (iterations k : Nat) {res1 : vector_t β} {res2 : vector_t γ},
      List.Forall₂ R res1 res2 → ∀ curRow : Nat,
      OptRel (fun r1 r2 => List.Forall₂ R r1.1 r2.1 ∧ r1.2 = r2.2)
        (hessianAbsRowSumLoop ocpSize cost1 iterations k res1 curRow)
        (hessianAbsRowSumLoop ocpSize cost2 iterations k res2 curRow) := by
  intro iterations
  induction iterations with
  | zero =>
    intro k res1 res2 hres curRow
    exact ⟨hres, rfl⟩
  | succ n ih =>
    intro k res1 res2 hres curRow
    unfold hessianAbsRowSumLoop
    have hstage := hessianAbsRowSumStage_rel hR ocpSize hc k hres curRow
    revert hstage
    cases hessianAbsRowSumStage ocpSize cost1 k res1 curRow <;>
      cases hessianAbsRowSumStage ocpSize cost2 k res2 curRow <;> intro hstage
    · trivial
    · exact hstage.elim
    · exact hstage.elim
    · rename_i r1 r2
      obtain ⟨r1a, r1b⟩ := r1
      obtain ⟨r2a, r2b⟩ := r2
      obtain ⟨h1, h2⟩ := hstage
      simp only at h2
      subst h2
      exact ih (k + 1) h1 r1b

/-- The call `hessianAbsRowSum` at two scalar types, on related data. -/
theorem hessianAbsRowSum_rel (hR : ScalarRel R) (ocpSize : OcpSize)
    {cost1 : List (ScalarFunctionQuadraticApproximation β)}
    {cost2 : List (ScalarFunctionQuadraticApproximation γ)}
    (hc : List.Forall₂ (CostRel R) cost1 cost2) (uninit1 : Nat → β) (uninit2 : Nat → γ)
    (hu : ∀ i, R (uninit1 i) (uninit2 i)) :
    OptRel (List.Forall₂ R) (hessianAbsRowSum ocpSize cost1 uninit1)
      (hessianAbsRowSum ocpSize cost2 uninit2) := by
  unfold hessianAbsRowSum
  simp only
  refine OptRel.bind (optRel_refl _) ?_
  rintro nu0 _ rfl
  refine OptRel.bind (OptRel.getElem? hc 0) ?_
  intro c1 c2 hc0
  refine OptRel.bind (setSegment_rel (forall₂_map_range _ hu)
    (rowwiseSum_rel hR (cwiseAbs_rel hR hc0.2.2)) _ _) ?_
  intro r1 r2 hr
  refine OptRel.bind (hessianAbsRowSumLoop_rel hR ocpSize hc _ _ hr _) ?_
  rintro ⟨r1, n1⟩ ⟨r2, n2⟩ ⟨hr, _⟩
  simp only at hr
  refine OptRel.bind (optRel_refl _) ?_
  rintro nxN _ rfl
  refine OptRel.bind (OptRel.ite _ trivial (OptRel.getElem? hc _)) ?_
  intro cN1 cN2 hcN
  rw [hr.length_eq]
  exact setSegment_rel hr (rowwiseSum_rel hR (cwiseAbs_rel hR hcN.1)) _ _

end HessianRelations

section DoubleHessian

theorem dominated_lost : Dominated ExactInt.lost ExactInt.lost := by
  intro b h
  cases h

/-- When the call stays within the exact range, `hessianAbsRowSum` on the `double`s of
integer cost blocks returns the `double`s of the integers that the call on the integers
returns, whatever the fresh memory holds. -/
theorem hessianAbsRowSum_double {ocpSize : OcpSize}
    {cost : List (ScalarFunctionQuadraticApproximation Int)} {bounds : List Int}
    (hexact : HessianExact ocpSize cost bounds) (uninitInt : Nat → Int)
    (uninit : Nat → Double) :
    ∃ (zs : List Int) (res : List Double),
      hessianAbsRowSum ocpSize cost uninitInt = some zs ∧
      hessianAbsRowSum ocpSize (doubleCost cost) uninit = some res ∧
      res.map Double.toInt? = zs.map some := by
  unfold HessianExact at hexact
  have hdom := hessianAbsRowSum_rel dominated_rel ocpSize
    (costRel_map (f := ExactInt.ofInt) (g := absExact) dominated_ofInt cost)
    (fun _ => ExactInt.lost) (fun _ => ExactInt.lost)
    (fun _ => dominated_lost)
  rw [hexact] at hdom
  obtain ⟨zs, hzs⟩ : ∃ zs : List Int, hessianAbsRowSum ocpSize
      (cost.map (ScalarFunctionQuadraticApproximation.map ExactInt.ofInt))
      (fun _ => ExactInt.lost) = some (zs.map ExactInt.value) := by
    revert hdom
    cases hessianAbsRowSum ocpSize
      (cost.map (ScalarFunctionQuadraticApproximation.map ExactInt.ofInt))
      (fun _ => ExactInt.lost) with
    | none => exact fun h => h.elim
    | some cs =>
      intro hdom
      obtain ⟨zs, rfl⟩ := values_of_dominated hdom
      exact ⟨zs, rfl⟩
  have hint := hessianAbsRowSum_rel intExact_rel ocpSize
    (costRel_map_right (g := ExactInt.ofInt) intExact_ofInt cost)
    uninitInt (fun _ => ExactInt.lost)
    (fun _ z h => by cases h)
  rw [hzs] at hint
  have hdbl := hessianAbsRowSum_rel doubleExact_rel ocpSize
    (costRel_map (f := Double.ofInt) (g := ExactInt.ofInt) doubleExact_ofInt cost)
    uninit (fun _ => ExactInt.lost)
    (fun _ z h => by cases h)
  rw [hzs] at hdbl
  refine ⟨zs, ?_⟩
  revert hint
  cases hessianAbsRowSum ocpSize cost uninitInt with
  | none => exact fun h => h.elim
  | some rz =>
    intro hint
    have := eq_of_intExact hint
    subst this
    revert hdbl
    show OptRel _ (hessianAbsRowSum ocpSize (doubleCost cost) uninit) _ → _
    cases hessianAbsRowSum ocpSize (doubleCost cost) uninit with
    | none => exact fun h => h.elim
    | some rd =>
      intro hdbl
      exact ⟨rd, rfl, rfl, toInt?_of_doubleExact hdbl⟩

end DoubleHessian

/-! ## The record of the steps of the workers -/

section PoolLogProofs

variable {α : Type}

theorem getElem?_set_cases {β : Type} (l : List β) (i j : Nat) (a : β) (hi : i < l.length) :
    (l.set i a)[j]? = if j = i then some a else l[j]? := by
  by_cases h : j = i
  · subst h
    simp [hi]
  · rw [List.getElem?_set_ne (Ne.symm h)]
    simp [h]

theorem filter_isClaimOf_claimed (L : List PoolEvent) (w t k : Nat) :
    (L ++ [PoolEvent.claimed w t]).filter (PoolEvent.isClaimOf k)
      = L.filter (PoolEvent.isClaimOf k) ++ (if t = k then [PoolEvent.claimed w t] else []) := by
  by_cases h : t = k <;> simp [List.filter_append, List.filter_cons, PoolEvent.isClaimOf, h]

theorem filter_isWriteOf_claimed (L : List PoolEvent) (w t k : Nat) :
    (L ++ [PoolEvent.claimed w t]).filter (PoolEvent.isWriteOf k)
      = L.filter (PoolEvent.isWriteOf k) := by
  simp [List.filter_append, List.filter_cons, PoolEvent.isWriteOf]

theorem filter_isClaimOf_wrote (L : List PoolEvent) (w t k : Nat) :
    (L ++ [PoolEvent.wrote w t]).filter (PoolEvent.isClaimOf k)
      = L.filter (PoolEvent.isClaimOf k) := by
  simp [List.filter_append, List.filter_cons, PoolEvent.isClaimOf]

theorem filter_isWriteOf_wrote (L : List PoolEvent) (w t k : Nat) :
    (L ++ [PoolEvent.wrote w t]).filter (PoolEvent.isWriteOf k)
      = L.filter (PoolEvent.isWriteOf k) ++ (if t = k then [PoolEvent.wrote w t] else []) := by
  by_cases h : t = k <;> simp [List.filter_append, List.filter_cons, PoolEvent.isWriteOf, h]

theorem logInv_fetch {N n w : Nat} {s s1 : TaskState α} {L : List PoolEvent}
    (inv : LogInv N n s L) (hw : s.workers[w]? = some WorkerState.fetching)
    (ht : s1.timeIndex = s.timeIndex + 1)
    (hws : s1.workers = s.workers.set w
      (if s.timeIndex < N then WorkerState.holding s.timeIndex else WorkerState.finished)) :
    LogInv N n s1 (L ++ [PoolEvent.claimed w s.timeIndex]) := by
  have hwlt : w < s.workers.length := by
    by_contra hge
    rw [List.getElem?_eq_none (by omega)] at hw
    exact absurd hw (by simp)
  have hget : ∀ j : Nat, s1.workers[j]? = if j = w then
      some (if s.timeIndex < N then WorkerState.holding s.timeIndex else WorkerState.finished)
      else s.workers[j]? := by
    intro j
    rw [hws]
    exact getElem?_set_cases _ _ _ _ hwlt
  have hclaim0 := inv.claim_ge s.timeIndex (Nat.le_refl _)
  have hne_of_claim : ∀ (k i : Nat),
      L.filter (PoolEvent.isClaimOf k) = [PoolEvent.claimed i k] → s.timeIndex ≠ k := by
    intro k i h hk
    rw [← hk, hclaim0] at h
    exact absurd h (by simp)
  refine ⟨?_, ?_, ?_, ?_, ?_, ?_, ?_, ?_⟩
  · rw [hws, List.length_set]
    exact inv.workers_length
  · intro k hk
    rw [filter_isClaimOf_claimed, inv.claim_ge k (by omega), if_neg (by omega)]
    rfl
  · intro k hk
    rw [filter_isClaimOf_claimed]
    by_cases hkt : s.timeIndex = k
    · refine ⟨w, ?_, ?_⟩
      · rw [← inv.workers_length]
        exact hwlt
      · rw [if_pos hkt, inv.claim_ge k (by omega), hkt]
        rfl
    · obtain ⟨i, hi, hc⟩ := inv.claim_lt k (by omega)
      exact ⟨i, hi, by rw [if_neg hkt, hc]; rfl⟩
  · intro i k hik
    rw [hget] at hik
    rw [filter_isClaimOf_claimed, filter_isWriteOf_claimed]
    by_cases hiw : i = w
    · rw [if_pos hiw] at hik
      by_cases htN : s.timeIndex < N
      · rw [if_pos htN] at hik
        simp only [Option.some.injEq, WorkerState.holding.injEq] at hik
        subst hik
        subst hiw
        refine ⟨htN, ?_, ?_⟩
        · rw [if_pos rfl, hclaim0]
          rfl
        · rcases inv.written s.timeIndex with h | ⟨j, _, hc, _⟩
          · exact h
          · exact absurd rfl (hne_of_claim _ _ hc)
      · rw [if_neg htN] at hik
        exact absurd hik (by simp)
    · rw [if_neg hiw] at hik
      obtain ⟨h1, h2, h3⟩ := inv.held i k hik
      exact ⟨h1, by rw [if_neg (hne_of_claim _ _ h2), h2]; rfl, h3⟩
  · intro k
    rw [filter_isClaimOf_claimed, filter_isWriteOf_claimed]
    rcases inv.written k with h | ⟨i, h1, h2, h3⟩
    · exact Or.inl h
    · exact Or.inr ⟨i, h1, by rw [if_neg (hne_of_claim _ _ h2), h2]; rfl, h3⟩
  · intro k hk hkN
    rw [filter_isWriteOf_claimed]
    by_cases hkt : k = s.timeIndex
    · left
      refine ⟨w, ?_⟩
      rw [hget, if_pos rfl, if_pos (by omega), hkt]
    · rcases inv.progress k (by omega) hkN with ⟨i, hi⟩ | h
      · left
        refine ⟨i, ?_⟩
        have hiw : i ≠ w := by
          rintro rfl
          rw [hw] at hi
          exact absurd hi (by simp)
        rw [hget, if_neg hiw]
        exact hi
      · exact Or.inr h
  · intro i hi
    rw [hget] at hi
    by_cases hiw : i = w
    · subst hiw
      rw [if_pos rfl] at hi
      by_cases htN : s.timeIndex < N
      · rw [if_pos htN] at hi
        exact absurd hi (by simp)
      · refine ⟨L, [], s.timeIndex, rfl, by omega, by simp, ?_⟩
        exact inv.active i (by rw [hw]; simp)
    · rw [if_neg hiw] at hi
      obtain ⟨L1, L2, k, h1, h2, h3, h4⟩ := inv.finished i hi
      refine ⟨L1, L2 ++ [PoolEvent.claimed w s.timeIndex], k, by rw [h1]; simp, h2, ?_, h4⟩
      intro e he
      rcases List.mem_append.mp he with h | h
      · exact h3 e h
      · simp only [List.mem_singleton] at h
        subst h
        exact fun h => hiw h.symm
  · intro i hi k1 hk1
    rw [hget] at hi
    rcases List.mem_append.mp hk1 with h | h
    · refine inv.active i ?_ k1 h
      by_cases hiw : i = w
      · subst hiw
        rw [hw]
        simp
      · rw [if_neg hiw] at hi
        exact hi
    · simp only [List.mem_singleton, PoolEvent.claimed.injEq] at h
      obtain ⟨h1, h2⟩ := h
      subst h1
      rw [if_pos rfl] at hi
      by_cases htN : s.timeIndex < N
      · omega
      · rw [if_neg htN] at hi
        exact absurd rfl hi

end PoolLogProofs

section PoolLogProofs2
variable {α : Type}

theorem logInv_write {N n w k0 : Nat} {s s1 : TaskState α} {L : List PoolEvent}
    (inv : LogInv N n s L) (hw : s.workers[w]? = some (WorkerState.holding k0))
    (ht : s1.timeIndex = s.timeIndex)
    (hws : s1.workers = s.workers.set w WorkerState.fetching) :
    LogInv N n s1 (L ++ [PoolEvent.wrote w k0]) := by
  have hwlt : w < s.workers.length := by
    by_contra hge
    rw [List.getElem?_eq_none (by omega)] at hw
    exact absurd hw (by simp)
  have hget : ∀ j : Nat, s1.workers[j]? = if j = w then some WorkerState.fetching
      else s.workers[j]? := by
    intro j
    rw [hws]
    exact getElem?_set_cases _ _ _ _ hwlt
  obtain ⟨hk0N, hk0c, hk0w⟩ := inv.held w k0 hw
  refine ⟨?_, ?_, ?_, ?_, ?_, ?_, ?_, ?_⟩
  · rw [hws, List.length_set]
    exact inv.workers_length
  · intro k hk
    rw [filter_isClaimOf_wrote]
    exact inv.claim_ge k (by omega)
  · intro k hk
    rw [filter_isClaimOf_wrote]
    exact inv.claim_lt k (by omega)
  · intro i k hik
    rw [hget] at hik
    by_cases hiw : i = w
    · rw [if_pos hiw] at hik
      exact absurd hik (by simp)
    · rw [if_neg hiw] at hik
      obtain ⟨h1, h2, h3⟩ := inv.held i k hik
      have hkk : k0 ≠ k := by
        rintro rfl
        rw [hk0c] at h2
        simp only [List.cons.injEq, PoolEvent.claimed.injEq, and_true] at h2
        exact hiw h2.symm
      rw [filter_isClaimOf_wrote, filter_isWriteOf_wrote, if_neg hkk]
      exact ⟨h1, h2, by rw [h3]; rfl⟩
  · intro k
    rw [filter_isClaimOf_wrote, filter_isWriteOf_wrote]
    by_cases hkk : k0 = k
    · subst hkk
      right
      exact ⟨w, by rw [if_pos rfl, hk0w]; rfl, hk0c, hk0N⟩
    · rw [if_neg hkk, List.append_nil]
      exact inv.written k
  · intro k hk hkN
    rw [filter_isWriteOf_wrote]
    by_cases hkk : k0 = k
    · right
      rw [if_pos hkk]
      simp
    · rw [if_neg hkk, List.append_nil]
      rcases inv.progress k (by omega) hkN with ⟨i, hi⟩ | h
      · left
        refine ⟨i, ?_⟩
        have hiw : i ≠ w := by
          rintro rfl
          rw [hw] at hi
          simp only [Option.some.injEq, WorkerState.holding.injEq] at hi
          exact hkk hi
        rw [hget, if_neg hiw]
        exact hi
      · exact Or.inr h
  · intro i hi
    rw [hget] at hi
    by_cases hiw : i = w
    · rw [if_pos hiw] at hi
      exact absurd hi (by simp)
    · rw [if_neg hiw] at hi
      obtain ⟨L1, L2, k, h1, h2, h3, h4⟩ := inv.finished i hi
      refine ⟨L1, L2 ++ [PoolEvent.wrote w k0], k, by rw [h1]; simp, h2, ?_, h4⟩
      intro e he
      rcases List.mem_append.mp he with h | h
      · exact h3 e h
      · simp only [List.mem_singleton] at h
        subst h
        exact fun h => hiw h.symm
  · intro i hi k1 hk1
    rw [hget] at hi
    rcases List.mem_append.mp hk1 with h | h
    · refine inv.active i ?_ k1 h
      by_cases hiw : i = w
      · subst hiw
        rw [hw]
        simp
      · rw [if_neg hiw] at hi
        exact hi
    · simp at h

/-- A step of an active worker keeps `LogInv`, with the event of the step appended. -/
theorem workerStep_logInv {body : Nat → Option (matrix_t α × vector_t α)} {N n i : Nat}
    {s s1 : TaskState α} {L : List PoolEvent} (hi : i < s.workers.length)
    (hact : s.workers.getD i .finished ≠ .finished) (inv : LogInv N n s L)
    (h : workerStep body N i s = some s1) : LogInv N n s1 (L ++ workerEvent s i) := by
  have hgetD : s.workers[i]? = some (s.workers.getD i .finished) := by
    rw [List.getD_eq_getElem?_getD, List.getElem?_eq_getElem hi]
    rfl
  unfold workerStep at h
  unfold workerEvent
  split at h
  · next hw =>
    simp only [Option.some.injEq] at h
    subst h
    rw [hw] at hgetD
    exact logInv_fetch inv hgetD rfl rfl
  · next k hw =>
    split at h
    · exact absurd h (by simp)
    · simp only [Option.some.injEq] at h
      subst h
      rw [hw] at hgetD
      exact logInv_write inv hgetD rfl rfl
  · next hw => exact absurd hw hact

theorem runWorkers_logInv {body : Nat → Option (matrix_t α × vector_t α)} {N n : Nat} :
    ∀ (fuel : Nat) (schedule : Nat → Nat) (s s1 : TaskState α) (L : List PoolEvent),
      LogInv N n s L → runWorkers body N fuel schedule s = some s1 →
      LogInv N n s1 (L ++ runWorkersLog body N fuel schedule s) := by
  intro fuel
  induction fuel with
  | zero =>
    intro schedule s s1 L inv h
    simp only [runWorkers, Option.some.injEq] at h
    subst h
    simpa [runWorkersLog] using inv
  | succ fuel ih =>
    intro schedule s s1 L inv h
    unfold runWorkers at h
    unfold runWorkersLog
    split at h
    · next hnil =>
      simp only [Option.some.injEq] at h
      subst h
      simpa using inv
    · next i rest hcons =>
      have hmem : (i :: rest).getD (schedule 0 % (rest.length + 1)) i ∈ activeWorkers s.workers := by
        rw [hcons]
        exact chosen_mem rest i (schedule 0)
      obtain ⟨hlt, hact⟩ := mem_activeWorkers hmem
      cases hstep : workerStep body N ((i :: rest).getD (schedule 0 % (rest.length + 1)) i) s with
      | none =>
        rw [hstep] at h
        simp at h
      | some s2 =>
        rw [hstep] at h
        simp only [Option.bind_eq_bind, Option.some_bind] at h
        have inv2 := workerStep_logInv hlt hact inv hstep
        have := ih _ s2 s1 _ inv2 h
        simpa [List.append_assoc] using this

end PoolLogProofs2

section PoolLogProofs3
variable {α : Type}

theorem mem_of_getElem?_eq_some {β : Type} {l : List β} {i : Nat} {a : β}
    (h : l[i]? = some a) : a ∈ l := by
  obtain ⟨hi, rfl⟩ := List.getElem?_eq_some.mp h
  exact List.getElem_mem hi

theorem logInv_init [Zero α] (N n : Nat) :
    LogInv N n
      ({ timeIndex := 0
         tempMatrixArray := List.replicate N ⟨0, 0, fun _ _ => 0⟩
         absRowSumArray := List.replicate N []
         workers := List.replicate n .fetching } : TaskState α) [] := by
  have hrep : ∀ (i : Nat) (w : WorkerState),
      (List.replicate n WorkerState.fetching)[i]? = some w → w = WorkerState.fetching := by
    intro i w h
    have hmem := mem_of_getElem?_eq_some h
    exact (List.mem_replicate.mp hmem).2
  refine ⟨by simp, ?_, ?_, ?_, ?_, ?_, ?_, ?_⟩
  · intro k _
    rfl
  · intro k hk
    simp at hk
  · intro i k h
    exact absurd (hrep i _ h) (by simp)
  · intro k
    exact Or.inl rfl
  · intro k hk
    simp at hk
  · intro i h
    exact absurd (hrep i _ h) (by simp)
  · intro i _ k1 h
    simp at h

/-- Claim C14. Whatever the number `n ≥ 1` of workers, the number `N` of indices and the
order `schedule` in which the workers take their steps on the shared counter, when the loop
body succeeds on every `k < N` (as the body `GGTAbsRowSumTask` of `GGTAbsRowSumInParallel`
does on well-formed data) the run of the pool ends with every worker returned, and in the
record of its steps: every index `k < N` is returned by exactly one claim, of one worker
`i`, and slot `k` is written exactly once, by that same worker, with the value of the body;
no slot `k ≥ N` is ever written; and every worker has a claim that returned a value `≥ N`,
which is its first such claim and after which it takes no step. -/
theorem runParallel_work_distribution [Zero α]
    (body : Nat → Option (matrix_t α × vector_t α)) (N n : Nat) (schedule : Nat → Nat)
    (hn : 0 < n) (hbody : ∀ k, k < N → (body k).isSome) :
    ∃ s, runParallel body N n schedule = some s ∧
      (∀ w ∈ s.workers, w = WorkerState.finished) ∧
      (∀ k, k < N → ∃ i, i < n ∧
        (runParallelLog body N n schedule).filter (PoolEvent.isClaimOf k)
          = [PoolEvent.claimed i k] ∧
        (runParallelLog body N n schedule).filter (PoolEvent.isWriteOf k)
          = [PoolEvent.wrote i k] ∧
        ∃ temp v, body k = some (temp, v) ∧ s.absRowSumArray[k]? = some v) ∧
      (∀ i k, PoolEvent.wrote i k ∈ runParallelLog body N n schedule → k < N) ∧
      (∀ i, i < n → ∃ L1 L2 k,
        runParallelLog body N n schedule = L1 ++ PoolEvent.claimed i k :: L2 ∧ N ≤ k ∧
        (∀ e ∈ L2, e.worker ≠ i) ∧ ∀ k1, PoolEvent.claimed i k1 ∈ L1 → k1 < N) := by
  have hsome : (runParallel body N n schedule).isSome :=
    runWorkers_isSome hbody _ _ _ (poolInv_init body N n)
  obtain ⟨s, hs⟩ := Option.isSome_iff_exists.mp hsome
  obtain ⟨_, hblocks⟩ := runParallel_final hn hs
  have hs1 := hs
  unfold runParallel at hs1
  have pinv := runWorkers_inv _ _ _ _ (poolInv_init body N n) hs1
  have hfin := runWorkers_finished (N := N) _ _ _ _ (by simp [poolDebt, workerDebt]) hs1
  simp only [List.length_replicate] at hfin
  obtain ⟨hlen, hall⟩ := hfin
  have inv := runWorkers_logInv _ _ _ _ _ (logInv_init N n) hs1
  rw [List.nil_append] at inv
  have hlog : runParallelLog body N n schedule = runWorkersLog body N (2 * N + n) schedule
      { timeIndex := 0
        tempMatrixArray := List.replicate N ⟨0, 0, fun _ _ => 0⟩
        absRowSumArray := List.replicate N []
        workers := List.replicate n .fetching } := rfl
  rw [hlog]
  have hget : ∀ i : Nat, i < n → s.workers[i]? = some WorkerState.finished := by
    intro i hi
    have hi1 : i < s.workers.length := by omega
    rw [List.getElem?_eq_getElem hi1]
    exact congrArg some (hall _ (List.getElem_mem hi1))
  have hnohold : ∀ (i k : Nat), s.workers[i]? ≠ some (WorkerState.holding k) := by
    intro i k h
    have := hall _ (mem_of_getElem?_eq_some h)
    cases this
  have hmem : WorkerState.finished ∈ s.workers := by
    have := hget 0 hn
    exact mem_of_getElem?_eq_some this
  have hle := pinv.finished_le hmem
  refine ⟨s, hs, hall, ?_, ?_, ?_⟩
  · intro k hk
    obtain ⟨i, hi, hc⟩ := inv.claim_lt k (by omega)
    refine ⟨i, hi, hc, ?_, hblocks k hk⟩
    rcases inv.written k with h | ⟨j, h1, h2, _⟩
    · rcases inv.progress k (by omega) hk with ⟨j, hj⟩ | h3
      · exact absurd hj (hnohold j k)
      · exact absurd h h3
    · rw [hc] at h2
      simp only [List.cons.injEq, PoolEvent.claimed.injEq, and_true] at h2
      rw [h1, h2]
  · intro i k hmem1
    rcases inv.written k with h | ⟨_, _, _, h3⟩
    · have : PoolEvent.wrote i k ∈ List.filter (PoolEvent.isWriteOf k)
          (runWorkersLog body N (2 * N + n) schedule
            { timeIndex := 0
              tempMatrixArray := List.replicate N ⟨0, 0, fun _ _ => 0⟩
              absRowSumArray := List.replicate N []
              workers := List.replicate n .fetching }) :=
        List.mem_filter.mpr ⟨hmem1, by simp [PoolEvent.isWriteOf]⟩
      rw [h] at this
      simp at this
    · exact h3
  · intro i hi
    exact inv.finished i (hget i hi)

end PoolLogProofs3

section C14Witness

/-- Witness for claim C14: the two stages of the two-stage problem shared by two workers that
take their steps in turn. -/
theorem runParallel_work_distribution_witness :
    ∃ s, runParallel (GGTAbsRowSumTask twoStageSize twoStageDynamics none) 2 2 (fun t => t)
        = some s ∧
      ∀ k, k < 2 → ∃ i, i < 2 ∧
        (runParallelLog (GGTAbsRowSumTask twoStageSize twoStageDynamics none) 2 2
          (fun t => t)).filter (PoolEvent.isWriteOf k) = [PoolEvent.wrote i k] :=
  have h := runParallel_work_distribution
    (GGTAbsRowSumTask twoStageSize twoStageDynamics none) 2 2 (fun t => t) (by decide)
    (by decide)
  h.elim fun s hs => ⟨s, hs.1, fun k hk =>
    (hs.2.2.1 k hk).elim fun i hi => ⟨i, hi.1, hi.2.2.1⟩⟩

end C14Witness

section GGTSequential
variable {α : Type} [Zero α] [One α] [Add α] [Mul α] [ScalarAbs α]

theorem GGTAbsRowSumInParallel_eq_sequential (ocpSize : OcpSize)
    (dynamics : List (VectorFunctionLinearApproximation α))
    (constraints : Option (List (VectorFunctionLinearApproximation α)))
    (scalingVectorsPtr : Option (List (vector_t α)))
    (threadPool : ThreadPool) (schedule : Nat → Nat) (nbThreads : Nat) :
    GGTAbsRowSumInParallel ocpSize dynamics constraints scalingVectorsPtr threadPool schedule
        nbThreads
      = GGTAbsRowSumSequential ocpSize dynamics scalingVectorsPtr nbThreads := by
  unfold GGTAbsRowSumInParallel GGTAbsRowSumSequential
  simp only
  split
  · rfl
  · split
    · rfl
    · have hpool := runParallel_absRowSumArray
        (GGTAbsRowSumTask ocpSize dynamics scalingVectorsPtr) ocpSize.numStages.toNat
        (threadPool.numThreads + 1) schedule (Nat.succ_pos _)
      rw [← hpool]
      cases runParallel (GGTAbsRowSumTask ocpSize dynamics scalingVectorsPtr)
          ocpSize.numStages.toNat (threadPool.numThreads + 1) schedule with
      | none => rfl
      | some s => simp only [Option.map_some', setNbThreads]

end GGTSequential

section GGTProofs
variable {α : Type} [LinearOrderedCommRing α]

/-- Claim C3. For all worker counts and all orders in which the workers take their steps,
`GGTAbsRowSumInParallel` ends in the same way on the same inputs and entry thread count:
the same vector, element for element, when it returns (the pool of one worker included). -/
theorem GGTAbsRowSumInParallel_worker_independent (ocpSize : OcpSize)
    (dynamics : List (VectorFunctionLinearApproximation α))
    (constraints : Option (List (VectorFunctionLinearApproximation α)))
    (scalingVectorsPtr : Option (List (vector_t α)))
    (threadPool1 threadPool2 : ThreadPool) (schedule1 schedule2 : Nat → Nat)
    (nbThreads : Nat) :
    GGTAbsRowSumInParallel ocpSize dynamics constraints scalingVectorsPtr threadPool1
        schedule1 nbThreads
      = GGTAbsRowSumInParallel ocpSize dynamics constraints scalingVectorsPtr threadPool2
        schedule2 nbThreads := by
  rw [GGTAbsRowSumInParallel_eq_sequential, GGTAbsRowSumInParallel_eq_sequential]

/-- Claim C4. With `numStages < 1` the call throws the error of the first check and returns
no vector, whatever the other arguments are; the thread count is the one on entry. -/
theorem GGTAbsRowSumInParallel_numStages_lt_one (ocpSize : OcpSize)
    (dynamics : List (VectorFunctionLinearApproximation α))
    (constraints : Option (List (VectorFunctionLinearApproximation α)))
    (scalingVectorsPtr : Option (List (vector_t α)))
    (threadPool : ThreadPool) (schedule : Nat → Nat) (nbThreads : Nat)
    (hN : ocpSize.numStages < 1) :
    GGTAbsRowSumInParallel ocpSize dynamics constraints scalingVectorsPtr threadPool schedule
        nbThreads
      = .thrown .numStagesLessThanOne nbThreads := by
  unfold GGTAbsRowSumInParallel
  simp only [hN, if_true]

end GGTProofs

section GGTSequential2
variable {α : Type} [Zero α] [One α] [Add α] [Mul α] [ScalarAbs α]

theorem GGTAbsRowSumSequential_checks_passed (ocpSize : OcpSize)
    (dynamics : List (VectorFunctionLinearApproximation α))
    (scalingVectorsPtr : Option (List (vector_t α))) (nbThreads : Nat)
    (hN : 1 ≤ ocpSize.numStages)
    (hS : ∀ scalingVectors, scalingVectorsPtr = some scalingVectors →
      (scalingVectors.length : Int) = ocpSize.numStages) :
    GGTAbsRowSumSequential ocpSize dynamics scalingVectorsPtr nbThreads
      = match sequentialBlocks (GGTAbsRowSumTask ocpSize dynamics scalingVectorsPtr)
          ocpSize.numStages.toNat with
        | none => .aborted 1
        | some blocks =>
          match copyBlocks blocks
              (List.replicate (getNumDynamicsConstraints ocpSize) (0 : α)) 0 with
          | none => .aborted 1
          | some res => .returned res 0 := by
  unfold GGTAbsRowSumSequential
  have h1 : ¬ ocpSize.numStages < 1 := by omega
  have h2 : scalingVectorsPtr.any
      (fun scalingVectors => (scalingVectors.length : Int) ≠ ocpSize.numStages) = false := by
    cases scalingVectorsPtr with
    | none => rfl
    | some sv => simpa using hS sv rfl
  simp only [h1, h2, if_false, Bool.false_eq_true]

end GGTSequential2

section GGTProofs2
variable {α : Type} [LinearOrderedCommRing α]

/-- Claim C5. With `N ≥ 1` the call throws the dimension-mismatch error exactly when scaling
vectors are supplied and their number differs from `N`; with no scaling vectors, or with
exactly `N` of them, it throws neither of the two errors. -/
theorem GGTAbsRowSumInParallel_mismatch_iff (ocpSize : OcpSize)
    (dynamics : List (VectorFunctionLinearApproximation α))
    (constraints : Option (List (VectorFunctionLinearApproximation α)))
    (scalingVectorsPtr : Option (List (vector_t α)))
    (threadPool : ThreadPool) (schedule : Nat → Nat) (nbThreads : Nat)
    (hN : 1 ≤ ocpSize.numStages) :
    ((∃ nb, GGTAbsRowSumInParallel ocpSize dynamics constraints scalingVectorsPtr threadPool
          schedule nbThreads = .thrown .scalingVectorsSizeMismatch nb)
        ↔ ∃ scalingVectors, scalingVectorsPtr = some scalingVectors ∧
            (scalingVectors.length : Int) ≠ ocpSize.numStages)
      ∧ ((∀ scalingVectors, scalingVectorsPtr = some scalingVectors →
            (scalingVectors.length : Int) = ocpSize.numStages) →
          ∀ e nb, GGTAbsRowSumInParallel ocpSize dynamics constraints scalingVectorsPtr
            threadPool schedule nbThreads ≠ .thrown e nb) := by
  have hgood : (∀ scalingVectors, scalingVectorsPtr = some scalingVectors →
        (scalingVectors.length : Int) = ocpSize.numStages) →
      ∀ e nb, GGTAbsRowSumInParallel ocpSize dynamics constraints scalingVectorsPtr
        threadPool schedule nbThreads ≠ .thrown e nb := by
    intro hS e nb
    rw [GGTAbsRowSumInParallel_eq_sequential,
      GGTAbsRowSumSequential_checks_passed ocpSize dynamics scalingVectorsPtr nbThreads hN hS]
    split
    · simp
    · split <;> simp
  refine ⟨⟨?_, ?_⟩, hgood⟩
  · rintro ⟨nb, h⟩
    by_contra hne
    refine hgood ?_ _ nb h
    intro sv hsv
    by_contra hlen
    exact hne ⟨sv, hsv, hlen⟩
  · rintro ⟨sv, rfl, hlen⟩
    refine ⟨nbThreads, ?_⟩
    unfold GGTAbsRowSumInParallel
    have h1 : ¬ ocpSize.numStages < 1 := by omega
    simp [h1, hlen]

end GGTProofs2
section C8
variable {α : Type} [Zero α] [One α] [Add α] [Mul α] [ScalarAbs α]

end C8

section C8Examples

end C8Examples
/-! ## Copying the blocks into the result -/

section CopyProofs
variable {α : Type}

theorem setSegment_eq_some {res v : vector_t α} {start n : Nat}
    (h1 : start + n ≤ res.length) (h2 : v.length = n) :
    res.setSegment start n v = some (res.take start ++ v ++ res.drop (start + n)) := by
  unfold vector_t.setSegment
  simp [h1, h2]

theorem setSegment_eq_none {res v : vector_t α} {start n : Nat}
    (h : ¬ (start + n ≤ res.length ∧ v.length = n)) :
    res.setSegment start n v = none := by
  unfold vector_t.setSegment
  simp only [h, if_false]

theorem copyBlocks_eq (blocks : List (vector_t α)) :
    ∀ (res : vector_t α) (curRow : Nat), curRow ≤ res.length →
      copyBlocks blocks res curRow
        = if curRow + (blocks.map List.length).sum ≤ res.length then
            some (res.take curRow ++ blocks.flatten
              ++ res.drop (curRow + (blocks.map List.length).sum))
          else none := by
  induction blocks with
  | nil =>
    intro res curRow hcur
    simp [copyBlocks, hcur]
  | cons v rest ih =>
    intro res curRow hcur
    unfold copyBlocks
    by_cases hv : curRow + v.length ≤ res.length
    · rw [setSegment_eq_some hv rfl]
      simp only
      have hlen : (res.take curRow ++ v ++ res.drop (curRow + v.length)).length = res.length := by
        simp
        omega
      rw [ih _ _ (by rw [hlen]; exact hv), hlen]
      simp only [List.map_cons, List.sum_cons, List.flatten_cons]
      have e1 : curRow + (v.length + (rest.map List.length).sum)
          = curRow + v.length + (rest.map List.length).sum := by omega
      rw [e1]
      split
      · next hle =>
        congr 1
        have hl : (res.take curRow ++ v).length = curRow + v.length := by
          rw [List.length_append, List.length_take, Nat.min_eq_left hcur]
        have t1 : (res.take curRow ++ v ++ res.drop (curRow + v.length)).take (curRow + v.length)
            = res.take curRow ++ v := by
          rw [List.take_append_of_le_length (by rw [hl]), List.take_of_length_le (by rw [hl])]
        have t2 : (res.take curRow ++ v ++ res.drop (curRow + v.length)).drop
              (curRow + v.length + (rest.map List.length).sum)
            = res.drop (curRow + v.length + (rest.map List.length).sum) := by
          rw [List.drop_append_eq_append_drop,
            List.drop_of_length_le (l := res.take curRow ++ v) (by rw [hl]; omega), hl]
          simp only [List.nil_append, List.drop_drop]
          congr 1
          omega
        rw [t1, t2]
        simp
      · rfl
    · rw [setSegment_eq_none (by simp [hv])]
      simp only
      rw [if_neg]
      simp only [List.map_cons, List.sum_cons]
      omega

end CopyProofs

section BlockProofs
variable {α : Type}

theorem sequentialBlocks_eq_some {body : Nat → Option (matrix_t α × vector_t α)} {N : Nat}
    {blocks : List (vector_t α)} (h : sequentialBlocks body N = some blocks) :
    blocks.length = N ∧ ∀ k, k < N → (body k).map Prod.snd = blocks[k]? := by
  unfold sequentialBlocks at h
  split at h
  · next hall =>
    simp only [Option.some.injEq] at h
    subst h
    refine ⟨by simp, ?_⟩
    intro k hk
    have hs : (body k).isSome := List.all_eq_true.mp hall k (List.mem_range.mpr hk)
    obtain ⟨b, hb⟩ := Option.isSome_iff_exists.mp hs
    rw [List.getElem?_map, List.getElem?_range hk]
    simp [hb]
  · cases h

theorem sequentialBlocks_of_forall {body : Nat → Option (matrix_t α × vector_t α)} {N : Nat}
    (h : ∀ k, k < N → (body k).isSome) :
    sequentialBlocks body N
      = some ((List.range N).map (fun k => ((body k).map Prod.snd).getD [])) := by
  unfold sequentialBlocks
  rw [if_pos]
  apply List.all_eq_true.mpr
  intro k hk
  exact h k (List.mem_range.mp hk)

theorem flatten_block (blocks : List (List α)) (tail : List α) :
    ∀ (k : Nat) (b : List α), blocks[k]? = some b →
      ((blocks.flatten ++ tail).drop ((blocks.take k).map List.length).sum).take b.length
        = b := by
  induction blocks with
  | nil => intro k b h; simp at h
  | cons v rest ih =>
    intro k b h
    cases k with
    | zero =>
      simp only [List.getElem?_cons_zero, Option.some.injEq] at h
      subst h
      simp
    | succ j =>
      simp only [List.getElem?_cons_succ] at h
      have := ih j b h
      simp only [List.take_succ_cons, List.map_cons, List.sum_cons, List.flatten_cons,
        List.append_assoc]
      rw [← List.drop_drop]
      simpa using this

theorem map_getD_range_succ (l : List Nat) (N : Nat) (h : l.length = N + 1) :
    (List.range N).map (fun k => l.getD (k + 1) 0) = l.drop 1 := by
  apply List.ext_getElem
  · simp [h]
  · intro k h1 h2
    simp only [List.length_map, List.length_range] at h1
    simp only [List.getElem_map, List.getElem_range, List.getElem_drop]
    rw [List.getD_eq_getElem?_getD, List.getElem?_eq_getElem (by omega)]
    simp [Nat.add_comm]

theorem foldl_add_eq_sum (l : List Nat) (a : Nat) :
    l.foldl (fun acc n => acc + n) a = a + l.sum := by
  induction l generalizing a with
  | nil => simp
  | cons x t ih => simp [ih]; omega

end BlockProofs
/-! ## The loop body of the task -/

section TaskProofs
variable {α : Type} [LinearOrderedCommRing α]

theorem rowwiseSum_length (m : matrix_t α) : (matrix_t.rowwiseSum m).length = m.rows := by
  simp [matrix_t.rowwiseSum]

theorem matrix_add_eq_some {a b c : matrix_t α} (h : a.add b = some c) :
    a.rows = b.rows ∧ a.cols = b.cols ∧
      c = ⟨a.rows, a.cols, fun i j => a.coeff i j + b.coeff i j⟩ := by
  unfold matrix_t.add at h
  split at h
  · next hd =>
    simp only [Option.some.injEq] at h
    exact ⟨hd.1, hd.2, h.symm⟩
  · cases h

theorem matrix_mul_eq_some {a b c : matrix_t α} (h : a.mul b = some c) :
    a.cols = b.rows ∧
      c = ⟨a.rows, b.cols, fun i j => sumUpTo a.cols (fun l => a.coeff i l * b.coeff l j)⟩ := by
  unfold matrix_t.mul at h
  split at h
  · next hd =>
    simp only [Option.some.injEq] at h
    exact ⟨hd, h.symm⟩
  · cases h

theorem vector_add_eq_some {u v w : vector_t α} (h : u.add v = some w) :
    u.length = v.length ∧ w = List.zipWith (fun a b => a + b) u v := by
  unfold vector_t.add at h
  split at h
  · next hd =>
    simp only [Option.some.injEq] at h
    exact ⟨hd, h.symm⟩
  · cases h

theorem vector_add_length {u v w : vector_t α} (h : u.add v = some w) :
    w.length = u.length := by
  obtain ⟨h1, rfl⟩ := vector_add_eq_some h
  simp [h1]

theorem GGTDiagonalTerm_rows {scalingVectorsPtr : Option (List (vector_t α))} {k nx : Nat}
    {D : matrix_t α} (h : GGTDiagonalTerm scalingVectorsPtr k nx = some D) :
    D.rows = match scalingVectorsPtr with
      | none => nx
      | some scalingVectors => (scalingVectors.getD k []).length := by
  unfold GGTDiagonalTerm at h
  cases scalingVectorsPtr with
  | none =>
    simp only [Option.some.injEq] at h
    subst h
    rfl
  | some sv =>
    simp only [Option.bind_eq_some, Option.map_eq_some'] at h
    obtain ⟨s, hs, s2, hs2, rfl⟩ := h
    unfold vector_t.cwiseProduct at hs2
    simp only [if_true, Option.some.injEq] at hs2
    subst hs2
    simp [vector_t.asDiagonal, List.getD_eq_getElem?_getD, hs]

/-- The block stored for stage `k` has as many entries as the first value of
`tempMatrixArray[k]` has rows. -/
theorem GGTAbsRowSumTask_length {ocpSize : OcpSize}
    {dynamics : List (VectorFunctionLinearApproximation α)}
    {scalingVectorsPtr : Option (List (vector_t α))} {k : Nat} {temp : matrix_t α}
    {v : vector_t α}
    (h : GGTAbsRowSumTask ocpSize dynamics scalingVectorsPtr k = some (temp, v)) :
    v.length = match scalingVectorsPtr with
      | none => ocpSize.numStates.getD (k + 1) 0
      | some scalingVectors => (scalingVectors.getD k []).length := by
  unfold GGTAbsRowSumTask at h
  simp only [Option.bind_eq_some, Option.some.injEq, Prod.mk.injEq] at h
  obtain ⟨nx, hnx, dk, _, D, hD, BBt, _, t1, ht1, t2, ht2, v1, hv1, v2, hv2, rfl, rfl⟩ := h
  have hDrows := GGTDiagonalTerm_rows hD
  have h1 : t1.rows = D.rows := by
    obtain ⟨_, _, rfl⟩ := matrix_add_eq_some ht1
    rfl
  have h2 : t2.rows = t1.rows := by
    split at ht2
    · simp only [Option.bind_eq_some] at ht2
      obtain ⟨AAt, _, hadd⟩ := ht2
      obtain ⟨_, _, rfl⟩ := matrix_add_eq_some hadd
      rfl
    · simp only [Option.some.injEq] at ht2
      rw [ht2]
  have h3 : v1.length = t2.rows := by
    split at hv1
    · simp only [Option.bind_eq_some] at hv1
      obtain ⟨S, _, AS, _, hadd⟩ := hv1
      rw [vector_add_length hadd, rowwiseSum_length]
      rfl
    · simp only [Option.some.injEq] at hv1
      rw [← hv1, rowwiseSum_length]
      rfl
  have h4 : v2.length = v1.length := by
    split at hv2
    · simp only [Option.bind_eq_some] at hv2
      obtain ⟨dn, _, S, _, AS, _, hadd⟩ := hv2
      exact vector_add_length hadd
    · simp only [Option.some.injEq] at hv2
      rw [hv2]
  rw [h4, h3, h2, h1, hDrows]
  cases scalingVectorsPtr with
  | none => simp [List.getD_eq_getElem?_getD, hnx]
  | some sv => rfl

end TaskProofs
/-! ## Layout of the returned vector -/

section LayoutProofs
variable {α : Type} [LinearOrderedCommRing α]

theorem GGTAbsRowSumSequential_returned {ocpSize : OcpSize}
    {dynamics : List (VectorFunctionLinearApproximation α)}
    {scalingVectorsPtr : Option (List (vector_t α))} {nbThreads nb : Nat} {res : vector_t α}
    (h : GGTAbsRowSumSequential ocpSize dynamics scalingVectorsPtr nbThreads
      = .returned res nb) :
    ∃ blocks, sequentialBlocks (GGTAbsRowSumTask ocpSize dynamics scalingVectorsPtr)
          ocpSize.numStages.toNat = some blocks ∧
        (blocks.map List.length).sum ≤ getNumDynamicsConstraints ocpSize ∧
        res = blocks.flatten ++ List.replicate
          (getNumDynamicsConstraints ocpSize - (blocks.map List.length).sum) 0 := by
  unfold GGTAbsRowSumSequential at h
  simp only at h
  split at h
  · cases h
  · split at h
    · cases h
    · cases hb : sequentialBlocks (GGTAbsRowSumTask ocpSize dynamics scalingVectorsPtr)
          ocpSize.numStages.toNat with
      | none => rw [hb] at h; cases h
      | some blocks =>
        rw [hb] at h
        simp only at h
        cases hc : copyBlocks blocks
            (List.replicate (getNumDynamicsConstraints ocpSize) (0 : α)) 0 with
        | none => rw [hc] at h; cases h
        | some r =>
          rw [hc] at h
          simp only [Outcome.returned.injEq] at h
          rw [copyBlocks_eq blocks _ 0 (Nat.zero_le _)] at hc
          simp only [List.length_replicate, Nat.zero_add, List.take_zero, List.nil_append,
            List.drop_replicate] at hc
          split at hc
          · next hle =>
            simp only [Option.some.injEq] at hc
            exact ⟨blocks, rfl, hle, by rw [← h.1, hc]⟩
          · cases hc

theorem getNumDynamicsConstraints_eq_sum (ocpSize : OcpSize) :
    getNumDynamicsConstraints ocpSize = (ocpSize.numStates.drop 1).sum := by
  unfold getNumDynamicsConstraints
  rw [foldl_add_eq_sum]
  simp

/-- When every stored block `k` has `numStates[k+1]` entries the returned vector is the
concatenation of the blocks and has the layout of `GGTBlockLayout`. -/
theorem layout_of_block_lengths {ocpSize : OcpSize}
    {dynamics : List (VectorFunctionLinearApproximation α)}
    {scalingVectorsPtr : Option (List (vector_t α))} {nbThreads nb : Nat} {res : vector_t α}
    (hlen : ocpSize.numStates.length = ocpSize.numStages.toNat + 1)
    (hblock : ∀ k temp v, k < ocpSize.numStages.toNat →
      GGTAbsRowSumTask ocpSize dynamics scalingVectorsPtr k = some (temp, v) →
      v.length = ocpSize.numStates.getD (k + 1) 0)
    (h : GGTAbsRowSumSequential ocpSize dynamics scalingVectorsPtr nbThreads
      = .returned res nb) :
    GGTBlockLayout ocpSize dynamics scalingVectorsPtr res := by
  obtain ⟨blocks, hseq, _, hres⟩ := GGTAbsRowSumSequential_returned h
  obtain ⟨hbl, hbk⟩ := sequentialBlocks_eq_some hseq
  have hlens : blocks.map List.length = ocpSize.numStates.drop 1 := by
    apply List.ext_getElem
    · simp [hbl, hlen]
    · intro k h1 h2
      simp only [List.length_map] at h1
      have hk : k < ocpSize.numStages.toNat := by omega
      have hb := hbk k hk
      rw [List.getElem?_eq_getElem h1] at hb
      cases ht : GGTAbsRowSumTask ocpSize dynamics scalingVectorsPtr k with
      | none => rw [ht] at hb; simp at hb
      | some p =>
        rw [ht] at hb
        simp only [Option.map_some', Option.some.injEq] at hb
        have := hblock k p.1 p.2 hk ht
        rw [hb] at this
        simp only [List.getElem_map, List.getElem_drop, this]
        rw [List.getD_eq_getElem?_getD, List.getElem?_eq_getElem (by omega)]
        simp [Nat.add_comm]
  have htot : getNumDynamicsConstraints ocpSize = (blocks.map List.length).sum := by
    rw [getNumDynamicsConstraints_eq_sum, hlens]
  rw [htot] at hres
  simp only [Nat.sub_self, List.replicate_zero] at hres
  have hreslen : res.length = (ocpSize.numStates.drop 1).sum := by
    rw [hres, List.append_nil, List.length_flatten, ← hlens]
  have htake : (ocpSize.numStates.drop 1).take ocpSize.numStages.toNat
      = ocpSize.numStates.drop 1 := List.take_of_length_le (by simp [hlen])
  refine ⟨by rw [htake, hreslen], ?_⟩
  intro k hk
  have hb := hbk k hk
  have h1 : k < blocks.length := by omega
  rw [List.getElem?_eq_getElem h1] at hb
  have hblen : (blocks[k]).length = ocpSize.numStates.getD (k + 1) 0 := by
    cases ht : GGTAbsRowSumTask ocpSize dynamics scalingVectorsPtr k with
    | none => rw [ht] at hb; simp at hb
    | some p =>
      rw [ht] at hb
      simp only [Option.map_some', Option.some.injEq] at hb
      have := hblock k p.1 p.2 hk ht
      rw [hb] at this
      exact this
  have hoff : blockOffset ocpSize k = ((blocks.take k).map List.length).sum := by
    unfold blockOffset
    rw [← hlens, List.map_take]
  have hseg := flatten_block blocks [] k blocks[k] (List.getElem?_eq_getElem h1)
  rw [← hres, ← hoff, hblen] at hseg
  refine ⟨?_, by rw [hb, hseg]⟩
  have hsplit := List.sum_take_add_sum_drop (ocpSize.numStates.drop 1) k
  have hk1 : k < (ocpSize.numStates.drop 1).length := by simp [hlen]; omega
  rw [List.drop_eq_getElem_cons hk1, List.sum_cons] at hsplit
  have hget : (ocpSize.numStates.drop 1)[k] = ocpSize.numStates.getD (k + 1) 0 := by
    rw [List.getElem_drop, List.getD_eq_getElem?_getD, List.getElem?_eq_getElem (by omega)]
    simp [Nat.add_comm]
  rw [hget] at hsplit
  unfold blockOffset
  rw [hreslen]
  omega

end LayoutProofs
/-! ## The task computes the claimed blocks -/

section SpecProofs
open Matrix
variable {α : Type} [LinearOrderedCommRing α]

theorem sumUpTo_eq_sum (n : Nat) (f : Nat → α) : sumUpTo n f = ∑ j : Fin n, f j := by
  unfold sumUpTo
  rw [← Finset.sum_range]
  induction n with
  | zero => simp
  | succ n ih => rw [List.range_succ, List.map_append, List.sum_append, ih,
      Finset.sum_range_succ]; simp

theorem zipWith_add_map_range (n : Nat) (f g : Nat → α) :
    List.zipWith (fun a b => a + b) ((List.range n).map f) ((List.range n).map g)
      = (List.range n).map (fun i => f i + g i) := by
  apply List.ext_getElem
  · simp
  · intro i h1 h2
    simp

omit [LinearOrderedCommRing α] in
theorem map_range_eq_ofFn (n : Nat) (f : Nat → α) (g : Fin n → α)
    (h : ∀ i : Fin n, f i = g i) : (List.range n).map f = List.ofFn g := by
  apply List.ext_getElem
  · simp
  · intro i h1 h2
    simp only [List.length_map, List.length_range] at h1
    simp [h ⟨i, h1⟩]

end SpecProofs

section ReprProofs
open Matrix
variable {α : Type} [LinearOrderedCommRing α]

omit [LinearOrderedCommRing α] in
theorem represents_toMatrix (m : matrix_t α) {r c : Nat} (hr : m.rows = r) (hc : m.cols = c) :
    Represents m (m.toMatrix r c) :=
  ⟨hr, hc, fun _ _ => rfl⟩

omit [LinearOrderedCommRing α] in
theorem represents_transpose {r c : Nat} {m : matrix_t α} {M : Matrix (Fin r) (Fin c) α}
    (h : Represents m M) : Represents m.transpose Mᵀ :=
  ⟨h.2.1, h.1, fun i j => h.2.2 j i⟩

theorem represents_mul {r c d : Nat} {a b : matrix_t α} {A : Matrix (Fin r) (Fin c) α}
    {B : Matrix (Fin c) (Fin d) α} (ha : Represents a A) (hb : Represents b B) :
    ∃ p, a.mul b = some p ∧ Represents p (A * B) := by
  refine ⟨⟨a.rows, b.cols, fun i j => sumUpTo a.cols (fun l => a.coeff i l * b.coeff l j)⟩,
    ?_, ?_⟩
  · unfold matrix_t.mul
    rw [if_pos (by rw [ha.2.1, hb.1])]
  · refine ⟨ha.1, hb.2.1, ?_⟩
    intro i j
    simp only [Matrix.mul_apply]
    rw [ha.2.1, sumUpTo_eq_sum]
    exact Finset.sum_congr rfl (fun l _ => by rw [ha.2.2, hb.2.2])

theorem represents_add {r c : Nat} {a b : matrix_t α} {A B : Matrix (Fin r) (Fin c) α}
    (ha : Represents a A) (hb : Represents b B) :
    ∃ p, a.add b = some p ∧ Represents p (A + B) := by
  refine ⟨⟨a.rows, a.cols, fun i j => a.coeff i j + b.coeff i j⟩, ?_, ?_⟩
  · unfold matrix_t.add
    rw [if_pos ⟨by rw [ha.1, hb.1], by rw [ha.2.1, hb.2.1]⟩]
  · refine ⟨ha.1, ha.2.1, ?_⟩
    intro i j
    simp only [Matrix.add_apply]
    rw [ha.2.2, hb.2.2]

theorem represents_identity (n : Nat) :
    Represents (matrix_t.Identity n n : matrix_t α) (1 : Matrix (Fin n) (Fin n) α) := by
  refine ⟨rfl, rfl, ?_⟩
  intro i j
  simp [matrix_t.Identity, Matrix.one_apply, Fin.ext_iff]

theorem represents_asDiagonal {n : Nat} (v : vector_t α) (hv : v.length = n) :
    Represents v.asDiagonal (Matrix.diagonal fun i : Fin n => v.getD i 0) := by
  refine ⟨hv, hv, ?_⟩
  intro i j
  simp [vector_t.asDiagonal, Matrix.diagonal_apply, Fin.ext_iff]

theorem rowAbsSum_of_represents {r c : Nat} {m : matrix_t α} {M : Matrix (Fin r) (Fin c) α}
    (h : Represents m M) : m.cwiseAbs.rowwiseSum = List.ofFn (rowAbsSum M) := by
  unfold matrix_t.rowwiseSum matrix_t.cwiseAbs
  simp only
  rw [h.1, h.2.1]
  apply map_range_eq_ofFn
  intro i
  rw [sumUpTo_eq_sum]
  unfold rowAbsSum
  exact Finset.sum_congr rfl (fun j _ => by rw [h.2.2]; rfl)

theorem vector_add_ofFn {n : Nat} (f g : Fin n → α) :
    vector_t.add (List.ofFn f) (List.ofFn g) = some (List.ofFn (f + g)) := by
  unfold vector_t.add
  rw [if_pos (by simp)]
  congr 1
  apply List.ext_getElem
  · simp
  · intro i h1 h2
    simp

end ReprProofs

section TaskSpec
open Matrix
variable {α : Type} [LinearOrderedCommRing α]

theorem scalingMatrix_represents {scalingVectorsPtr : Option (List (vector_t α))} {j d : Nat}
    (hS : ∀ scalingVectors, scalingVectorsPtr = some scalingVectors →
      j < scalingVectors.length ∧ (scalingVectors.getD j []).length = d) :
    ∃ S, scalingMatrix scalingVectorsPtr j d = some S ∧
      Represents S (scalingDiag scalingVectorsPtr j d) := by
  cases scalingVectorsPtr with
  | none => exact ⟨_, rfl, represents_identity d⟩
  | some sv =>
    obtain ⟨hj, hlen⟩ := hS sv rfl
    refine ⟨vector_t.asDiagonal (sv.getD j []), ?_, represents_asDiagonal _ hlen⟩
    simp [scalingMatrix, List.getD_eq_getElem?_getD, List.getElem?_eq_getElem hj]

theorem GGTDiagonalTerm_represents {scalingVectorsPtr : Option (List (vector_t α))}
    {k d : Nat}
    (hS : ∀ scalingVectors, scalingVectorsPtr = some scalingVectors →
      k < scalingVectors.length ∧ (scalingVectors.getD k []).length = d) :
    ∃ D, GGTDiagonalTerm scalingVectorsPtr k d = some D ∧
      Represents D (scalingDiag scalingVectorsPtr k d ^ 2) := by
  cases scalingVectorsPtr with
  | none =>
    refine ⟨_, rfl, ?_⟩
    simp only [scalingDiag, one_pow]
    exact represents_identity d
  | some sv =>
    obtain ⟨hk, hlen⟩ := hS sv rfl
    have hget : sv.getD k [] = sv[k] := by
      simp [List.getD_eq_getElem?_getD, List.getElem?_eq_getElem hk]
    rw [hget] at hlen
    refine ⟨vector_t.asDiagonal (List.zipWith (fun a b => a * b) sv[k] sv[k]), ?_, ?_⟩
    · unfold GGTDiagonalTerm vector_t.cwiseProduct
      simp only [List.getElem?_eq_getElem hk, Option.some_bind, if_true, Option.map_some']
    · have h := represents_asDiagonal (List.zipWith (fun a b => a * b) sv[k] sv[k])
        (n := d) (by simp [hlen])
      refine ⟨h.1, h.2.1, ?_⟩
      intro i j
      rw [h.2.2]
      simp only [scalingDiag, pow_two, Matrix.diagonal_mul_diagonal, Matrix.diagonal_apply,
        hget]
      split
      · have hi : (i : Nat) < (sv[k]).length := by rw [hlen]; exact i.isLt
        simp [List.getD_eq_getElem?_getD, List.getElem?_eq_getElem hi, List.getElem?_zipWith]
      · rfl

end TaskSpec

section TaskSpec2
open Matrix
variable {α : Type} [LinearOrderedCommRing α]

theorem wellFormed_dynamics {ocpSize : OcpSize}
    {dynamics : List (VectorFunctionLinearApproximation α)}
    {scalingVectorsPtr : Option (List (vector_t α))}
    (wf : WellFormed ocpSize dynamics scalingVectorsPtr) {k : Nat}
    (hk : k < ocpSize.numStages.toNat) :
    ∃ d, dynamics[k]? = some d ∧ dfduOf dynamics k = d.dfdu ∧ dfdxOf dynamics k = d.dfdx ∧
      Represents d.dfdu (inputJacobian ocpSize dynamics k) ∧
      (0 < k → Represents d.dfdx (stateJacobian ocpSize dynamics k)) := by
  have h1 := wf.dfdu_rows k hk
  cases hd : dynamics[k]? with
  | none => rw [hd] at h1; simp at h1
  | some d =>
    rw [hd] at h1
    simp only [Option.map_some', Option.some.injEq] at h1
    have e1 : dfduOf dynamics k = d.dfdu := by simp [dfduOf, hd]
    have e2 : dfdxOf dynamics k = d.dfdx := by simp [dfdxOf, hd]
    refine ⟨d, rfl, e1, e2, ?_, ?_⟩
    · unfold inputJacobian
      rw [e1]
      exact represents_toMatrix _ h1 rfl
    · intro hk0
      have h2 := wf.dfdx_dims k hk hk0
      rw [hd] at h2
      simp only [Option.map_some', Option.some.injEq, Prod.mk.injEq] at h2
      unfold stateJacobian
      rw [e2]
      exact represents_toMatrix _ h2.1 h2.2

/-- Under well-formed dimensions the loop body for stage `k < N` succeeds and stores the
claimed block. -/
theorem GGTAbsRowSumTask_spec {ocpSize : OcpSize}
    {dynamics : List (VectorFunctionLinearApproximation α)}
    {scalingVectorsPtr : Option (List (vector_t α))}
    (wf : WellFormed ocpSize dynamics scalingVectorsPtr) {k : Nat}
    (hk : k < ocpSize.numStages.toNat) :
    ∃ temp, GGTAbsRowSumTask ocpSize dynamics scalingVectorsPtr k
      = some (temp, List.ofFn (GGTBlockSpec ocpSize dynamics scalingVectorsPtr k)) := by
  have hN := wf.numStages_pos
  have hnx : ocpSize.numStates[k + 1]? = some (stateDim ocpSize (k + 1)) := by
    have : k + 1 < ocpSize.numStates.length := by rw [wf.numStates_length]; omega
    simp [stateDim, List.getD_eq_getElem?_getD, List.getElem?_eq_getElem this]
  obtain ⟨d, hd, _, _, hB, hA⟩ := wellFormed_dynamics wf hk
  have hscal : ∀ j, j < ocpSize.numStages.toNat →
      ∀ scalingVectors, scalingVectorsPtr = some scalingVectors →
        j < scalingVectors.length ∧ (scalingVectors.getD j []).length
          = stateDim ocpSize (j + 1) := by
    intro j hj sv hsv
    obtain ⟨h1, h2⟩ := wf.scaling_dims sv hsv
    exact ⟨by omega, h2 j hj⟩
  obtain ⟨D, hD, hDr⟩ := GGTDiagonalTerm_represents (hscal k hk)
  obtain ⟨BBt, hBBt, hBBtr⟩ := represents_mul hB (represents_transpose hB)
  obtain ⟨t1, ht1, ht1r⟩ := represents_add hDr hBBtr
  -- the diagonal block
  have htemp : ∃ t2, (if k ≠ 0 then
        (d.dfdx.mul d.dfdx.transpose).bind fun AAt => t1.add AAt else some t1) = some t2 ∧
      Represents t2 (GGTDiagonalBlock ocpSize dynamics scalingVectorsPtr k) := by
    unfold GGTDiagonalBlock
    by_cases hk0 : k = 0
    · subst hk0
      exact ⟨t1, by simp, by simpa using ht1r⟩
    · have hpos : 0 < k := Nat.pos_of_ne_zero hk0
      obtain ⟨AAt, hAAt, hAAtr⟩ := represents_mul (hA hpos) (represents_transpose (hA hpos))
      obtain ⟨t2, ht2, ht2r⟩ := represents_add ht1r hAAtr
      refine ⟨t2, ?_, ?_⟩
      · rw [if_pos hk0, hAAt]
        exact ht2
      · rw [if_pos hpos]
        exact ht2r
  obtain ⟨t2, ht2, ht2r⟩ := htemp
  have hv0 := rowAbsSum_of_represents ht2r
  -- the term of the previous stage
  have hprev : (if k ≠ 0 then
        (scalingMatrix scalingVectorsPtr (k - 1) d.dfdx.cols).bind fun S =>
          (d.dfdx.mul S).bind fun AS =>
            vector_t.add t2.cwiseAbs.rowwiseSum AS.cwiseAbs.rowwiseSum
      else some t2.cwiseAbs.rowwiseSum)
      = some (List.ofFn (rowAbsSum (GGTDiagonalBlock ocpSize dynamics scalingVectorsPtr k)
          + (if 0 < k then rowAbsSum (stateJacobian ocpSize dynamics k
              * scalingDiag scalingVectorsPtr (k - 1) _) else 0))) := by
    by_cases hk0 : k = 0
    · subst hk0
      simp [hv0]
    · have hpos : 0 < k := Nat.pos_of_ne_zero hk0
      have hAk := hA hpos
      obtain ⟨S, hS, hSr⟩ := @scalingMatrix_represents α _ scalingVectorsPtr (k - 1)
        (stateDim ocpSize k) (by
          intro sv hsv
          have := hscal (k - 1) (by omega) sv hsv
          rw [Nat.sub_add_cancel hpos] at this
          exact this)
      obtain ⟨AS, hAS, hASr⟩ := represents_mul hAk hSr
      rw [if_pos hk0, if_pos hpos, hAk.2.1, hS]
      simp only [Option.some_bind, hAS]
      rw [hv0, rowAbsSum_of_represents hASr, vector_add_ofFn]
  -- the term of the next stage
  have hnext : ∀ v : Fin (stateDim ocpSize (k + 1)) → α,
      (if (k : Int) ≠ ocpSize.numStages - 1 then
        (dynamics[k + 1]?).bind fun dn =>
          (scalingMatrix scalingVectorsPtr k dn.dfdx.cols).bind fun S =>
            (dn.dfdx.mul S).bind fun AS =>
              vector_t.add (List.ofFn v) AS.transpose.cwiseAbs.rowwiseSum
      else some (List.ofFn v))
      = some (List.ofFn (v + (if k + 1 < ocpSize.numStages.toNat then
          rowAbsSum ((stateJacobian ocpSize dynamics (k + 1)
            * scalingDiag scalingVectorsPtr k _)ᵀ) else 0))) := by
    intro v
    by_cases hlast : k + 1 < ocpSize.numStages.toNat
    · obtain ⟨dn, hdn, _, _, _, hAn⟩ := wellFormed_dynamics wf hlast
      have hAn := hAn (Nat.succ_pos k)
      obtain ⟨S, hS, hSr⟩ := scalingMatrix_represents (hscal k hk)
      obtain ⟨AS, hAS, hASr⟩ := represents_mul hAn hSr
      rw [if_pos (by omega), if_pos hlast, hdn]
      simp only [Option.some_bind, hAn.2.1, hS, hAS]
      rw [rowAbsSum_of_represents (represents_transpose hASr), vector_add_ofFn]
    · rw [if_neg (by omega), if_neg hlast]
      simp
  unfold GGTAbsRowSumTask
  simp only [hnx, hd, Option.some_bind, hD, hBBt, ht1, ht2, hprev, hnext]
  exact ⟨t2, rfl⟩

end TaskSpec2

section GGTMatrixProofs
open Matrix
variable {α : Type} [LinearOrderedCommRing α]

theorem GGTMatrix_far (ocpSize : OcpSize)
    (dynamics : List (VectorFunctionLinearApproximation α))
    (scalingVectorsPtr : Option (List (vector_t α))) (p q : GGTIndex ocpSize)
    (h1 : q.1.val ≠ p.1.val) (h2 : q.1.val ≠ p.1.val + 1) (h3 : p.1.val ≠ q.1.val + 1) :
    GGTMatrix ocpSize dynamics scalingVectorsPtr p q = 0 := by
  unfold GGTMatrix
  rw [dif_neg h1, dif_neg h2, dif_neg h3]

/-- The sum of the absolute values along row `(k, i)` of `G Gᵀ` is entry `i` of the
claimed block `k`. -/
theorem GGTMatrix_rowAbsSum (ocpSize : OcpSize)
    (dynamics : List (VectorFunctionLinearApproximation α))
    (scalingVectorsPtr : Option (List (vector_t α)))
    (k : Fin ocpSize.numStages.toNat) (i : Fin (stateDim ocpSize (k.val + 1))) :
    ∑ q, |GGTMatrix ocpSize dynamics scalingVectorsPtr ⟨k, i⟩ q|
      = GGTBlockSpec ocpSize dynamics scalingVectorsPtr k.val i := by
  obtain ⟨kv, hkv⟩ := k
  rw [← Finset.univ_sigma_univ, Finset.sum_sigma]
  have hsplit : ∀ l : Fin ocpSize.numStages.toNat,
      (∑ j, |GGTMatrix ocpSize dynamics scalingVectorsPtr ⟨⟨kv, hkv⟩, i⟩ ⟨l, j⟩|)
        = (if l.val = kv then
            ∑ j, |GGTMatrix ocpSize dynamics scalingVectorsPtr ⟨⟨kv, hkv⟩, i⟩ ⟨l, j⟩| else 0)
          + (if kv = l.val + 1 then
            ∑ j, |GGTMatrix ocpSize dynamics scalingVectorsPtr ⟨⟨kv, hkv⟩, i⟩ ⟨l, j⟩| else 0)
          + (if l.val = kv + 1 then
            ∑ j, |GGTMatrix ocpSize dynamics scalingVectorsPtr ⟨⟨kv, hkv⟩, i⟩ ⟨l, j⟩| else 0) := by
    intro l
    by_cases h1 : l.val = kv
    · rw [if_pos h1, if_neg (by omega), if_neg (by omega)]; simp
    · by_cases h2 : l.val = kv + 1
      · rw [if_neg h1, if_pos h2, if_neg (by omega)]; simp
      · by_cases h3 : kv = l.val + 1
        · rw [if_neg h1, if_neg h2, if_pos h3]; simp
        · rw [if_neg h1, if_neg h2, if_neg h3]
          simp only [add_zero]
          apply Finset.sum_eq_zero
          intro j _
          rw [GGTMatrix_far _ _ _ _ _ h1 h2 h3, abs_zero]
  rw [Finset.sum_congr rfl (fun l _ => hsplit l), Finset.sum_add_distrib,
    Finset.sum_add_distrib]
  unfold GGTBlockSpec
  simp only [Pi.add_apply]
  congr 1
  congr 1
  · -- the diagonal block
    rw [Finset.sum_eq_single (⟨kv, hkv⟩ : Fin ocpSize.numStages.toNat)]
    · rw [if_pos rfl]
      unfold rowAbsSum GGTMatrix
      simp
    · intro l _ hl
      rw [if_neg (fun h => hl (Fin.ext h))]
    · intro h; exact absurd (Finset.mem_univ _) h
  · -- the block to the left of the diagonal
    by_cases hpos : 0 < kv
    · obtain ⟨m, rfl⟩ : ∃ m, kv = m + 1 := ⟨kv - 1, by omega⟩
      rw [Finset.sum_eq_single (⟨m, by omega⟩ : Fin ocpSize.numStages.toNat)]
      · rw [if_pos rfl, if_pos hpos]
        have hne : ¬ m = m + 1 + 1 := by omega
        unfold rowAbsSum GGTMatrix GGTUpperBlock
        simp [-Matrix.transpose_mul, hne]
      · intro l _ hl
        rw [if_neg (fun h => hl (Fin.ext (by simpa using h.symm)))]
      · intro h; exact absurd (Finset.mem_univ _) h
    · rw [if_neg hpos]
      apply Finset.sum_eq_zero
      intro l _
      rw [if_neg (by omega)]
  · -- the block to the right of the diagonal
    by_cases hlast : kv + 1 < ocpSize.numStages.toNat
    · rw [Finset.sum_eq_single (⟨kv + 1, hlast⟩ : Fin ocpSize.numStages.toNat)]
      · rw [if_pos rfl, if_pos hlast]
        unfold rowAbsSum GGTMatrix GGTUpperBlock
        simp [-Matrix.transpose_mul]
      · intro l _ hl
        rw [if_neg (fun h => hl (Fin.ext h))]
      · intro h; exact absurd (Finset.mem_univ _) h
    · rw [if_neg hlast]
      apply Finset.sum_eq_zero
      intro l _
      rw [if_neg (by have := l.isLt; omega)]

end GGTMatrixProofs
section C6
variable {α : Type} [LinearOrderedCommRing α]

end C6
section PreconditionWitnesses

/-- Witness for claim C4: the two-stage data with `numStages = 0`. -/
theorem GGTAbsRowSumInParallel_numStages_lt_one_witness :
    GGTAbsRowSumInParallel { twoStageSize with numStages := 0 } twoStageDynamics none
        (some twoStageScaling) ⟨3⟩ (fun t => t) 7
      = .thrown .numStagesLessThanOne 7 :=
  GGTAbsRowSumInParallel_numStages_lt_one { twoStageSize with numStages := 0 }
    twoStageDynamics none (some twoStageScaling) ⟨3⟩ (fun t => t) 7 (by decide)

/-- Witness for claim C5: one scaling vector for the two-stage problem. -/
theorem GGTAbsRowSumInParallel_mismatch_iff_witness :
    ∃ nb, GGTAbsRowSumInParallel twoStageSize twoStageDynamics none (some [[2, 3]]) ⟨3⟩
      (fun t => t) 7 = .thrown .scalingVectorsSizeMismatch nb :=
  (GGTAbsRowSumInParallel_mismatch_iff twoStageSize twoStageDynamics none (some [[2, 3]])
    ⟨3⟩ (fun t => t) 7 (by decide)).1.2 ⟨[[2, 3]], rfl, by decide⟩

end PreconditionWitnesses

section BlocksExact
open Matrix
variable {α : Type} [LinearOrderedCommRing α]

/-- A call whose checks pass and whose loop body stores, for every `k < N`, a block of
`numStates[k+1]` entries returns a vector and resets the thread count. -/
theorem GGTAbsRowSumSequential_returns {ocpSize : OcpSize}
    {dynamics : List (VectorFunctionLinearApproximation α)}
    {scalingVectorsPtr : Option (List (vector_t α))} (nbThreads : Nat)
    (hN : 1 ≤ ocpSize.numStages)
    (hS : ∀ scalingVectors, scalingVectorsPtr = some scalingVectors →
      (scalingVectors.length : Int) = ocpSize.numStages)
    (hlen : ocpSize.numStates.length = ocpSize.numStages.toNat + 1)
    (hblock : ∀ k, k < ocpSize.numStages.toNat → ∃ temp v,
      GGTAbsRowSumTask ocpSize dynamics scalingVectorsPtr k = some (temp, v) ∧
        v.length = ocpSize.numStates.getD (k + 1) 0) :
    ∃ res, GGTAbsRowSumSequential ocpSize dynamics scalingVectorsPtr nbThreads
      = .returned res 0 := by
  rw [GGTAbsRowSumSequential_checks_passed ocpSize dynamics scalingVectorsPtr nbThreads hN hS]
  rw [sequentialBlocks_of_forall (fun k hk => by
    obtain ⟨temp, v, h, _⟩ := hblock k hk
    rw [h]; rfl)]
  simp only
  rw [copyBlocks_eq _ _ 0 (Nat.zero_le _)]
  have hlens : ((List.range ocpSize.numStages.toNat).map (fun k =>
      ((GGTAbsRowSumTask ocpSize dynamics scalingVectorsPtr k).map Prod.snd).getD [])).map
        List.length = ocpSize.numStates.drop 1 := by
    rw [← map_getD_range_succ _ _ hlen, List.map_map]
    apply List.map_congr_left
    intro k hk
    obtain ⟨temp, v, h, hv⟩ := hblock k (List.mem_range.mp hk)
    simp [h, hv]
  rw [hlens, List.length_replicate, getNumDynamicsConstraints_eq_sum, if_pos (by omega)]
  exact ⟨_, rfl⟩

/-- In exact arithmetic, for every problem with `N ≥ 1` and well-formed dimensions the call returns a
vector whose block `k` (the `numStates[k+1]` entries from offset
`numStates[1] + ... + numStates[k]`) is
`rowAbsSum(D_k + B_k B_kᵀ + [k>0] A_k A_kᵀ) + [k>0] rowAbsSum(A_k S_{k-1})
  + [k<N-1] rowAbsSum((A_{k+1} S_k)ᵀ)`,
and this is the sum of the absolute values along each row of block-row `k` of the
block-tridiagonal matrix `G Gᵀ`. -/
theorem GGTAbsRowSumInParallel_blocks_exact (ocpSize : OcpSize)
    (dynamics : List (VectorFunctionLinearApproximation α))
    (constraints : Option (List (VectorFunctionLinearApproximation α)))
    (scalingVectorsPtr : Option (List (vector_t α)))
    (threadPool : ThreadPool) (schedule : Nat → Nat) (nbThreads : Nat)
    (wf : WellFormed ocpSize dynamics scalingVectorsPtr) :
    ∃ res, GGTAbsRowSumInParallel ocpSize dynamics constraints scalingVectorsPtr threadPool
        schedule nbThreads = .returned res 0 ∧
      ∀ (k : Nat) (hk : k < ocpSize.numStages.toNat),
        (res.drop (blockOffset ocpSize k)).take (stateDim ocpSize (k + 1))
            = List.ofFn (GGTBlockSpec ocpSize dynamics scalingVectorsPtr k) ∧
          ∀ i, GGTBlockSpec ocpSize dynamics scalingVectorsPtr k i
            = ∑ q, |GGTMatrix ocpSize dynamics scalingVectorsPtr ⟨⟨k, hk⟩, i⟩ q| := by
  have hS : ∀ scalingVectors, scalingVectorsPtr = some scalingVectors →
      (scalingVectors.length : Int) = ocpSize.numStages := by
    intro sv hsv
    have := (wf.scaling_dims sv hsv).1
    have := wf.numStages_pos
    omega
  have hblock : ∀ k, k < ocpSize.numStages.toNat → ∃ temp v,
      GGTAbsRowSumTask ocpSize dynamics scalingVectorsPtr k = some (temp, v) ∧
        v.length = ocpSize.numStates.getD (k + 1) 0 := by
    intro k hk
    obtain ⟨temp, h⟩ := GGTAbsRowSumTask_spec wf hk
    exact ⟨temp, _, h, by simp [stateDim]⟩
  obtain ⟨res, hres⟩ := GGTAbsRowSumSequential_returns nbThreads wf.numStages_pos hS
    wf.numStates_length hblock
  rw [GGTAbsRowSumInParallel_eq_sequential]
  refine ⟨res, hres, ?_⟩
  have hlay := layout_of_block_lengths wf.numStates_length (fun k temp v hk ht => by
    obtain ⟨temp1, v1, h1, hv1⟩ := hblock k hk
    rw [h1] at ht
    cases ht
    exact hv1) hres
  intro k hk
  refine ⟨?_, fun i => (GGTMatrix_rowAbsSum ocpSize dynamics scalingVectorsPtr ⟨k, hk⟩ i).symm⟩
  obtain ⟨temp, h⟩ := GGTAbsRowSumTask_spec wf hk
  have := (hlay.2 k hk).2
  rw [h] at this
  simp only [Option.map_some', Option.some.injEq] at this
  exact this.symm

/-- An instance over the integers: the two-stage problem with its scaling vectors, four
workers. -/
theorem GGTAbsRowSumInParallel_blocks_exact_instance :
    ∃ res, GGTAbsRowSumInParallel twoStageSize twoStageDynamics none (some twoStageScaling)
        ⟨3⟩ (fun t => t * t + 1) 7 = .returned res 0 ∧
      ∀ (k : Nat) (hk : k < twoStageSize.numStages.toNat),
        (res.drop (blockOffset twoStageSize k)).take (stateDim twoStageSize (k + 1))
            = List.ofFn (GGTBlockSpec twoStageSize twoStageDynamics (some twoStageScaling) k) ∧
          ∀ i, GGTBlockSpec twoStageSize twoStageDynamics (some twoStageScaling) k i
            = ∑ q, |GGTMatrix twoStageSize twoStageDynamics (some twoStageScaling)
                ⟨⟨k, hk⟩, i⟩ q| :=
  GGTAbsRowSumInParallel_blocks_exact twoStageSize twoStageDynamics none (some twoStageScaling)
    ⟨3⟩ (fun t => t * t + 1) 7
    ⟨by decide, by decide, by decide, by decide, by intro sv h; cases h; decide⟩

end BlocksExact
/-! ## Well-formed calls -/

section WellFormedCalls
open Matrix
variable {α : Type} [LinearOrderedCommRing α]

omit [LinearOrderedCommRing α] in
theorem wellFormed_scaling_count {ocpSize : OcpSize}
    {dynamics : List (VectorFunctionLinearApproximation α)}
    {scalingVectorsPtr : Option (List (vector_t α))}
    (wf : WellFormed ocpSize dynamics scalingVectorsPtr) :
    ∀ scalingVectors, scalingVectorsPtr = some scalingVectors →
      (scalingVectors.length : Int) = ocpSize.numStages := by
  intro sv hsv
  have := (wf.scaling_dims sv hsv).1
  have := wf.numStages_pos
  omega

/-- For well-formed dimensions the call returns the concatenation of the claimed blocks and
leaves the thread count at the automatic setting. -/
theorem GGTAbsRowSumSequential_of_wellFormed {ocpSize : OcpSize}
    {dynamics : List (VectorFunctionLinearApproximation α)}
    {scalingVectorsPtr : Option (List (vector_t α))}
    (wf : WellFormed ocpSize dynamics scalingVectorsPtr) (nbThreads : Nat) :
    GGTAbsRowSumSequential ocpSize dynamics scalingVectorsPtr nbThreads
      = .returned (((List.range ocpSize.numStages.toNat).map (fun k =>
          List.ofFn (GGTBlockSpec ocpSize dynamics scalingVectorsPtr k))).flatten) 0 := by
  have hblock : ∀ k, k < ocpSize.numStages.toNat → ∃ temp v,
      GGTAbsRowSumTask ocpSize dynamics scalingVectorsPtr k = some (temp, v) ∧
        v.length = ocpSize.numStates.getD (k + 1) 0 := by
    intro k hk
    obtain ⟨temp, h⟩ := GGTAbsRowSumTask_spec wf hk
    exact ⟨temp, _, h, by simp [stateDim]⟩
  obtain ⟨res, hres⟩ := GGTAbsRowSumSequential_returns nbThreads wf.numStages_pos
    (wellFormed_scaling_count wf) wf.numStates_length hblock
  obtain ⟨blocks, hseq, hle, hr⟩ := GGTAbsRowSumSequential_returned hres
  rw [sequentialBlocks_of_forall (fun k hk => by
    obtain ⟨temp, v, h, _⟩ := hblock k hk
    rw [h]; rfl)] at hseq
  simp only [Option.some.injEq] at hseq
  have hblocks : blocks = (List.range ocpSize.numStages.toNat).map (fun k =>
      List.ofFn (GGTBlockSpec ocpSize dynamics scalingVectorsPtr k)) := by
    rw [← hseq]
    apply List.map_congr_left
    intro k hk
    obtain ⟨temp, h⟩ := GGTAbsRowSumTask_spec wf (List.mem_range.mp hk)
    simp [h]
  have htot : (blocks.map List.length).sum = getNumDynamicsConstraints ocpSize := by
    rw [hblocks, List.map_map, getNumDynamicsConstraints_eq_sum,
      ← map_getD_range_succ _ _ wf.numStates_length]
    congr 1
    apply List.map_congr_left
    intro k _
    simp [stateDim]
  rw [hres, hr, htot, Nat.sub_self, List.replicate_zero, List.append_nil, hblocks]

end WellFormedCalls

section C15
open Matrix
variable {α : Type} [LinearOrderedCommRing α]

/-- Claim C15. For every well-formed input with `N ≥ 1` the call returns a vector without
error: the loop body succeeds for every stage `k < N` (every index is in range and every
product and sum is dimension-compatible) and stores a block of `numStates[k+1]` entries; the
result has `numDynamicsConstraints` entries and is the concatenation of the blocks in stage
order, block `k` lying at offset `numStates[1] + ... + numStates[k]`: no overlap, gap or
overrun. -/
theorem GGTAbsRowSumInParallel_safe (ocpSize : OcpSize)
    (dynamics : List (VectorFunctionLinearApproximation α))
    (constraints : Option (List (VectorFunctionLinearApproximation α)))
    (scalingVectorsPtr : Option (List (vector_t α)))
    (threadPool : ThreadPool) (schedule : Nat → Nat) (nbThreads : Nat)
    (wf : WellFormed ocpSize dynamics scalingVectorsPtr) :
    ∃ res, GGTAbsRowSumInParallel ocpSize dynamics constraints scalingVectorsPtr threadPool
        schedule nbThreads = .returned res 0 ∧
      (∀ k, k < ocpSize.numStages.toNat → ∃ temp block,
        GGTAbsRowSumTask ocpSize dynamics scalingVectorsPtr k = some (temp, block) ∧
          block.length = stateDim ocpSize (k + 1)) ∧
      res.length = getNumDynamicsConstraints ocpSize ∧
      res = ((List.range ocpSize.numStages.toNat).map (fun k =>
        ((GGTAbsRowSumTask ocpSize dynamics scalingVectorsPtr k).map Prod.snd).getD [])).flatten ∧
      GGTBlockLayout ocpSize dynamics scalingVectorsPtr res := by
  have hblock : ∀ k, k < ocpSize.numStages.toNat → ∃ temp block,
      GGTAbsRowSumTask ocpSize dynamics scalingVectorsPtr k = some (temp, block) ∧
        block.length = stateDim ocpSize (k + 1) := by
    intro k hk
    obtain ⟨temp, h⟩ := GGTAbsRowSumTask_spec wf hk
    exact ⟨temp, _, h, by simp⟩
  have hres := GGTAbsRowSumSequential_of_wellFormed wf nbThreads
  have hlay := layout_of_block_lengths wf.numStates_length (fun k temp v hk ht => by
    obtain ⟨temp1, v1, h1, hv1⟩ := hblock k hk
    rw [h1] at ht
    cases ht
    exact hv1) hres
  rw [GGTAbsRowSumInParallel_eq_sequential]
  refine ⟨_, hres, hblock, ?_, ?_, hlay⟩
  · rw [hlay.1, getNumDynamicsConstraints_eq_sum,
      List.take_of_length_le (by simp [wf.numStates_length])]
  · congr 1
    apply List.map_congr_left
    intro k hk
    obtain ⟨temp, h⟩ := GGTAbsRowSumTask_spec wf (List.mem_range.mp hk)
    simp [h]

/-- Witness for claim C15: the two-stage problem without scaling vectors, one worker. -/
theorem GGTAbsRowSumInParallel_safe_witness :
    ∃ res, GGTAbsRowSumInParallel twoStageSize twoStageDynamics none none ⟨0⟩ (fun _ => 0) 3
        = .returned res 0 ∧ res.length = getNumDynamicsConstraints twoStageSize :=
  have h := GGTAbsRowSumInParallel_safe twoStageSize twoStageDynamics none none ⟨0⟩
    (fun _ => 0) 3
    ⟨by decide, by decide, by decide, by decide, by intro sv h; cases h⟩
  h.elim fun res hr => ⟨res, hr.1, hr.2.2.1⟩

end C15

section C16
open Matrix
variable {α : Type} [LinearOrderedCommRing α]

theorem scalingDiag_sq_apply (scalingVectorsPtr : Option (List (vector_t α))) (k d : Nat)
    (i : Fin d) :
    (scalingDiag scalingVectorsPtr k d ^ 2) i i = scalingTerm scalingVectorsPtr k i := by
  cases scalingVectorsPtr with
  | none => simp [scalingDiag, scalingTerm]
  | some sv =>
    simp [scalingDiag, scalingTerm, pow_two, Matrix.diagonal_mul_diagonal]

theorem gram_diag_nonneg {r c : Nat} (M : Matrix (Fin r) (Fin c) α) (i : Fin r) :
    0 ≤ (M * Mᵀ) i i := by
  rw [Matrix.mul_apply]
  exact Finset.sum_nonneg (fun l _ => by
    rw [Matrix.transpose_apply]
    exact mul_self_nonneg _)

theorem rowAbsSum_nonneg {ι κ : Type} [Fintype κ] (M : Matrix ι κ α) (i : ι) :
    0 ≤ rowAbsSum M i :=
  Finset.sum_nonneg (fun _ _ => abs_nonneg _)

theorem GGTBlockSpec_ge (ocpSize : OcpSize)
    (dynamics : List (VectorFunctionLinearApproximation α))
    (scalingVectorsPtr : Option (List (vector_t α))) (k : Nat)
    (i : Fin (stateDim ocpSize (k + 1))) :
    scalingTerm scalingVectorsPtr k i
      ≤ GGTBlockSpec ocpSize dynamics scalingVectorsPtr k i := by
  have hdiag : scalingTerm scalingVectorsPtr k i
      ≤ GGTDiagonalBlock ocpSize dynamics scalingVectorsPtr k i i := by
    unfold GGTDiagonalBlock
    simp only [Matrix.add_apply]
    rw [scalingDiag_sq_apply]
    have h1 := gram_diag_nonneg (inputJacobian ocpSize dynamics k) i
    have h2 : 0 ≤ (if 0 < k then stateJacobian ocpSize dynamics k
        * (stateJacobian ocpSize dynamics k)ᵀ else 0) i i := by
      split
      · exact gram_diag_nonneg _ i
      · simp
    linarith
  have hrow : GGTDiagonalBlock ocpSize dynamics scalingVectorsPtr k i i
      ≤ rowAbsSum (GGTDiagonalBlock ocpSize dynamics scalingVectorsPtr k) i := by
    unfold rowAbsSum
    calc GGTDiagonalBlock ocpSize dynamics scalingVectorsPtr k i i
        ≤ |GGTDiagonalBlock ocpSize dynamics scalingVectorsPtr k i i| := le_abs_self _
      _ ≤ ∑ j, |GGTDiagonalBlock ocpSize dynamics scalingVectorsPtr k i j| :=
          Finset.single_le_sum (f := fun j =>
            |GGTDiagonalBlock ocpSize dynamics scalingVectorsPtr k i j|)
            (fun _ _ => abs_nonneg _) (Finset.mem_univ i)
  have hprev : 0 ≤ (if 0 < k then rowAbsSum (stateJacobian ocpSize dynamics k
      * scalingDiag scalingVectorsPtr (k - 1) (stateDim ocpSize k))
      else (0 : Fin (stateDim ocpSize (k + 1)) → α)) i := by
    split
    · exact rowAbsSum_nonneg _ i
    · simp
  have hnext : 0 ≤ (if k + 1 < ocpSize.numStages.toNat then
      rowAbsSum ((stateJacobian ocpSize dynamics (k + 1)
        * scalingDiag scalingVectorsPtr k (stateDim ocpSize (k + 1)))ᵀ)
      else (0 : Fin (stateDim ocpSize (k + 1)) → α)) i := by
    split
    · exact rowAbsSum_nonneg _ i
    · simp
  unfold GGTBlockSpec
  simp only [Pi.add_apply]
  linarith

theorem scalingTerm_nonneg (scalingVectorsPtr : Option (List (vector_t α))) (k i : Nat) :
    0 ≤ scalingTerm scalingVectorsPtr k i := by
  cases scalingVectorsPtr with
  | none => simp [scalingTerm]
  | some sv => exact sq_nonneg _

omit [LinearOrderedCommRing α] in
theorem getElem?_of_segment (res : List α) (off n : Nat) (f : Fin n → α)
    (h : (res.drop off).take n = List.ofFn f) (i : Fin n) :
    res[off + i]? = some (f i) := by
  have := congrArg (fun l => l[(i : Nat)]?) h
  simp only [List.getElem?_take, i.isLt, if_true, List.getElem?_drop] at this
  rw [this]
  simp

end C16

section LowerBoundExact
open Matrix
variable {α : Type} [LinearOrderedCommRing α]

/-- In exact arithmetic, for well-formed inputs with `N ≥ 1` the call returns a vector whose entry `i`
of block `k` is bounded below by its diagonal scaling term: at least `1` when no scaling
vectors are supplied and at least `scalingVectors[k][i]²` when they are; so every entry is
non-negative, and strictly positive whenever scaling is absent or the scaling entry is not
zero. -/
theorem GGTAbsRowSumInParallel_lower_bound_exact (ocpSize : OcpSize)
    (dynamics : List (VectorFunctionLinearApproximation α))
    (constraints : Option (List (VectorFunctionLinearApproximation α)))
    (scalingVectorsPtr : Option (List (vector_t α)))
    (threadPool : ThreadPool) (schedule : Nat → Nat) (nbThreads : Nat)
    (wf : WellFormed ocpSize dynamics scalingVectorsPtr) :
    ∃ res, GGTAbsRowSumInParallel ocpSize dynamics constraints scalingVectorsPtr threadPool
        schedule nbThreads = .returned res 0 ∧
      ∀ k, k < ocpSize.numStages.toNat → ∀ i, i < stateDim ocpSize (k + 1) →
        ∃ x, res[blockOffset ocpSize k + i]? = some x ∧
          scalingTerm scalingVectorsPtr k i ≤ x ∧ 0 ≤ x ∧
          (scalingVectorsPtr = none → 1 ≤ x) ∧
          ((∀ scalingVectors, scalingVectorsPtr = some scalingVectors →
              (scalingVectors.getD k []).getD i 0 ≠ 0) → 0 < x) := by
  have hres := GGTAbsRowSumSequential_of_wellFormed wf nbThreads
  have hlay := layout_of_block_lengths wf.numStates_length (fun k temp v hk ht => by
    obtain ⟨temp1, h1⟩ := GGTAbsRowSumTask_spec wf hk
    rw [h1] at ht
    cases ht
    simp [stateDim]) hres
  rw [GGTAbsRowSumInParallel_eq_sequential]
  refine ⟨_, hres, ?_⟩
  intro k hk i hi
  obtain ⟨temp, h⟩ := GGTAbsRowSumTask_spec wf hk
  have hseg := (hlay.2 k hk).2
  rw [h] at hseg
  simp only [Option.map_some', Option.some.injEq] at hseg
  have hentry := getElem?_of_segment _ _ _ _ hseg.symm ⟨i, hi⟩
  have hge := GGTBlockSpec_ge ocpSize dynamics scalingVectorsPtr k ⟨i, hi⟩
  have hnn := scalingTerm_nonneg scalingVectorsPtr k i
  refine ⟨_, hentry, hge, le_trans hnn hge, ?_, ?_⟩
  · intro hnone
    subst hnone
    simpa [scalingTerm] using hge
  · intro hne
    refine lt_of_lt_of_le ?_ hge
    cases hp : scalingVectorsPtr with
    | none => simp [scalingTerm]
    | some sv =>
      simp only [scalingTerm]
      exact lt_of_le_of_ne (sq_nonneg _) (Ne.symm (pow_ne_zero 2 (hne sv hp)))

end LowerBoundExact

section LowerBoundInstance
open Matrix

/-- An instance over the integers: the two-stage problem with its scaling vectors; the first entry
of the result is at least `twoStageScaling[0][0]² = 4`. -/
theorem GGTAbsRowSumInParallel_lower_bound_exact_instance :
    ∃ res, GGTAbsRowSumInParallel twoStageSize twoStageDynamics none (some twoStageScaling)
        ⟨1⟩ (fun t => t) 5 = .returned res 0 ∧
      ∃ x, res[blockOffset twoStageSize 0 + 0]? = some x ∧ (4 : Int) ≤ x :=
  have h := GGTAbsRowSumInParallel_lower_bound_exact twoStageSize twoStageDynamics none
    (some twoStageScaling) ⟨1⟩ (fun t => t) 5
    ⟨by decide, by decide, by decide, by decide, by intro sv h; cases h; decide⟩
  h.elim fun res hr =>
    ⟨res, hr.1, (hr.2 0 (by decide) 0 (by decide)).elim fun x hx => ⟨x, hx.1, hx.2.1⟩⟩

end LowerBoundInstance

section C17
variable {α : Type} [LinearOrderedCommRing α]

omit [LinearOrderedCommRing α] in
theorem sequentialBlocks_congr {body1 body2 : Nat → Option (matrix_t α × vector_t α)}
    {N : Nat} (h : ∀ k, k < N → body1 k = body2 k) :
    sequentialBlocks body1 N = sequentialBlocks body2 N := by
  unfold sequentialBlocks
  have h1 : (List.range N).all (fun k => (body1 k).isSome)
      = (List.range N).all (fun k => (body2 k).isSome) := by
    rw [Bool.eq_iff_iff, List.all_eq_true, List.all_eq_true]
    constructor
    · intro hall k hk
      rw [← h k (List.mem_range.mp hk)]
      exact hall k hk
    · intro hall k hk
      rw [h k (List.mem_range.mp hk)]
      exact hall k hk
  have h2 : (List.range N).map (fun k => ((body1 k).map Prod.snd).getD [])
      = (List.range N).map (fun k => ((body2 k).map Prod.snd).getD []) := by
    apply List.map_congr_left
    intro k hk
    rw [h k (List.mem_range.mp hk)]
  rw [h1, h2]

omit [LinearOrderedCommRing α] in
theorem bind_eq_of_map_eq {β γ δ : Type} (x y : Option β) (p : β → γ) (F : γ → Option δ)
    (h : x.map p = y.map p) : (x.bind fun b => F (p b)) = (y.bind fun b => F (p b)) := by
  cases x <;> cases y <;> simp_all

/-- The loop body for a stage `k < N` reads only `numStages`, `numStates`, the input
Jacobians, the state Jacobians of the stages `k ≥ 1` and the scaling vectors. -/
theorem GGTAbsRowSumTask_congr {ocpSize1 ocpSize2 : OcpSize}
    {dynamics1 dynamics2 : List (VectorFunctionLinearApproximation α)}
    {scalingVectorsPtr : Option (List (vector_t α))}
    (hN : ocpSize1.numStages = ocpSize2.numStages)
    (hx : ocpSize1.numStates = ocpSize2.numStates)
    (hB : ∀ k, k < ocpSize1.numStages.toNat →
      (dynamics1[k]?).map (fun d => d.dfdu) = (dynamics2[k]?).map (fun d => d.dfdu))
    (hA : ∀ k, k < ocpSize1.numStages.toNat → 0 < k →
      (dynamics1[k]?).map (fun d => d.dfdx) = (dynamics2[k]?).map (fun d => d.dfdx))
    {k : Nat} (hk : k < ocpSize1.numStages.toNat) :
    GGTAbsRowSumTask ocpSize1 dynamics1 scalingVectorsPtr k
      = GGTAbsRowSumTask ocpSize2 dynamics2 scalingVectorsPtr k := by
  unfold GGTAbsRowSumTask
  simp only [← hN, ← hx]
  congr 1
  funext nx_next
  -- the state Jacobian of the next stage
  have hnext : ∀ v : vector_t α,
      (if (k : Int) ≠ ocpSize1.numStages - 1 then
        (dynamics1[k + 1]?).bind fun dn =>
          (scalingMatrix scalingVectorsPtr k dn.dfdx.cols).bind fun S =>
            (dn.dfdx.mul S).bind fun AS => v.add AS.transpose.cwiseAbs.rowwiseSum
      else some v)
      = (if (k : Int) ≠ ocpSize1.numStages - 1 then
        (dynamics2[k + 1]?).bind fun dn =>
          (scalingMatrix scalingVectorsPtr k dn.dfdx.cols).bind fun S =>
            (dn.dfdx.mul S).bind fun AS => v.add AS.transpose.cwiseAbs.rowwiseSum
      else some v) := by
    intro v
    by_cases hlast : (k : Int) ≠ ocpSize1.numStages - 1
    · rw [if_pos hlast, if_pos hlast]
      exact bind_eq_of_map_eq _ _ (fun d : VectorFunctionLinearApproximation α => d.dfdx)
        (fun A : matrix_t α =>
        (scalingMatrix scalingVectorsPtr k A.cols).bind fun S =>
          (A.mul S).bind fun AS => v.add AS.transpose.cwiseAbs.rowwiseSum)
        (hA (k + 1) (by omega) (Nat.succ_pos k))
    · rw [if_neg hlast, if_neg hlast]
  simp only [hnext]
  have hBk := hB k hk
  cases h1 : dynamics1[k]? with
  | none =>
    rw [h1] at hBk
    cases h2 : dynamics2[k]? with
    | none => rfl
    | some d2 => rw [h2] at hBk; simp at hBk
  | some d1 =>
    rw [h1] at hBk
    cases h2 : dynamics2[k]? with
    | none => rw [h2] at hBk; simp at hBk
    | some d2 =>
      rw [h2] at hBk
      simp only [Option.map_some', Option.some.injEq] at hBk
      simp only [Option.some_bind, hBk]
      by_cases hk0 : k = 0
      · simp only [hk0, ne_eq, not_true_eq_false, if_false]
      · have hAk := hA k hk (Nat.pos_of_ne_zero hk0)
        rw [h1, h2] at hAk
        simp only [Option.map_some', Option.some.injEq] at hAk
        simp only [hAk]

/-- Claim C17. The outcome of `GGTAbsRowSumInParallel` does not depend on the
inequality-constraints argument (null or not), on `numInputs` or `numIneqConstraints`, or on
the stage-0 state Jacobian `dynamics[0].dfdx`: two calls that agree on `numStages`,
`numStates`, every `dynamics[k].dfdu`, every `dynamics[k].dfdx` with `k ≥ 1` and the scaling
vectors end in the same way, with equal vectors when they return. -/
theorem GGTAbsRowSumInParallel_irrelevant_inputs (ocpSize1 ocpSize2 : OcpSize)
    (dynamics1 dynamics2 : List (VectorFunctionLinearApproximation α))
    (constraints1 constraints2 : Option (List (VectorFunctionLinearApproximation α)))
    (scalingVectorsPtr : Option (List (vector_t α)))
    (threadPool1 threadPool2 : ThreadPool) (schedule1 schedule2 : Nat → Nat)
    (nbThreads : Nat)
    (hN : ocpSize1.numStages = ocpSize2.numStages)
    (hx : ocpSize1.numStates = ocpSize2.numStates)
    (hB : ∀ k, k < ocpSize1.numStages.toNat →
      (dynamics1[k]?).map (fun d => d.dfdu) = (dynamics2[k]?).map (fun d => d.dfdu))
    (hA : ∀ k, k < ocpSize1.numStages.toNat → 0 < k →
      (dynamics1[k]?).map (fun d => d.dfdx) = (dynamics2[k]?).map (fun d => d.dfdx)) :
    GGTAbsRowSumInParallel ocpSize1 dynamics1 constraints1 scalingVectorsPtr threadPool1
        schedule1 nbThreads
      = GGTAbsRowSumInParallel ocpSize2 dynamics2 constraints2 scalingVectorsPtr threadPool2
        schedule2 nbThreads := by
  rw [GGTAbsRowSumInParallel_eq_sequential, GGTAbsRowSumInParallel_eq_sequential]
  have hseq : sequentialBlocks (GGTAbsRowSumTask ocpSize1 dynamics1 scalingVectorsPtr)
        ocpSize1.numStages.toNat
      = sequentialBlocks (GGTAbsRowSumTask ocpSize2 dynamics2 scalingVectorsPtr)
        ocpSize1.numStages.toNat :=
    sequentialBlocks_congr (fun k hk => GGTAbsRowSumTask_congr hN hx hB hA hk)
  unfold GGTAbsRowSumSequential getNumDynamicsConstraints
  simp only [← hN, ← hx, hseq]

end C17

section C17Witness

/-- Witness for claim C17: the two-stage problem against a call with other input and
inequality dimensions, a non-null constraints argument and another `dynamics[0].dfdx`. -/
theorem GGTAbsRowSumInParallel_irrelevant_inputs_witness :
    GGTAbsRowSumInParallel twoStageSize twoStageDynamics none (some twoStageScaling) ⟨0⟩
        (fun _ => 0) 3
      = GGTAbsRowSumInParallel twoStageSizeAlt twoStageDynamicsAlt (some twoStageDynamics)
        (some twoStageScaling) ⟨2⟩ (fun t => t) 3 :=
  GGTAbsRowSumInParallel_irrelevant_inputs twoStageSize twoStageSizeAlt twoStageDynamics
    twoStageDynamicsAlt none (some twoStageDynamics) (some twoStageScaling) ⟨0⟩ ⟨2⟩
    (fun _ => 0) (fun t => t) 3 rfl rfl
    (by intro k hk; have h2 : k < 2 := hk; interval_cases k <;> rfl)
    (by intro k hk hk0; have h2 : k < 2 := hk; interval_cases k; rfl)

end C17Witness

section C18
open Matrix
variable {α : Type} [LinearOrderedCommRing α]

theorem scalingDiag_ones {scalingVectors : List (vector_t α)} {j d : Nat}
    (h : scalingVectors.getD j [] = List.replicate d 1) :
    scalingDiag (some scalingVectors) j d = scalingDiag none j d := by
  unfold scalingDiag
  simp only [h]
  ext i i'
  rw [Matrix.diagonal_apply, Matrix.one_apply]
  split
  · simp [List.getD_eq_getElem?_getD, List.getElem?_replicate]
  · rfl

theorem GGTBlockSpec_ones {ocpSize : OcpSize}
    {dynamics : List (VectorFunctionLinearApproximation α)}
    {scalingVectors : List (vector_t α)}
    (hones : ∀ k, k < ocpSize.numStages.toNat →
      scalingVectors.getD k [] = List.replicate (stateDim ocpSize (k + 1)) 1)
    {k : Nat} (hk : k < ocpSize.numStages.toNat) :
    GGTBlockSpec ocpSize dynamics (some scalingVectors) k
      = GGTBlockSpec ocpSize dynamics none k := by
  unfold GGTBlockSpec GGTDiagonalBlock
  rw [scalingDiag_ones (hones k hk)]
  by_cases hk0 : 0 < k
  · have hprev := hones (k - 1) (by omega)
    rw [Nat.sub_add_cancel hk0] at hprev
    rw [scalingDiag_ones hprev]
  · simp only [hk0, if_false]

/-- Claim C18. Supplying all-ones scaling vectors is the same as supplying none: for every
well-formed input with `N ≥ 1`, the call with `N` scaling vectors, vector `k` being the
all-ones vector of length `numStates[k+1]`, returns the vector returned when the
scaling-vector argument is absent, with the same thread count. -/
theorem GGTAbsRowSumInParallel_ones_scaling (ocpSize : OcpSize)
    (dynamics : List (VectorFunctionLinearApproximation α))
    (constraints : Option (List (VectorFunctionLinearApproximation α)))
    (scalingVectors : List (vector_t α))
    (threadPool : ThreadPool) (schedule : Nat → Nat) (nbThreads : Nat)
    (wf : WellFormed ocpSize dynamics none)
    (hcount : scalingVectors.length = ocpSize.numStages.toNat)
    (hones : ∀ k, k < ocpSize.numStages.toNat →
      scalingVectors.getD k [] = List.replicate (stateDim ocpSize (k + 1)) 1) :
    GGTAbsRowSumInParallel ocpSize dynamics constraints (some scalingVectors) threadPool
        schedule nbThreads
      = GGTAbsRowSumInParallel ocpSize dynamics constraints none threadPool schedule
        nbThreads ∧
    ∃ res, GGTAbsRowSumInParallel ocpSize dynamics constraints none threadPool schedule
        nbThreads = .returned res 0 := by
  have wfs : WellFormed ocpSize dynamics (some scalingVectors) :=
    ⟨wf.numStages_pos, wf.numStates_length, wf.dfdu_rows, wf.dfdx_dims, by
      intro sv hsv
      cases hsv
      exact ⟨hcount, fun k hk => by rw [hones k hk, List.length_replicate]⟩⟩
  have hmap : (List.range ocpSize.numStages.toNat).map (fun k =>
        List.ofFn (GGTBlockSpec ocpSize dynamics (some scalingVectors) k))
      = (List.range ocpSize.numStages.toNat).map (fun k =>
        List.ofFn (GGTBlockSpec ocpSize dynamics none k)) := by
    apply List.map_congr_left
    intro k hk
    rw [GGTBlockSpec_ones hones (List.mem_range.mp hk)]
  rw [GGTAbsRowSumInParallel_eq_sequential, GGTAbsRowSumInParallel_eq_sequential,
    GGTAbsRowSumSequential_of_wellFormed wfs, GGTAbsRowSumSequential_of_wellFormed wf, hmap]
  exact ⟨rfl, _, rfl⟩

/-- Witness for claim C18: the two-stage problem with the scaling vectors `[1, 1]` and
`[1]`. -/
theorem GGTAbsRowSumInParallel_ones_scaling_witness :
    GGTAbsRowSumInParallel twoStageSize twoStageDynamics none (some [[1, 1], [1]]) ⟨1⟩
        (fun t => t) 0
      = GGTAbsRowSumInParallel twoStageSize twoStageDynamics none none ⟨1⟩ (fun t => t) 0 :=
  (GGTAbsRowSumInParallel_ones_scaling twoStageSize twoStageDynamics none [[1, 1], [1]] ⟨1⟩
    (fun t => t) 0
    ⟨by decide, by decide, by decide, by decide, by intro sv h; cases h⟩
    (by decide) (by decide)).1

end C18

/-! ## The call on `double`s -/

section DoubleGGT

/-- When the call stays within the exact range, the sequential pass on the `double`s of
integer data returns the `double`s of the integers that the pass on the integers returns. -/
theorem GGTAbsRowSumSequential_double {ocpSize : OcpSize}
    {dynamics : List (VectorFunctionLinearApproximation Int)}
    {scalingVectorsPtr : Option (List (vector_t Int))} {bounds : List Int}
    (hexact : GGTExact ocpSize dynamics scalingVectorsPtr bounds) (nbThreads : Nat) :
    ∃ (zs : List Int) (res : List Double),
      GGTAbsRowSumSequential ocpSize dynamics scalingVectorsPtr nbThreads = .returned zs 0 ∧
      GGTAbsRowSumSequential ocpSize (doubleDynamics dynamics) (doubleScaling scalingVectorsPtr)
        nbThreads = .returned res 0 ∧
      res.map Double.toInt? = zs.map some := by
  unfold GGTExact at hexact
  have hexact := GGTAbsRowSumSequential_returned_indep hexact nbThreads
  -- the run on the data themselves, in `ExactInt` arithmetic
  have hdom := GGTAbsRowSumSequential_rel dominated_rel ocpSize
    (dynRel_map (f := ExactInt.ofInt) (g := absExact) dominated_ofInt dynamics)
    (scalingRel_map (f := ExactInt.ofInt) (g := absExact) dominated_ofInt scalingVectorsPtr)
    nbThreads
  rw [hexact] at hdom
  obtain ⟨zs, hzs⟩ : ∃ zs : List Int, GGTAbsRowSumSequential ocpSize
      (dynamics.map (VectorFunctionLinearApproximation.map ExactInt.ofInt))
      (scalingVectorsPtr.map (List.map (List.map ExactInt.ofInt))) nbThreads
        = .returned (zs.map ExactInt.value) 0 := by
    revert hdom
    cases GGTAbsRowSumSequential ocpSize
      (dynamics.map (VectorFunctionLinearApproximation.map ExactInt.ofInt))
      (scalingVectorsPtr.map (List.map (List.map ExactInt.ofInt))) nbThreads with
    | returned cs c =>
      intro hdom
      obtain ⟨zs, rfl⟩ := values_of_dominated hdom.1
      rw [hdom.2]
      exact ⟨zs, rfl⟩
    | thrown e c => exact fun h => h.elim
    | aborted c => exact fun h => h.elim
  -- the run on the integers
  have hint := GGTAbsRowSumSequential_rel intExact_rel ocpSize
    (dynRel_map_right (g := ExactInt.ofInt) intExact_ofInt dynamics)
    (scalingRel_map_right (g := ExactInt.ofInt) intExact_ofInt scalingVectorsPtr) nbThreads
  rw [hzs] at hint
  -- the run on the doubles
  have hdbl := GGTAbsRowSumSequential_rel doubleExact_rel ocpSize
    (dynRel_map (f := Double.ofInt) (g := ExactInt.ofInt) doubleExact_ofInt dynamics)
    (scalingRel_map (f := Double.ofInt) (g := ExactInt.ofInt) doubleExact_ofInt
      scalingVectorsPtr) nbThreads
  rw [hzs] at hdbl
  refine ⟨zs, ?_⟩
  revert hint
  cases GGTAbsRowSumSequential ocpSize dynamics scalingVectorsPtr nbThreads with
  | thrown e c => exact fun h => h.elim
  | aborted c => exact fun h => h.elim
  | returned rz c =>
    intro hint
    obtain ⟨h1, rfl⟩ := hint
    have := eq_of_intExact h1
    subst this
    revert hdbl
    show OutcomeRel _ (GGTAbsRowSumSequential ocpSize (doubleDynamics dynamics)
      (doubleScaling scalingVectorsPtr) nbThreads) _ → _
    cases GGTAbsRowSumSequential ocpSize (doubleDynamics dynamics)
        (doubleScaling scalingVectorsPtr) nbThreads with
    | thrown e c => exact fun h => h.elim
    | aborted c => exact fun h => h.elim
    | returned rd c =>
      intro hdbl
      obtain ⟨h2, rfl⟩ := hdbl
      exact ⟨rd, rfl, rfl, toInt?_of_doubleExact h2⟩

end DoubleGGT

section C1
open Matrix

end C1

section C1Rounding
open Matrix

theorem roundingDynamics_wellFormed : WellFormed roundingSize roundingDynamics none :=
  ⟨by decide, by decide, by decide, by decide, by intro sv h; cases h⟩

/-- The value claimed for the only entry of the result on `roundingDynamics` is
`1 + 2^27 * 2^27`. -/
theorem roundingDynamics_spec :
    List.ofFn (GGTBlockSpec roundingSize roundingDynamics none 0) = [18014398509481985] := by
  obtain ⟨res, hres, hblocks⟩ := GGTAbsRowSumInParallel_blocks_exact roundingSize
    roundingDynamics none none ⟨0⟩ (fun _ => 0) 0 roundingDynamics_wellFormed
  have hcall : GGTAbsRowSumInParallel roundingSize roundingDynamics none none ⟨0⟩
      (fun _ => 0) 0 = .returned [18014398509481985] 0 := by decide
  rw [hcall] at hres
  cases hres
  exact ((hblocks 0 (by decide)).1).symm

end C1Rounding


section C16
open Matrix

theorem getElem?_of_map_eq {res : List Double} {zs : List Int}
    (hmap : res.map Double.toInt? = zs.map some) {j : Nat} {z : Int} (hz : zs[j]? = some z) :
    ∃ x, res[j]? = some x ∧ x.toInt? = some z := by
  have h := congrArg (fun l => l[j]?) hmap
  simp only [List.getElem?_map, hz, Option.map_some'] at h
  cases hx : res[j]? with
  | none => rw [hx] at h; cases h
  | some x =>
    rw [hx] at h
    simp only [Option.map_some', Option.some.injEq] at h
    exact ⟨x, rfl, h⟩

end C16

section C16Examples

end C16Examples

/-! ## `hessianAbsRowSum` -/

section HessianLength
variable {α : Type} [LinearOrderedCommRing α]

omit [LinearOrderedCommRing α] in
theorem setSegment_length {res v w : vector_t α} {start n : Nat}
    (h : res.setSegment start n v = some w) : w.length = res.length := by
  unfold vector_t.setSegment at h
  split at h
  · next hc =>
    simp only [Option.some.injEq] at h
    subst h
    simp
    omega
  · cases h

theorem addSegment_length {res v w : vector_t α} {start n : Nat}
    (h : res.addSegment start n v = some w) : w.length = res.length := by
  unfold vector_t.addSegment at h
  split at h
  · next hc =>
    simp only [Option.some.injEq] at h
    subst h
    simp
    omega
  · cases h

theorem hessianAbsRowSumStage_length {ocpSize : OcpSize}
    {cost : List (ScalarFunctionQuadraticApproximation α)} {k curRow curRow1 : Nat}
    {res res1 : vector_t α}
    (h : hessianAbsRowSumStage ocpSize cost k res curRow = some (res1, curRow1)) :
    res1.length = res.length := by
  unfold hessianAbsRowSumStage at h
  simp only [Option.bind_eq_some, Option.some.injEq, Prod.mk.injEq] at h
  obtain ⟨nx, _, nu, _, c, _, r1, h1, r2, h2, r3, h3, r4, h4, rfl, _⟩ := h
  have e1 : r1.length = res.length := by
    split at h1
    · exact setSegment_length h1
    · simp only [Option.some.injEq] at h1; rw [h1]
  have e2 : r2.length = r1.length := by
    split at h2
    · exact addSegment_length h2
    · simp only [Option.some.injEq] at h2; rw [h2]
  have e3 : r3.length = r2.length := by
    split at h3
    · exact setSegment_length h3
    · simp only [Option.some.injEq] at h3; rw [h3]
  have e4 : r4.length = r3.length := by
    split at h4
    · exact addSegment_length h4
    · simp only [Option.some.injEq] at h4; rw [h4]
  omega

theorem hessianAbsRowSumLoop_length {ocpSize : OcpSize}
    {cost : List (ScalarFunctionQuadraticApproximation α)} :
    ∀ (iterations k curRow curRow1 : Nat) (res res1 : vector_t α),
      hessianAbsRowSumLoop ocpSize cost iterations k res curRow = some (res1, curRow1) →
      res1.length = res.length := by
  intro iterations
  induction iterations with
  | zero =>
    intro k curRow curRow1 res res1 h
    simp only [hessianAbsRowSumLoop, Option.some.injEq, Prod.mk.injEq] at h
    rw [h.1]
  | succ n ih =>
    intro k curRow curRow1 res res1 h
    unfold hessianAbsRowSumLoop at h
    split at h
    · cases h
    · next r c hs =>
      rw [ih _ _ _ _ _ h, hessianAbsRowSumStage_length hs]

theorem hessianAbsRowSum_length {ocpSize : OcpSize}
    {cost : List (ScalarFunctionQuadraticApproximation α)} {uninit : Nat → α}
    {res : vector_t α} (h : hessianAbsRowSum ocpSize cost uninit = some res) :
    res.length = getNumDecisionVariables ocpSize := by
  unfold hessianAbsRowSum at h
  simp only [Option.bind_eq_some] at h
  obtain ⟨nu0, _, c0, _, r1, h1, ⟨r2, cr⟩, h2, nxN, _, cN, _, h3⟩ := h
  rw [setSegment_length h3, hessianAbsRowSumLoop_length _ _ _ _ _ _ h2, setSegment_length h1]
  simp

theorem getNumDecisionVariables_eq_sum (ocpSize : OcpSize) :
    getNumDecisionVariables ocpSize
      = (ocpSize.numStates.drop 1).sum + ocpSize.numInputs.sum := by
  unfold getNumDecisionVariables
  rw [foldl_add_eq_sum, foldl_add_eq_sum]
  simp

end HessianLength

section HessianRows
variable {α : Type} [LinearOrderedCommRing α]

omit [LinearOrderedCommRing α] in
theorem setSegment_append (pre g v : vector_t α) (n : Nat) (hn : n ≤ g.length)
    (hv : v.length = n) :
    vector_t.setSegment (pre ++ g) pre.length n v = some (pre ++ v ++ g.drop n) := by
  rw [setSegment_eq_some (by simp; omega) hv]
  simp [List.take_append_of_le_length, List.drop_append_eq_append_drop]

theorem addSegment_append (pre w g v : vector_t α) (n : Nat) (hw : w.length = n)
    (hv : v.length = n) :
    vector_t.addSegment (pre ++ w ++ g) pre.length n v
      = some (pre ++ List.zipWith (fun a b => a + b) w v ++ g) := by
  unfold vector_t.addSegment
  rw [if_pos ⟨by simp; omega, hv⟩]
  congr 1
  have t1 : (pre ++ w ++ g).take pre.length = pre := by
    rw [List.append_assoc, List.take_left']
    rfl
  have t2 : ((pre ++ w ++ g).drop pre.length).take n = w := by
    rw [List.append_assoc, List.drop_left', ← hw, List.take_left']
    · rfl
    · rfl
  have t3 : (pre ++ w ++ g).drop (pre.length + n) = g := by
    rw [← hw, ← List.length_append, List.drop_left']
    rfl
  rw [t1, t2, t3]

end HessianRows

section HessianRows2
variable {α : Type} [LinearOrderedCommRing α]

theorem hessianStateRows_length {ocpSize : OcpSize}
    {cost : List (ScalarFunctionQuadraticApproximation α)} (wf : HessianWellFormed ocpSize cost)
    {k : Nat} (hk : k < ocpSize.numStages.toNat) (hk0 : 0 < k) :
    (hessianStateRows cost k).length = stateDim ocpSize k := by
  obtain ⟨_, _, h1, _, _, h2, _, _⟩ := wf.stage_dims k hk hk0
  simp [hessianStateRows, rowwiseSum_length, matrix_t.cwiseAbs, matrix_t.transpose, h1, h2]

theorem hessianInputRows_length {ocpSize : OcpSize}
    {cost : List (ScalarFunctionQuadraticApproximation α)} (wf : HessianWellFormed ocpSize cost)
    {k : Nat} (hk : k < ocpSize.numStages.toNat) (hk0 : 0 < k) :
    (hessianInputRows cost k).length = inputDim ocpSize k := by
  obtain ⟨_, _, _, _, h1, _, h2, _⟩ := wf.stage_dims k hk hk0
  simp [hessianInputRows, rowwiseSum_length, matrix_t.cwiseAbs, h1, h2]

/-- One pass of the loop on a vector whose first `curRow` entries are written: the state
rows and the input rows of stage `k` replace the next entries. -/
theorem hessianAbsRowSumStage_eq {ocpSize : OcpSize}
    {cost : List (ScalarFunctionQuadraticApproximation α)} (wf : HessianWellFormed ocpSize cost)
    {k : Nat} (hk : k < ocpSize.numStages.toNat) (hk0 : 0 < k) (pre g : vector_t α)
    (hg : stateDim ocpSize k + inputDim ocpSize k ≤ g.length) :
    hessianAbsRowSumStage ocpSize cost k (pre ++ g) pre.length
      = some (pre ++ (hessianStateRows cost k ++ hessianInputRows cost k)
          ++ g.drop (stateDim ocpSize k + inputDim ocpSize k),
        pre.length + stateDim ocpSize k + inputDim ocpSize k) := by
  obtain ⟨hx, hu, xxr, xxc, uxr, uxc, uur, uuc⟩ := wf.stage_dims k hk hk0
  have hnx : ocpSize.numStates[k]? = some (stateDim ocpSize k) := by
    have : k < ocpSize.numStates.length := by rw [wf.numStates_length]; omega
    simp [stateDim, List.getD_eq_getElem?_getD, List.getElem?_eq_getElem this]
  have hnu : ocpSize.numInputs[k]? = some (inputDim ocpSize k) := by
    have : k < ocpSize.numInputs.length := by rw [wf.numInputs_length]; omega
    simp [inputDim, List.getD_eq_getElem?_getD, List.getElem?_eq_getElem this]
  have hck : k < cost.length := by rw [wf.cost_length]; omega
  have hc : cost[k]? = some (costOf cost k) := by
    simp [costOf, List.getElem?_eq_getElem hck]
  have s1 : (costOf cost k).dfdxx.size ≠ 0 := by
    unfold matrix_t.size
    rw [xxr, xxc]
    exact Nat.mul_ne_zero (by omega) (by omega)
  have s2 : (costOf cost k).dfdux.size ≠ 0 := by
    unfold matrix_t.size
    rw [uxr, uxc]
    exact Nat.mul_ne_zero (by omega) (by omega)
  have s3 : (costOf cost k).dfduu.size ≠ 0 := by
    unfold matrix_t.size
    rw [uur, uuc]
    exact Nat.mul_ne_zero (by omega) (by omega)
  have l1 : (costOf cost k).dfdxx.cwiseAbs.rowwiseSum.length = stateDim ocpSize k := by
    rw [rowwiseSum_length]; exact xxr
  have l2 : (costOf cost k).dfdux.transpose.cwiseAbs.rowwiseSum.length
      = stateDim ocpSize k := by
    rw [rowwiseSum_length]; exact uxc
  have l3 : (costOf cost k).dfdux.cwiseAbs.rowwiseSum.length = inputDim ocpSize k := by
    rw [rowwiseSum_length]; exact uxr
  have l4 : (costOf cost k).dfduu.cwiseAbs.rowwiseSum.length = inputDim ocpSize k := by
    rw [rowwiseSum_length]; exact uur
  have e1 := setSegment_append pre g _ (stateDim ocpSize k) (by omega) l1
  have e2 := addSegment_append pre _ (g.drop (stateDim ocpSize k)) _ (stateDim ocpSize k) l1 l2
  have hpl : (pre ++ hessianStateRows cost k).length = pre.length + stateDim ocpSize k := by
    rw [List.length_append, hessianStateRows_length wf hk hk0]
  have e3 := setSegment_append (pre ++ hessianStateRows cost k) (g.drop (stateDim ocpSize k))
    _ (inputDim ocpSize k) (by rw [List.length_drop]; omega) l3
  have e4 := addSegment_append (pre ++ hessianStateRows cost k) _
    ((g.drop (stateDim ocpSize k)).drop (inputDim ocpSize k)) _ (inputDim ocpSize k) l3 l4
  rw [hpl] at e3 e4
  unfold hessianAbsRowSumStage
  simp only [hnx, hnu, hc, Option.some_bind, if_pos s1, if_pos s2, if_pos s3, e1, e2]
  unfold hessianStateRows at e3 e4
  rw [e3]
  simp only [Option.some_bind]
  rw [e4]
  simp [hessianStateRows, hessianInputRows, Nat.add_comm]

end HessianRows2

section HessianRows3
variable {α : Type} [LinearOrderedCommRing α]

/-- The loop from stage `k` on: every pass appends the rows of its stage. -/
theorem hessianAbsRowSumLoop_eq {ocpSize : OcpSize}
    {cost : List (ScalarFunctionQuadraticApproximation α)}
    (wf : HessianWellFormed ocpSize cost) :
    ∀ (iterations k : Nat) (pre g : vector_t α), 0 < k →
      k + iterations ≤ ocpSize.numStages.toNat →
      ((List.range iterations).map
        (fun j => stateDim ocpSize (j + k) + inputDim ocpSize (j + k))).sum ≤ g.length →
      hessianAbsRowSumLoop ocpSize cost iterations k (pre ++ g) pre.length
        = some (pre ++ ((List.range iterations).map (fun j =>
              hessianStateRows cost (j + k) ++ hessianInputRows cost (j + k))).flatten
            ++ g.drop ((List.range iterations).map
              (fun j => stateDim ocpSize (j + k) + inputDim ocpSize (j + k))).sum,
          pre.length + ((List.range iterations).map
            (fun j => stateDim ocpSize (j + k) + inputDim ocpSize (j + k))).sum) := by
  intro iterations
  induction iterations with
  | zero =>
    intro k pre g _ _ _
    simp [hessianAbsRowSumLoop]
  | succ n ih =>
    intro k pre g hk0 hkN hg
    have hshift : ∀ (f : Nat → Nat), (List.range (n + 1)).map (fun j => f (j + k))
        = f k :: (List.range n).map (fun j => f (j + (k + 1))) := by
      intro f
      rw [List.range_succ_eq_map, List.map_cons, List.map_map]
      simp only [Nat.zero_add, List.cons.injEq, true_and]
      apply List.map_congr_left
      intro j _
      simp only [Function.comp, Nat.succ_eq_add_one]
      congr 1
      omega
    have hshift2 : (List.range (n + 1)).map (fun j =>
          hessianStateRows cost (j + k) ++ hessianInputRows cost (j + k))
        = (hessianStateRows cost k ++ hessianInputRows cost k)
          :: (List.range n).map (fun j =>
            hessianStateRows cost (j + (k + 1)) ++ hessianInputRows cost (j + (k + 1))) := by
      rw [List.range_succ_eq_map, List.map_cons, List.map_map]
      simp only [Nat.zero_add, List.cons.injEq, true_and]
      apply List.map_congr_left
      intro j _
      simp only [Function.comp, Nat.succ_eq_add_one]
      have : j + 1 + k = j + (k + 1) := by omega
      rw [this]
    rw [hshift (fun i => stateDim ocpSize i + inputDim ocpSize i)] at hg ⊢
    rw [hshift2]
    simp only [List.sum_cons] at hg ⊢
    unfold hessianAbsRowSumLoop
    rw [hessianAbsRowSumStage_eq wf (by omega) hk0 pre g (by omega)]
    simp only
    have hpl : (pre ++ (hessianStateRows cost k ++ hessianInputRows cost k)).length
        = pre.length + stateDim ocpSize k + inputDim ocpSize k := by
      rw [List.length_append, List.length_append, hessianStateRows_length wf (by omega) hk0,
        hessianInputRows_length wf (by omega) hk0]
      omega
    have := ih (k + 1) (pre ++ (hessianStateRows cost k ++ hessianInputRows cost k))
      (g.drop (stateDim ocpSize k + inputDim ocpSize k)) (by omega) (by omega)
      (by rw [List.length_drop]; omega)
    rw [hpl] at this
    rw [this]
    simp only [List.flatten_cons, List.append_assoc, List.drop_drop, Option.some.injEq,
      Prod.mk.injEq]
    exact ⟨trivial, by omega⟩

end HessianRows3

section HessianRows4
variable {α : Type} [LinearOrderedCommRing α]

theorem sum_eq_sum_getD (l : List Nat) (n : Nat) (h : l.length = n) :
    l.sum = ((List.range n).map (fun j => l.getD j 0)).sum := by
  congr 1
  apply List.ext_getElem
  · simp [h]
  · intro k h1 h2
    simp [List.getD_eq_getElem?_getD, List.getElem?_eq_getElem h1]

theorem getElem?_eq_some_getD (l : List Nat) (k : Nat) (h : k < l.length) :
    l[k]? = some (l.getD k 0) := by
  simp [List.getD_eq_getElem?_getD, List.getElem?_eq_getElem h]

theorem sum_map_range_succ_last (f : Nat → Nat) (n : Nat) :
    ((List.range (n + 1)).map f).sum = ((List.range n).map f).sum + f n := by
  rw [List.range_succ, List.map_append, List.sum_append]
  simp

theorem sum_map_range_succ_first (f : Nat → Nat) (n : Nat) :
    ((List.range (n + 1)).map f).sum = f 0 + ((List.range n).map (fun j => f (j + 1))).sum := by
  rw [List.range_succ_eq_map, List.map_cons, List.sum_cons, List.map_map]
  rfl

theorem hessian_total (ocpSize : OcpSize) (M : Nat)
    (hx : ocpSize.numStates.length = M + 1 + 1) (hu : ocpSize.numInputs.length = M + 1) :
    getNumDecisionVariables ocpSize
      = inputDim ocpSize 0
        + ((List.range M).map
            (fun j => stateDim ocpSize (j + 1) + inputDim ocpSize (j + 1))).sum
        + stateDim ocpSize (M + 1) := by
  rw [getNumDecisionVariables_eq_sum, ← map_getD_range_succ _ _ hx, sum_eq_sum_getD _ _ hu,
    sum_map_range_succ_last, sum_map_range_succ_first, List.sum_map_add]
  unfold stateDim inputDim
  omega

/-- Under well-formed cost data `hessianAbsRowSum` returns the rows in stage order, whatever
the fresh memory of `res` holds. -/
theorem hessianAbsRowSum_eq {ocpSize : OcpSize}
    {cost : List (ScalarFunctionQuadraticApproximation α)}
    (wf : HessianWellFormed ocpSize cost) (uninit : Nat → α) :
    hessianAbsRowSum ocpSize cost uninit = some (hessianRowsInStageOrder ocpSize cost) := by
  have hN := wf.numStages_pos
  obtain ⟨M, hM⟩ : ∃ M, ocpSize.numStages.toNat = M + 1 :=
    ⟨ocpSize.numStages.toNat - 1, by omega⟩
  have hiter : (ocpSize.numStages - 1).toNat = M := by omega
  have hx := wf.numStates_length
  have hu := wf.numInputs_length
  have hcl := wf.cost_length
  rw [hM] at hx hu hcl
  have htotal := hessian_total ocpSize M hx hu
  have hnu0 : ocpSize.numInputs[0]? = some (inputDim ocpSize 0) :=
    getElem?_eq_some_getD _ _ (by omega)
  have hc0 : cost[0]? = some (costOf cost 0) := by
    simp [costOf, List.getElem?_eq_getElem (show 0 < cost.length by omega)]
  have hnxN : ocpSize.numStates[M + 1]? = some (stateDim ocpSize (M + 1)) :=
    getElem?_eq_some_getD _ _ (by omega)
  have hcN : cost[M + 1]? = some (costOf cost (M + 1)) := by
    simp [costOf, List.getElem?_eq_getElem (show M + 1 < cost.length by omega)]
  have l0 : (costOf cost 0).dfduu.cwiseAbs.rowwiseSum.length = inputDim ocpSize 0 := by
    rw [rowwiseSum_length]; exact wf.first_dims.1
  have lN : (costOf cost (M + 1)).dfdxx.cwiseAbs.rowwiseSum.length
      = stateDim ocpSize (M + 1) := by
    rw [rowwiseSum_length]
    have := wf.last_dims.1
    rw [hM] at this
    exact this
  have hG : ((List.range (getNumDecisionVariables ocpSize)).map uninit).length
      = getNumDecisionVariables ocpSize := by simp
  have e0 := setSegment_append [] ((List.range (getNumDecisionVariables ocpSize)).map uninit)
    (costOf cost 0).dfduu.cwiseAbs.rowwiseSum (inputDim ocpSize 0) (by rw [hG]; omega) l0
  simp only [List.nil_append, List.length_nil] at e0
  have eloop := hessianAbsRowSumLoop_eq wf M 1 (costOf cost 0).dfduu.cwiseAbs.rowwiseSum
    (((List.range (getNumDecisionVariables ocpSize)).map uninit).drop (inputDim ocpSize 0))
    (by omega) (by omega) (by rw [List.length_drop, hG]; omega)
  rw [l0] at eloop
  unfold hessianAbsRowSum hessianRowsInStageOrder
  simp only [hnu0, hc0, Option.some_bind, e0, hiter, eloop, hM, Nat.add_sub_cancel]
  rw [if_neg (by omega), if_neg (by omega), hnxN, hcN]
  simp only [Option.some_bind]
  have hpre : ((costOf cost 0).dfduu.cwiseAbs.rowwiseSum ++ ((List.range M).map (fun j =>
      hessianStateRows cost (j + 1) ++ hessianInputRows cost (j + 1))).flatten).length
      = inputDim ocpSize 0 + ((List.range M).map
          (fun j => stateDim ocpSize (j + 1) + inputDim ocpSize (j + 1))).sum := by
    rw [List.length_append, l0, List.length_flatten, List.map_map]
    congr 2
    apply List.map_congr_left
    intro j hj
    have hj := List.mem_range.mp hj
    simp only [Function.comp, List.length_append]
    rw [hessianStateRows_length wf (by omega) (by omega),
      hessianInputRows_length wf (by omega) (by omega)]
  have hrest : ((((List.range (getNumDecisionVariables ocpSize)).map uninit).drop
      (inputDim ocpSize 0)).drop ((List.range M).map
        (fun j => stateDim ocpSize (j + 1) + inputDim ocpSize (j + 1))).sum).length
      = stateDim ocpSize (M + 1) := by
    rw [List.length_drop, List.length_drop, hG]
    omega
  have hfinal := setSegment_append
    ((costOf cost 0).dfduu.cwiseAbs.rowwiseSum ++ ((List.range M).map (fun j =>
      hessianStateRows cost (j + 1) ++ hessianInputRows cost (j + 1))).flatten)
    _ (costOf cost (M + 1)).dfdxx.cwiseAbs.rowwiseSum
    (stateDim ocpSize (M + 1)) (le_of_eq hrest.symm) lN
  rw [List.drop_of_length_le (le_of_eq hrest), List.append_nil] at hfinal
  rw [← hfinal]
  congr 1
  rw [List.length_append, hrest]
  omega

end HessianRows4
section RowsExact
open Matrix
variable {α : Type} [LinearOrderedCommRing α]

theorem zipWith_add_ofFn {n : Nat} (f g : Fin n → α) :
    List.zipWith (fun a b => a + b) (List.ofFn f) (List.ofFn g) = List.ofFn (f + g) := by
  apply List.ext_getElem
  · simp
  · intro i h1 h2
    simp

theorem hessianStateRows_eq_spec {ocpSize : OcpSize}
    {cost : List (ScalarFunctionQuadraticApproximation α)} (wf : HessianWellFormed ocpSize cost)
    {k : Nat} (hk : k < ocpSize.numStages.toNat) (hk0 : 0 < k) :
    hessianStateRows cost k
      = List.ofFn (fun i => rowAbsSum (stageHessian ocpSize cost k) (Sum.inl i)) := by
  obtain ⟨_, _, xxr, xxc, uxr, uxc, _, _⟩ := wf.stage_dims k hk hk0
  unfold hessianStateRows
  rw [rowAbsSum_of_represents (represents_toMatrix _ xxr xxc),
    rowAbsSum_of_represents (represents_transpose (represents_toMatrix _ uxr uxc)),
    zipWith_add_ofFn]
  congr 1
  funext i
  simp [rowAbsSum, stageHessian, Fintype.sum_sum_type]

theorem hessianInputRows_eq_spec {ocpSize : OcpSize}
    {cost : List (ScalarFunctionQuadraticApproximation α)} (wf : HessianWellFormed ocpSize cost)
    {k : Nat} (hk : k < ocpSize.numStages.toNat) (hk0 : 0 < k) :
    hessianInputRows cost k
      = List.ofFn (fun i => rowAbsSum (stageHessian ocpSize cost k) (Sum.inr i)) := by
  obtain ⟨_, _, _, _, uxr, uxc, uur, uuc⟩ := wf.stage_dims k hk hk0
  unfold hessianInputRows
  rw [rowAbsSum_of_represents (represents_toMatrix _ uxr uxc),
    rowAbsSum_of_represents (represents_toMatrix _ uur uuc), zipWith_add_ofFn]
  congr 1
  funext i
  simp [rowAbsSum, stageHessian, Fintype.sum_sum_type]

theorem hessianRowsInStageOrder_eq_spec {ocpSize : OcpSize}
    {cost : List (ScalarFunctionQuadraticApproximation α)}
    (wf : HessianWellFormed ocpSize cost) :
    hessianRowsInStageOrder ocpSize cost = hessianRowsSpec ocpSize cost := by
  unfold hessianRowsInStageOrder hessianRowsSpec
  rw [rowAbsSum_of_represents (represents_toMatrix _ wf.first_dims.1 wf.first_dims.2),
    rowAbsSum_of_represents (represents_toMatrix _ wf.last_dims.1 wf.last_dims.2)]
  congr 3
  apply List.map_congr_left
  intro j hj
  have hj := List.mem_range.mp hj
  rw [hessianStateRows_eq_spec wf (by omega) (by omega),
    hessianInputRows_eq_spec wf (by omega) (by omega)]

/-- In exact arithmetic, for well-formed cost data (`N ≥ 1`, matching lengths, cost blocks of matching
dimensions, non-zero at the intermediate stages) `hessianAbsRowSum` returns the absolute
row sums of the block-diagonal cost Hessian: `rowAbsSum(dfduu_0)`, then for every stage
`1 ≤ k < N` the absolute row sums of `[[dfdxx_k, dfdux_kᵀ], [dfdux_k, dfduu_k]]` (state
rows `rowAbsSum(dfdxx_k) + rowAbsSum(dfdux_kᵀ)`, input rows
`rowAbsSum(dfdux_k) + rowAbsSum(dfduu_k)`), then `rowAbsSum(dfdxx_N)`; the result is this
concatenation whatever `res` held before, so every entry is written. -/
theorem hessianAbsRowSum_rows_exact (ocpSize : OcpSize)
    (cost : List (ScalarFunctionQuadraticApproximation α)) (uninit : Nat → α)
    (wf : HessianWellFormed ocpSize cost) :
    hessianAbsRowSum ocpSize cost uninit = some (hessianRowsSpec ocpSize cost) ∧
      ∀ k, 0 < k → k < ocpSize.numStages.toNat →
        (∀ i, rowAbsSum (stageHessian ocpSize cost k) (Sum.inl i)
          = rowAbsSum ((costOf cost k).dfdxx.toMatrix (stateDim ocpSize k)
                (stateDim ocpSize k)) i
            + rowAbsSum ((costOf cost k).dfdux.toMatrix (inputDim ocpSize k)
                (stateDim ocpSize k))ᵀ i) ∧
        (∀ i, rowAbsSum (stageHessian ocpSize cost k) (Sum.inr i)
          = rowAbsSum ((costOf cost k).dfdux.toMatrix (inputDim ocpSize k)
                (stateDim ocpSize k)) i
            + rowAbsSum ((costOf cost k).dfduu.toMatrix (inputDim ocpSize k)
                (inputDim ocpSize k)) i) := by
  refine ⟨?_, ?_⟩
  · rw [hessianAbsRowSum_eq wf uninit, hessianRowsInStageOrder_eq_spec wf]
  · intro k _ _
    constructor <;> intro i <;> simp [rowAbsSum, stageHessian, Fintype.sum_sum_type]

/-- The cost data `smallCost` are well-formed. -/
theorem smallCost_wellFormed : HessianWellFormed smallCostSize smallCost :=
  ⟨by decide, by decide, by decide, by decide, by decide, by decide, by decide⟩

/-- An instance over the integers: the cost data `smallCost`. -/
theorem hessianAbsRowSum_rows_exact_instance :
    hessianAbsRowSum smallCostSize smallCost (fun _ => 99)
      = some (hessianRowsSpec smallCostSize smallCost) :=
  (hessianAbsRowSum_rows_exact smallCostSize smallCost (fun _ => 99) smallCost_wellFormed).1

end RowsExact
section C7
variable {α : Type} [LinearOrderedCommRing α]

omit [LinearOrderedCommRing α] in
theorem int.wrap_eq_self {z : Int} (h0 : 0 ≤ z) (h1 : z ≤ 2147483647) : int.wrap z = z := by
  unfold int.wrap
  omega

omit [LinearOrderedCommRing α] in
/-- As long as the sum stays within `INT_MAX` the `int` accumulator holds the sum. -/
theorem int.accumulate_eq (l : List Nat) (init : Int) (h0 : 0 ≤ init)
    (h1 : init + (l.sum : Nat) ≤ 2147483647) : int.accumulate l init = init + (l.sum : Nat) := by
  induction l generalizing init with
  | nil => simp [int.accumulate]
  | cons n l ih =>
    simp only [List.sum_cons, Nat.cast_add] at h1
    have hw : int.wrap (init + n) = init + n := int.wrap_eq_self (by omega) (by omega)
    have := ih (init + n) (by omega) (by omega)
    unfold int.accumulate at this ⊢
    simp only [List.foldl_cons, hw, List.sum_cons, Nat.cast_add]
    rw [this]
    omega

/-- Claim C7. With `numStates` of length `N + 1` and `numInputs` of length `N`, and
dimensions whose sum fits in an `int`, the `int` returned by the helper
`getNumDecisionVariables` is the sum
`(numStates[1] + ... + numStates[N]) + (numInputs[0] + ... + numInputs[N-1])`, which is also
`getNumDynamicsConstraints` plus the sum of all input dimensions; every vector returned by
`hessianAbsRowSum` has that length; and for well-formed cost data a vector is returned. -/
theorem hessianAbsRowSum_numDecisionVariables (ocpSize : OcpSize)
    (cost : List (ScalarFunctionQuadraticApproximation α)) (uninit : Nat → α)
    (hx : ocpSize.numStates.length = ocpSize.numStages.toNat + 1)
    (hu : ocpSize.numInputs.length = ocpSize.numStages.toNat)
    (hfit : (ocpSize.numStates.drop 1).sum + ocpSize.numInputs.sum ≤ INT_MAX) :
    (∀ res, hessianAbsRowSum ocpSize cost uninit = some res →
        res.length = getNumDecisionVariables ocpSize) ∧
      (HessianWellFormed ocpSize cost → ∃ res,
        hessianAbsRowSum ocpSize cost uninit = some res ∧
          res.length = getNumDecisionVariables ocpSize) ∧
      int.getNumDecisionVariables ocpSize = (getNumDecisionVariables ocpSize : Nat) ∧
      int.getNumDynamicsConstraints ocpSize = (getNumDynamicsConstraints ocpSize : Nat) ∧
      getNumDecisionVariables ocpSize
        = ((List.range ocpSize.numStages.toNat).map (fun j => stateDim ocpSize (j + 1))).sum
          + ((List.range ocpSize.numStages.toNat).map (fun j => inputDim ocpSize j)).sum ∧
      getNumDecisionVariables ocpSize
        = getNumDynamicsConstraints ocpSize + ocpSize.numInputs.sum := by
  unfold INT_MAX at hfit
  have hdyn : int.getNumDynamicsConstraints ocpSize
      = ((ocpSize.numStates.drop 1).sum : Nat) := by
    unfold int.getNumDynamicsConstraints
    rw [int.accumulate_eq _ 0 (le_refl 0) (by omega)]
    omega
  refine ⟨fun res h => hessianAbsRowSum_length h, ?_, ?_, ?_, ?_, ?_⟩
  · intro wf
    exact ⟨_, hessianAbsRowSum_eq wf uninit,
      hessianAbsRowSum_length (hessianAbsRowSum_eq wf uninit)⟩
  · unfold int.getNumDecisionVariables
    rw [getNumDecisionVariables_eq_sum]
    have h1 := int.accumulate_eq (ocpSize.numStates.drop 1) 0 (le_refl 0) (by omega)
    rw [h1, int.accumulate_eq _ _ (by omega) (by omega)]
    push_cast
    omega
  · rw [hdyn, getNumDynamicsConstraints_eq_sum]
  · rw [getNumDecisionVariables_eq_sum, ← map_getD_range_succ _ _ hx, sum_eq_sum_getD _ _ hu]
    rfl
  · rw [getNumDecisionVariables_eq_sum, getNumDynamicsConstraints_eq_sum]

omit [LinearOrderedCommRing α] in
/-- The sizes `numStates = [0, 2147483647]`, `numInputs = [1]` have the lengths the claim asks
for and add up to `2147483648`, but the `int` accumulated by `getNumDecisionVariables` is
`-2147483648`. -/
theorem getNumDecisionVariables_overflows :
    1 ≤ overflowSize.numStages ∧
      overflowSize.numStates.length = overflowSize.numStages.toNat + 1 ∧
      overflowSize.numInputs.length = overflowSize.numStages.toNat ∧
      int.getNumDecisionVariables overflowSize = -2147483648 ∧
      int.getNumDecisionVariables overflowSize
        ≠ (((List.range overflowSize.numStages.toNat).map
              (fun j => stateDim overflowSize (j + 1))).sum
            + ((List.range overflowSize.numStages.toNat).map
              (fun j => inputDim overflowSize j)).sum : Nat) := by
  decide

/-- Witness for claim C7: the vector returned for `smallCost` has four entries. -/
theorem hessianAbsRowSum_numDecisionVariables_witness :
    [5, 7, 10, 7].length = getNumDecisionVariables smallCostSize :=
  (hessianAbsRowSum_numDecisionVariables smallCostSize smallCost (fun _ => 99) (by decide)
    (by decide) (by decide)).1 [5, 7, 10, 7] (by decide)

end C7
section C9
variable {α : Type} [LinearOrderedCommRing α]

/-- Claim C9, as stated, fails. For the well-formed two-stage problem `smallCost` the code
returns `[5, 7, 10, 7]`: the first entry is the input row of stage `0`, so the first
`numStates[1] + numStates[2] = 2` entries are not the state rows `[7, 7]`. -/
theorem hessianAbsRowSum_not_states_then_inputs :
    HessianWellFormed smallCostSize smallCost ∧
      hessianAbsRowSum smallCostSize smallCost (fun _ => 99) = some [5, 7, 10, 7] ∧
      hessianAllStateRows smallCostSize smallCost = [7, 7] ∧
      hessianAllInputRows smallCostSize smallCost = [5, 10] ∧
      ¬ StatesThenInputs smallCostSize smallCost [5, 7, 10, 7] := by
  refine ⟨smallCost_wellFormed, by decide, by decide, by decide, ?_⟩
  intro h
  exact absurd h.1 (by decide)

omit [LinearOrderedCommRing α] in
theorem segment_split (L x u : List α) (s : Nat)
    (h : (L.drop s).take (x ++ u).length = x ++ u) :
    (L.drop s).take x.length = x ∧ (L.drop (s + x.length)).take u.length = u := by
  constructor
  · have := congrArg (List.take x.length) h
    rw [List.take_take, List.length_append, Nat.min_eq_left (Nat.le_add_right _ _),
      List.take_left'] at this
    · exact this
    · rfl
  · have := congrArg (List.drop x.length) h
    rw [List.drop_take, List.drop_drop, List.length_append, Nat.add_sub_cancel_left,
      List.drop_left'] at this
    · exact this
    · rfl

/-- Claim C9, amended. For well-formed cost data the rows of the vector returned by
`hessianAbsRowSum` are ordered stage by stage: the input rows of stage `0`, then for every
stage `k = 1, ..., N-1` its state rows followed by its input rows, then the state rows of
stage `N`. -/
theorem hessianAbsRowSum_stage_by_stage (ocpSize : OcpSize)
    (cost : List (ScalarFunctionQuadraticApproximation α)) (uninit : Nat → α)
    (wf : HessianWellFormed ocpSize cost) :
    ∃ res, hessianAbsRowSum ocpSize cost uninit = some res ∧
      StageByStage ocpSize cost res := by
  refine ⟨_, hessianAbsRowSum_eq wf uninit, ?_⟩
  have l0 : (costOf cost 0).dfduu.cwiseAbs.rowwiseSum.length = inputDim ocpSize 0 := by
    rw [rowwiseSum_length]; exact wf.first_dims.1
  have hlens : ∀ n, n ≤ ocpSize.numStages.toNat - 1 →
      (((List.range (ocpSize.numStages.toNat - 1)).map (fun j =>
        hessianStateRows cost (j + 1) ++ hessianInputRows cost (j + 1))).take n).map
          List.length
        = (List.range n).map
          (fun j => stateDim ocpSize (j + 1) + inputDim ocpSize (j + 1)) := by
    intro n hn
    rw [← List.map_take, List.take_range, Nat.min_eq_left hn, List.map_map]
    apply List.map_congr_left
    intro j hj
    have hj := List.mem_range.mp hj
    simp only [Function.comp, List.length_append]
    rw [hessianStateRows_length wf (by omega) (by omega),
      hessianInputRows_length wf (by omega) (by omega)]
  unfold StageByStage hessianRowsInStageOrder
  refine ⟨?_, ?_, ?_⟩
  · rw [List.append_assoc, ← l0, List.take_left']
    rfl
  · intro k hk hk0
    have hblock : ((List.range (ocpSize.numStages.toNat - 1)).map (fun j =>
        hessianStateRows cost (j + 1) ++ hessianInputRows cost (j + 1)))[k - 1]?
        = some (hessianStateRows cost k ++ hessianInputRows cost k) := by
      rw [List.getElem?_map, List.getElem?_range (by omega)]
      simp only [Option.map_some', Nat.sub_add_cancel hk0]
    have hseg := flatten_block _
      (costOf cost ocpSize.numStages.toNat).dfdxx.cwiseAbs.rowwiseSum (k - 1) _ hblock
    rw [hlens (k - 1) (by omega)] at hseg
    have hdrop : ((costOf cost 0).dfduu.cwiseAbs.rowwiseSum
          ++ ((List.range (ocpSize.numStages.toNat - 1)).map (fun j =>
            hessianStateRows cost (j + 1) ++ hessianInputRows cost (j + 1))).flatten
          ++ (costOf cost ocpSize.numStages.toNat).dfdxx.cwiseAbs.rowwiseSum).drop
            (stageOffset ocpSize k)
        = ((((List.range (ocpSize.numStages.toNat - 1)).map (fun j =>
            hessianStateRows cost (j + 1) ++ hessianInputRows cost (j + 1))).flatten
          ++ (costOf cost ocpSize.numStages.toNat).dfdxx.cwiseAbs.rowwiseSum).drop
            ((List.range (k - 1)).map
              (fun j => stateDim ocpSize (j + 1) + inputDim ocpSize (j + 1))).sum) := by
      unfold stageOffset
      rw [List.append_assoc, ← l0, ← List.drop_drop, List.drop_left']
      rfl
    have hxl := hessianStateRows_length wf hk hk0
    have hul := hessianInputRows_length wf hk hk0
    rw [← hdrop] at hseg
    have hsplit := segment_split _ _ _ _ hseg
    rw [hxl, hul] at hsplit
    exact hsplit
  · have hN := wf.numStages_pos
    have hall := hlens (ocpSize.numStages.toNat - 1) (Nat.le_refl _)
    rw [List.take_of_length_le (by simp)] at hall
    unfold stageOffset
    rw [← hall, ← List.length_flatten, ← l0, ← List.length_append, List.drop_left']
    rfl

/-- Witness for claim C9, amended: the cost data `smallCost`. -/
theorem hessianAbsRowSum_stage_by_stage_witness :
    ∃ res, hessianAbsRowSum smallCostSize smallCost (fun _ => 99) = some res ∧
      StageByStage smallCostSize smallCost res :=
  hessianAbsRowSum_stage_by_stage smallCostSize smallCost (fun _ => 99) smallCost_wellFormed

end C9
/-! ## `hessianAbsRowSum` on `double`s -/

section C2
open Matrix

theorem roundingCost_wellFormed : HessianWellFormed roundingCostSize roundingCost :=
  ⟨by decide, by decide, by decide, by decide, by decide, by decide, by decide⟩

end C2

end pipg

/-! ## The policy pipeline -/

namespace MPC_ROS_Interface

variable {σ : Type}

/-- Claim C10. If the solver fails during `mpcObservationCallback` (`onObservation`), the
failure is surfaced to the caller, the pair held as "current" after the call is the pair held
before it, and `readyToPublish_` is as before: the publishing task is not signalled. -/
theorem mpcObservationCallback_solve_failed (mpc : MPC_BASE σ) (s : MPC_ROS_Interface σ)
    (obs : SystemObservation)
    (hfail : (mpc.runSolve (prepareSolve mpc s obs).mpc_ obs).2 = false) :
    (mpcObservationCallback mpc s obs).2 = .error .solveFailed ∧
      (mpcObservationCallback mpc s obs).1.currentPrimalSolution_ = s.currentPrimalSolution_ ∧
      (mpcObservationCallback mpc s obs).1.currentCommand_ = s.currentCommand_ ∧
      (mpcObservationCallback mpc s obs).1.readyToPublish_ = s.readyToPublish_ ∧
      PipelineEvent.swapped ∉ (mpcObservationCallback mpc s obs).1.log.drop s.log.length ∧
      PipelineEvent.signalled ∉ (mpcObservationCallback mpc s obs).1.log.drop s.log.length := by
  have hcur : (prepareSolve mpc s obs).currentPrimalSolution_ = s.currentPrimalSolution_ ∧
      (prepareSolve mpc s obs).currentCommand_ = s.currentCommand_ ∧
      (prepareSolve mpc s obs).readyToPublish_ = s.readyToPublish_ ∧
      ∃ added, (prepareSolve mpc s obs).log = s.log ++ added ∧
        PipelineEvent.swapped ∉ added ∧ PipelineEvent.signalled ∉ added := by
    unfold prepareSolve
    by_cases h1 : s.resetRequested_ <;> by_cases h2 : s.costDesiredTrajectoriesBufferUpdated_
      <;> by_cases h3 : s.initialCall_ <;> simp [h1, h2, h3]
  obtain ⟨c1, c2, c3, added, hlog, n1, n2⟩ := hcur
  have hres : mpcObservationCallback mpc s obs
      = ({ prepareSolve mpc s obs with
            mpc_ := (mpc.runSolve (prepareSolve mpc s obs).mpc_ obs).1
            log := (prepareSolve mpc s obs).log ++ [PipelineEvent.solve obs false] },
          Except.error SolveError.solveFailed) := by
    unfold mpcObservationCallback
    simp only [hfail, Bool.false_eq_true, if_false]
  rw [hres]
  refine ⟨rfl, c1, c2, c3, ?_, ?_⟩
  · simp only [hlog, List.append_assoc]
    rw [List.drop_left']
    · simp [n1]
    · rfl
  · simp only [hlog, List.append_assoc]
    rw [List.drop_left']
    · simp [n2]
    · rfl

/-- Witness for claim C10: a failing solver on a pipeline with a published policy and a
pending reset. -/
theorem mpcObservationCallback_solve_failed_witness :
    (mpcObservationCallback failingSolver publishedPipeline ⟨1, [0, 0], [0], 0⟩).2
        = .error .solveFailed ∧
      (mpcObservationCallback failingSolver publishedPipeline
        ⟨1, [0, 0], [0], 0⟩).1.currentPrimalSolution_
        = publishedPipeline.currentPrimalSolution_ ∧
      (mpcObservationCallback failingSolver publishedPipeline
        ⟨1, [0, 0], [0], 0⟩).1.readyToPublish_ = false :=
  have h := mpcObservationCallback_solve_failed failingSolver publishedPipeline
    ⟨1, [0, 0], [0], 0⟩ (by decide)
  ⟨h.1, h.2.1, h.2.2.2.1⟩

end MPC_ROS_Interface


namespace MPC_ROS_Interface

variable {σ : Type}

theorem prepareSolve_reset_log (mpc : MPC_BASE σ) (s : MPC_ROS_Interface σ)
    (target : CostDesiredTrajectories) (obs : SystemObservation) :
    (prepareSolve mpc (reset s target) obs).log
        = s.log ++ (PipelineEvent.initCall obs :: PipelineEvent.initModeSequence obs ::
            (List.range s.numModules).map PipelineEvent.preSolve) ∧
      (prepareSolve mpc (reset s target) obs).numModules = s.numModules := by
  simp [prepareSolve, reset]

/-- Claim C11. After `reset` (`requestReset(target)`) followed by `mpcObservationCallback`
(`onObservation(obs)`), whatever the state before, the target and the observation: the reset
itself records nothing, and what the callback records starts with the initial-call hook
`initCall obs`, followed by events `pre` that are neither a solve nor an initial call, then
the solve, then events `post` that are neither: the hook is invoked exactly once, it comes
before the solve, and no solve comes between the reset and the hook. -/
theorem reset_then_observation_initCall_once (mpc : MPC_BASE σ) (s : MPC_ROS_Interface σ)
    (target : CostDesiredTrajectories) (obs : SystemObservation) :
    (reset s target).log = s.log ∧
      ∃ pre post succeeded,
        (mpcObservationCallback mpc (reset s target) obs).1.log
          = s.log ++ (PipelineEvent.initCall obs :: pre
              ++ PipelineEvent.solve obs succeeded :: post) ∧
        (∀ e ∈ pre, e.isInitCall = false ∧ e.isSolve = false) ∧
        (∀ e ∈ post, e.isInitCall = false ∧ e.isSolve = false) := by
  refine ⟨rfl, ?_⟩
  obtain ⟨hlog, hnum⟩ := prepareSolve_reset_log mpc s target obs
  have hpre : ∀ e ∈ PipelineEvent.initModeSequence obs ::
      (List.range s.numModules).map PipelineEvent.preSolve,
      e.isInitCall = false ∧ e.isSolve = false := by
    intro e he
    rcases List.mem_cons.mp he with h | h
    · subst h
      exact ⟨rfl, rfl⟩
    · obtain ⟨m, _, rfl⟩ := List.mem_map.mp h
      exact ⟨rfl, rfl⟩
  cases hb : (mpc.runSolve (prepareSolve mpc (reset s target) obs).mpc_ obs).2 with
  | false =>
    refine ⟨_, [], false, ?_, hpre, by simp⟩
    unfold mpcObservationCallback
    simp only [hb, Bool.false_eq_true, if_false, hlog]
    simp
  | true =>
    refine ⟨_, (List.range s.numModules).map PipelineEvent.notified
      ++ [PipelineEvent.swapped, PipelineEvent.signalled]
      ++ (List.range s.numModules).map PipelineEvent.postSolve, true, ?_, hpre, ?_⟩
    · unfold mpcObservationCallback
      simp only [hb, if_true, hlog, hnum]
      simp
    · intro e he
      simp only [List.mem_append, List.mem_map, List.mem_range, List.mem_cons,
        List.mem_singleton, List.not_mem_nil, or_false] at he
      rcases he with (⟨m, _, rfl⟩ | h | h) | ⟨m, _, rfl⟩
      · exact ⟨rfl, rfl⟩
      · subst h; exact ⟨rfl, rfl⟩
      · subst h; exact ⟨rfl, rfl⟩
      · exact ⟨rfl, rfl⟩

end MPC_ROS_Interface


/-! ## The snapshot of the solver -/

theorem vectorResize_length {β : Type} (v : List β) (n : Nat) (d : β) :
    (vectorResize v n d).length = n := by
  simp only [vectorResize, List.length_append, List.length_take, List.length_replicate]
  omega

namespace DDP_DataCollector

theorem resizeDataContainer_wellSized (c : DDP_DataCollector) (n stateDim inputDim : Nat)
    (hc : c.WellSized) :
    (c.resizeDataContainer n stateDim inputDim).WellSized ∧
      (c.resizeDataContainer n stateDim inputDim).numPartitions_ = n := by
  unfold resizeDataContainer
  by_cases h : n = c.numPartitions_
  · simp only [h, if_true]
    exact ⟨hc, trivial⟩
  · simp only [h, if_false]
    exact ⟨⟨fun f => vectorResize_length _ _ _, vectorResize_length _ _ _,
      vectorResize_length _ _ _⟩, trivial⟩

/-- What a snapshot holds after `collect`, in terms of the solver. -/
theorem collect_snapshot (swappable : StockField → Bool) (c : DDP_DataCollector)
    (ddp : GaussNewtonDDP) (hc : c.WellSized) (hd : ddp.WellSized) :
    (collect swappable c ddp).1.scalarFields
        = (ddp.initTime_, ddp.finalTime_, ddp.rewindCounter_, ddp.numPartitions_,
            ddp.sHeuristics_, ddp.initActivePartition_, ddp.finalActivePartition_) ∧
      (∀ f, ((collect swappable c ddp).1.stock f).length = ddp.numPartitions_) ∧
      (collect swappable c ddp).1.otherLengths
        = [ddp.initState_.length, ddp.partitioningTimes_.length,
            ddp.modeSchedule_.eventTimes.length, ddp.modeSchedule_.modeSequence.length,
            ddp.SvHeuristics_.length, ddp.SmHeuristics_.length, ddp.numPartitions_,
            ddp.numPartitions_] := by
  obtain ⟨⟨_, h2, h3⟩, h4⟩ :=
    resizeDataContainer_wellSized c ddp.numPartitions_ ddp.stateDim ddp.inputDim hc
  refine ⟨?_, fun f => hd f, ?_⟩
  · simp only [collect, scalarFields, h4]
  · simp only [collect, otherLengths]
    rw [h2, h3, h4]

/-- What `collect` leaves of the solver: the per-partition containers keep one entry per
partition, and everything else is untouched. -/
theorem collect_solver (swappable : StockField → Bool) (c : DDP_DataCollector)
    (ddp : GaussNewtonDDP) (hc : c.WellSized) (hd : ddp.WellSized) :
    (collect swappable c ddp).2.WellSized ∧
      (collect swappable c ddp).2 = { ddp with stock := (collect swappable c ddp).2.stock } := by
  obtain ⟨⟨h1, _, _⟩, h4⟩ :=
    resizeDataContainer_wellSized c ddp.numPartitions_ ddp.stateDim ddp.inputDim hc
  refine ⟨?_, rfl⟩
  intro f
  show (if swappable f then _ else _ : List (List Int)).length = ddp.numPartitions_
  by_cases hs : swappable f
  · simp only [hs, if_true]
    rw [h1 f, h4]
  · simp only [hs, Bool.false_eq_true, if_false]
    exact hd f

theorem collect_wellSized (swappable : StockField → Bool) (c : DDP_DataCollector)
    (ddp : GaussNewtonDDP) (hc : c.WellSized) (hd : ddp.WellSized) :
    (collect swappable c ddp).1.WellSized := by
  obtain ⟨⟨_, h2, h3⟩, h4⟩ :=
    resizeDataContainer_wellSized c ddp.numPartitions_ ddp.stateDim ddp.inputDim hc
  refine ⟨fun f => ?_, ?_, ?_⟩
  · show (ddp.stock f).length = _
    rw [hd f]
    exact h4.symm
  · show _ = (c.resizeDataContainer ddp.numPartitions_ ddp.stateDim ddp.inputDim).numPartitions_
    exact h2
  · show _ = (c.resizeDataContainer ddp.numPartitions_ ddp.stateDim ddp.inputDim).numPartitions_
    exact h3

/-- Claim C12. For a solver that has completed an iteration (its per-partition containers
hold one entry per partition) and a collector whose containers are sized to its
`numPartitions_` (as a default-constructed one is), calling `collect` a second time on the
solver as the first call left it, with the same collector or with another one, yields a
snapshot with the same scalar fields (`initTime_`, `finalTime_`, `rewindCounter_`,
`numPartitions_`, `sHeuristics_`, and the active-partition indices) and the same length of
every sequence-typed field as the first snapshot, whichever containers are swapped. -/
theorem collect_twice (swappable : StockField → Bool) (c c2 : DDP_DataCollector)
    (ddp : GaussNewtonDDP) (hc : c.WellSized) (hc2 : c2.WellSized) (hd : ddp.WellSized) :
    ((collect swappable (collect swappable c ddp).1 (collect swappable c ddp).2).1.scalarFields
        = (collect swappable c ddp).1.scalarFields ∧
      (∀ f, ((collect swappable (collect swappable c ddp).1
          (collect swappable c ddp).2).1.stock f).length
        = ((collect swappable c ddp).1.stock f).length) ∧
      (collect swappable (collect swappable c ddp).1 (collect swappable c ddp).2).1.otherLengths
        = (collect swappable c ddp).1.otherLengths) ∧
    ((collect swappable c2 (collect swappable c ddp).2).1.scalarFields
        = (collect swappable c ddp).1.scalarFields ∧
      (∀ f, ((collect swappable c2 (collect swappable c ddp).2).1.stock f).length
        = ((collect swappable c ddp).1.stock f).length) ∧
      (collect swappable c2 (collect swappable c ddp).2).1.otherLengths
        = (collect swappable c ddp).1.otherLengths) := by
  obtain ⟨a1, a2, a3⟩ := collect_snapshot swappable c ddp hc hd
  obtain ⟨hd1, _⟩ := collect_solver swappable c ddp hc hd
  have hc1 := collect_wellSized swappable c ddp hc hd
  obtain ⟨b1, b2, b3⟩ := collect_snapshot swappable _ _ hc1 hd1
  obtain ⟨e1, e2, e3⟩ := collect_snapshot swappable c2 _ hc2 hd1
  refine ⟨⟨?_, ?_, ?_⟩, ⟨?_, ?_, ?_⟩⟩
  · rw [b1, a1]
    rfl
  · intro f
    rw [b2 f, a2 f]
    rfl
  · rw [b3, a3]
    rfl
  · rw [e1, a1]
    rfl
  · intro f
    rw [e2 f, a2 f]
    rfl
  · rw [e3, a3]
    rfl

/-- Witness for claim C12: a default-constructed collector used twice on a solver with two
partitions, with every container swapped. -/
theorem collect_twice_witness :
    (collect (fun _ => true) (collect (fun _ => true) fresh twoPartitionSolver).1
        (collect (fun _ => true) fresh twoPartitionSolver).2).1.scalarFields
      = (collect (fun _ => true) fresh twoPartitionSolver).1.scalarFields :=
  (collect_twice (fun _ => true) fresh fresh twoPartitionSolver
    ⟨fun _ => rfl, rfl, rfl⟩ ⟨fun _ => rfl, rfl, rfl⟩ (fun _ => rfl)).1.1

/-- The contents of a swapped container are exchanged, not kept: after a second `collect`
with the same collector the snapshot holds the resized container it gave away. -/
theorem collect_twice_swapped_contents :
    (collect (fun _ => true) fresh twoPartitionSolver).1.stock
        StockField.modelDataTrajectoriesStock_ = [[1, 2, 3], [4, 5]] ∧
      (collect (fun _ => true) (collect (fun _ => true) fresh twoPartitionSolver).1
        (collect (fun _ => true) fresh twoPartitionSolver).2).1.stock
        StockField.modelDataTrajectoriesStock_ = [[], []] := by
  decide

end DDP_DataCollector
end ocs2
